import Mathlib

/-!
# The well of openblok (src/game/components/Well.cpp)

A shallow embedding of `Well`: the board matrix, the active piece, collision
detection, movement, locking, line clears, row removal, key handling and the
per-frame `update`.

Conventions of the embedding.

* `assert(...)` is modelled as failure: a function that contains an assertion
  (or calls one that does) returns `Except Failure _`, and the error names the
  assertion that failed. Indexing a `std::array` out of range and
  dereferencing an empty `active_piece` are failures too.
* `int` values are `Int`, `unsigned` values are `Nat`. The row and column
  offsets stay far below any machine word, the one place where a signed value
  is converted to unsigned (`active_piece_x + cell` in `lockAndReleasePiece`,
  the key of `pending_cleared_rows.count`) is written with `toUnsigned`.
* `Duration` values are integer tick counts.
* Loops of the source that run over a fixed range are folds over that range;
  `while` loops carry a fuel argument that is an upper bound of their
  iteration count.
-/

namespace OpenBlok

/-! ## Data model -/

/-- Modelled from the spec: the closed enumeration of the seven piece
identities (`Piece::Type`; Piece.h is not among the sources). -/
inductive PieceType where
  | I | J | L | O | S | T | Z
deriving DecidableEq, Repr

/-- A mino: one occupied cell, carrying the identity of the piece it came
from. -/
structure Mino where
  piece_type : PieceType
deriving DecidableEq, Repr

/-- A cell of the board or of a piece grid: `std::unique_ptr<Mino>`, empty
(`none`) or holding a mino. -/
abbrev Cell := Option Mino

/-- Number of rows of the board, `matrix.size()`: 22, the row count of the
loops of `draw` and of the spec (Well.h is not among the sources). -/
abbrev rows : Nat := 22

/-- Number of columns of the board, `matrix[0].size()`: 10, the column count
of the loops of `draw` and of the spec. -/
abbrev columns : Nat := 10

/-- One row of the board: `std::array<std::unique_ptr<Mino>, 10>`. -/
abbrev Row := Fin columns → Cell

/-- The board: `std::array<Row, 22> matrix`, row 0 at the top. -/
abbrev Matrix := Fin rows → Row

/-- The 4x4 occupancy grid of a piece in one orientation, indexed by row and
then column. -/
abbrev PieceGrid := Fin 4 → Fin 4 → Cell

/-- Modelled from the spec: Piece (Piece.h and Piece.cpp are not among the
sources). A piece exposes the 4x4 grid of its current orientation and two
orientation transitions, clockwise and counter-clockwise, that are mutual
inverses. It is modelled as four orientation frames and the index of the
current one. -/
structure Piece where
  frames : Fin 4 → PieceGrid
  current_rotation : Fin 4

/-- Modelled from the spec: `Piece::currentGrid`, the grid of the current
orientation. -/
def Piece.currentGrid (p : Piece) : PieceGrid := p.frames p.current_rotation

/-- Modelled from the spec: `Piece::rotateCW`, the clockwise orientation
transition. -/
def Piece.rotateCW (p : Piece) : Piece :=
  { p with current_rotation := p.current_rotation + 1 }

/-- Modelled from the spec: `Piece::rotateCCW`, the counter-clockwise
orientation transition, inverse of `rotateCW`. -/
def Piece.rotateCCW (p : Piece) : Piece :=
  { p with current_rotation := p.current_rotation - 1 }

/-- Durations (`std::chrono` durations) as integer tick counts. Constants of
the source are given in milliseconds. -/
abbrev Duration := Int

/-- Modelled from the spec: the logical input identities. The well tracks
LEFT, RIGHT, UP, DOWN, A, B and C; every other identity of `InputType`
(InputEvent.h is not among the sources) is `OTHER`. -/
inductive InputType where
  | LEFT | RIGHT | UP | DOWN | A | B | C
  | OTHER (code : Nat)
deriving DecidableEq, Repr

/-- Modelled from the spec: an input event carries an input identity and a
down/up transition (`InputEvent::type()`, `InputEvent::down()`). -/
structure InputEvent where
  type : InputType
  down : Bool
deriving DecidableEq, Repr

/-- The map `keystates` (and `previous_keystates`): the constructor inserts
exactly the seven tracked keys and no key is inserted later, so the map is a
record of seven booleans. -/
structure KeyStates where
  left : Bool
  right : Bool
  up : Bool
  down : Bool
  a : Bool
  b : Bool
  c : Bool
deriving DecidableEq, Repr

/-- Whether the map has the key: `keystates.count(type)`. -/
def KeyStates.count (_ks : KeyStates) : InputType → Bool
  | .OTHER _ => false
  | _ => true

/-- Lookup of a key: `keystates.at(type)` (only ever called with one of the
seven tracked keys). -/
def KeyStates.at (ks : KeyStates) : InputType → Bool
  | .LEFT => ks.left
  | .RIGHT => ks.right
  | .UP => ks.up
  | .DOWN => ks.down
  | .A => ks.a
  | .B => ks.b
  | .C => ks.c
  | .OTHER _ => false

/-- Assignment of a tracked key: `keystates[type] = value`. -/
def KeyStates.set (ks : KeyStates) (k : InputType) (v : Bool) : KeyStates :=
  match k with
  | .LEFT => { ks with left := v }
  | .RIGHT => { ks with right := v }
  | .UP => { ks with up := v }
  | .DOWN => { ks with down := v }
  | .A => { ks with a := v }
  | .B => { ks with b := v }
  | .C => { ks with c := v }
  | .OTHER _ => ks

/-- The keys of the map, in the order of the constructor. -/
def KeyStates.keys : List InputType :=
  [.LEFT, .RIGHT, .UP, .DOWN, .A, .B, .C]

/-- All seven keys released. -/
def KeyStates.allReleased : KeyStates :=
  { left := false, right := false, up := false, down := false,
    a := false, b := false, c := false }

/-- Modelled from the spec: the fade timer `lineclear_alpha`
(Transition.h is not among the sources): a fixed duration, the time
accumulated so far and whether the timer is running. -/
structure Transition where
  duration : Duration
  timer : Duration
  is_running : Bool
deriving DecidableEq, Repr

/-- Modelled from the spec: `Transition::running`. -/
def Transition.running (t : Transition) : Bool := t.is_running

/-- Modelled from the spec: `Transition::stop`, the timer no longer runs. -/
def Transition.stop (t : Transition) : Transition :=
  { t with is_running := false }

/-- Modelled from the spec: `Transition::reset`, the timer starts again from
zero. -/
def Transition.reset (t : Transition) : Transition :=
  { t with timer := 0, is_running := true }

/-- Modelled from the spec: `Transition::update`. A timer that does not run is
left alone; a running timer accumulates the elapsed time and, once it has
reached its duration, stops and fires its completion callback. The boolean
says whether the callback fires. -/
def Transition.update (t : Transition) (elapsed : Duration) : Transition × Bool :=
  if t.is_running then
    if t.timer + elapsed ≥ t.duration then
      ({ t with timer := t.duration, is_running := false }, true)
    else
      ({ t with timer := t.timer + elapsed }, false)
  else (t, false)

/-- The assertions of Well.cpp and the other ways a call can fail. -/
inductive Failure where
  /-- Assertion `assert(offset_x + 3 >= 0 && offset_x < matrix[0].size())` in `hasCollisionAt` -/
  | collisionAnchorX
  /-- Assertion `assert(offset_y < matrix.size())` in `hasCollisionAt` -/
  | collisionAnchorY
  /-- Assertion `assert(active_piece)` in `hasCollisionAt` -/
  | collisionNoPiece
  /-- Assertion `assert(active_piece)` in `calculateGhostOffset` -/
  | ghostNoPiece
  /-- Assertion `assert(active_piece)` in `hardDrop` -/
  | hardDropNoPiece
  /-- Assertion `assert(requiresNewPiece())` in `addPiece` -/
  | addPieceNotRequired
  /-- Call of `active_piece->currentGrid()` on an empty pointer in `lockAndReleasePiece` -/
  | lockNoPiece
  /-- Assertion `assert(!active_piece)` in `checkLineclear` -/
  | lineclearActivePiece
  /-- Assertion `assert(pending_cleared_rows.size() <= 4)` in `checkLineclear` -/
  | lineclearTooManyRows
  /-- Assertion `assert(pending_cleared_rows.size())` in `removeEmptyRows` -/
  | removeNoPendingRows
  /-- Assertion `assert(lineclear_alpha.running())` in `update` -/
  | updateNotRunning
  /-- Assertion `assert(!active_piece)` in `update` -/
  | updateActivePiece
  /-- Access `matrix[row]` with a row index outside the array -/
  | matrixIndex
deriving DecidableEq, Repr

/-- The state of a `Well`: every data member of the class. -/
structure Well where
  gameover : Bool
  matrix : Matrix
  active_piece : Option Piece
  active_piece_x : Int
  active_piece_y : Nat
  ghost_piece_y : Nat
  gravity_update_rate : Duration
  gravity_timer : Duration
  autorepeat_delay : Duration
  keypress_normal_update_rate : Duration
  keypress_turbo_update_rate : Duration
  autorepeat_timer : Duration
  keypress_rate_now : Duration
  keypress_countdown : Duration
  keystates : KeyStates
  previous_keystates : KeyStates
  skip_gravity : Bool
  pending_cleared_rows : Finset Nat
  lineclear_alpha : Transition

/-- An empty row. -/
def emptyRow : Row := fun _ => none

/-- The empty board. -/
def emptyMatrix : Matrix := fun _ => emptyRow

/-- Conversion of an `int` to `unsigned` (32 bits), as the usual arithmetic
conversions do when an `int` meets an `unsigned`. -/
def toUnsigned (i : Int) : Nat := (i % 4294967296).toNat

/-- The constructor `Well::Well()`, durations in milliseconds. -/
def Well.init : Well :=
  { gameover := false
    matrix := emptyMatrix
    active_piece := none
    active_piece_x := 0
    active_piece_y := 0
    ghost_piece_y := 0
    gravity_update_rate := 1000
    gravity_timer := 0
    autorepeat_delay := 300
    keypress_normal_update_rate := 150
    keypress_turbo_update_rate := 40
    autorepeat_timer := 0
    keypress_rate_now := 150
    keypress_countdown := 0
    keystates := KeyStates.allReleased
    previous_keystates := KeyStates.allReleased
    skip_gravity := false
    pending_cleared_rows := ∅
    lineclear_alpha := Transition.stop { duration := 500, timer := 0, is_running := false } }

/-! ## Collision detection -/

/-- The cell `matrix.at(row).at(cell)`; only called inside the bounds, outside
of them the result is `none`. -/
def cellAt (m : Matrix) (row cell : Nat) : Cell :=
  if h : row < rows then
    if h2 : cell < columns then m ⟨row, h⟩ ⟨cell, h2⟩ else none
  else none

/-- The value of `board_has_mino_here` in `hasCollisionAt`: `true` outside the
board, the occupancy of the board cell inside. -/
def boardHasMinoHere (m : Matrix) (row : Nat) (cell : Int) : Bool :=
  if row < rows ∧ 0 ≤ cell ∧ cell < (columns : Int) then
    (cellAt m row cell.toNat).isSome
  else true

/-- The two nested loops of `hasCollisionAt`: `piece_gridy` and `piece_gridx`
run over 0..3 together with `row = offset_y + piece_gridy` and
`cell = offset_x + piece_gridx`; the function returns `true` at the first
cell where both the piece and the board have a mino, `false` when there is
none. -/
def collides (m : Matrix) (g : PieceGrid) (offset_x : Int) (offset_y : Nat) : Bool :=
  (List.finRange 4).any fun piece_gridy =>
    (List.finRange 4).any fun piece_gridx =>
      let board_has_mino_here :=
        boardHasMinoHere m (offset_y + piece_gridy.val) (offset_x + (piece_gridx.val : Int))
      let piece_has_mino_here := (g piece_gridy piece_gridx).isSome
      piece_has_mino_here && board_has_mino_here

/-- Function `Well::hasCollisionAt(offset_x, offset_y)`: the three assertions, then the
scan. It reads the state and returns a boolean only. -/
def Well.hasCollisionAt (w : Well) (offset_x : Int) (offset_y : Nat) : Except Failure Bool :=
  if ¬ (offset_x + 3 ≥ 0 ∧ offset_x < (columns : Int)) then .error .collisionAnchorX
  else if ¬ (offset_y < rows) then .error .collisionAnchorY
  else
    match w.active_piece with
    | none => .error .collisionNoPiece
    | some p => .ok (collides w.matrix p.currentGrid offset_x offset_y)

/-! ## Ghost offset -/

/-- The `while` loop of `calculateGhostOffset`, started at `ghost`:
`while (ghost_piece_y + 1u < matrix.size() && !hasCollisionAt(active_piece_x, ghost_piece_y + 1)) ghost_piece_y++`.
Every iteration increases `ghost_piece_y`, which stays below `matrix.size()`,
so `rows` is enough fuel. -/
def Well.ghostLoop (w : Well) : Nat → Nat → Except Failure Nat
  | 0, ghost => .ok ghost
  | fuel + 1, ghost =>
    if ghost + 1 < rows then
      match w.hasCollisionAt w.active_piece_x (ghost + 1) with
      | .error e => .error e
      | .ok true => .ok ghost
      | .ok false => w.ghostLoop fuel (ghost + 1)
    else .ok ghost

/-- Function `Well::calculateGhostOffset()`. -/
def Well.calculateGhostOffset (w : Well) : Except Failure Well :=
  match w.active_piece with
  | none => .error .ghostNoPiece
  | some _ =>
    match w.ghostLoop rows w.active_piece_y with
    | .error e => .error e
    | .ok ghost => .ok { w with ghost_piece_y := ghost }

/-! ## Input state -/

/-- Function `Well::resetAutorepeat()`. -/
def Well.resetAutorepeat (w : Well) : Well :=
  { w with autorepeat_timer := 0, keypress_rate_now := w.keypress_normal_update_rate }

/-- Function `Well::resetInput()`. -/
def Well.resetInput (w : Well) : Well :=
  let w1 := w.resetAutorepeat
  { w1 with keypress_countdown := w1.keypress_rate_now, keystates := KeyStates.allReleased }

/-! ## Locking and line clears -/

/-- Assignment of one board cell, `matrix[row][cell] = value`. -/
def setCell (m : Matrix) (row cell : Nat) (value : Cell) : Matrix :=
  fun i j => if i.val = row ∧ j.val = cell then value else m i j

/-- The sixteen grid positions in the order the loops of
`lockAndReleasePiece` visit them: row by row, each row cell by cell. -/
def gridCells : List (Fin 4 × Fin 4) :=
  (List.finRange 4).flatMap fun row => (List.finRange 4).map fun cell => (row, cell)

/-- The loops of `lockAndReleasePiece`: every occupied cell of the piece grid
whose target `(active_piece_y + row, active_piece_x + cell)` passes the two
bounds tests is swapped into the board. The sum `active_piece_x + cell` is
unsigned in the source. The piece receives the previous board cell in
exchange; it is released right after, so only the board is kept. -/
def lockCells (m : Matrix) (g : PieceGrid) (x : Int) (y : Nat) : Matrix :=
  gridCells.foldl
    (fun m rc =>
      if y + rc.1.val < rows ∧ toUnsigned (x + (rc.2.val : Int)) < columns ∧ (g rc.1 rc.2).isSome then
        setCell m (y + rc.1.val) (toUnsigned (x + (rc.2.val : Int))) (g rc.1 rc.2)
      else m)
    m

/-- Whether every cell of the row is occupied: the inner loop of
`checkLineclear`. -/
def rowFilled (r : Row) : Bool :=
  (List.finRange columns).all fun cell => (r cell).isSome

/-- The first loop of `checkLineclear`: the index of every filled row is
inserted into `pending_cleared_rows`. -/
def collectFilledRows (m : Matrix) (pending : Finset Nat) : Finset Nat :=
  (List.finRange rows).foldl
    (fun pending row => if rowFilled (m row) then insert row.val pending else pending)
    pending

/-- The second loop of `checkLineclear`: every cell of every pending row
becomes empty. -/
def clearRows (m : Matrix) (pending : Finset Nat) : Matrix :=
  fun row => if row.val ∈ pending then emptyRow else m row

/-- Function `Well::checkLineclear()`. -/
def Well.checkLineclear (w : Well) : Except Failure Well :=
  if w.active_piece.isSome then .error .lineclearActivePiece
  else
    let pending := collectFilledRows w.matrix w.pending_cleared_rows
    if ¬ pending.card ≤ 4 then .error .lineclearTooManyRows
    else if pending.card ≠ 0 then
      if ¬ (∀ row ∈ pending, row < rows) then .error .matrixIndex
      else
        .ok (Well.resetInput
          { w with
            pending_cleared_rows := pending
            matrix := clearRows w.matrix pending
            lineclear_alpha := w.lineclear_alpha.reset })
    else .ok { w with pending_cleared_rows := pending }

/-- Function `Well::lockAndReleasePiece()`. -/
def Well.lockAndReleasePiece (w : Well) : Except Failure Well :=
  match w.active_piece with
  | none => .error .lockNoPiece
  | some p =>
    Well.checkLineclear
      { w with
        matrix := lockCells w.matrix p.currentGrid w.active_piece_x w.active_piece_y
        active_piece := none }

/-! ## Row removal -/

/-- The inner loop of `removeEmptyRows`:
`while (pending_cleared_rows.count(next_filled_row)) next_filled_row--`.
The key is converted to the unsigned key type of the set. -/
def nextFilledRow (pending : Finset Nat) : Nat → Int → Int
  | 0, next_filled_row => next_filled_row
  | fuel + 1, next_filled_row =>
    if toUnsigned next_filled_row ∈ pending then
      nextFilledRow pending fuel (next_filled_row - 1)
    else next_filled_row

/-- Exchange of two rows, `matrix[i].swap(matrix[j])`. -/
def swapRows (m : Matrix) (i j : Fin rows) : Matrix :=
  fun k => if k = i then m j else if k = j then m i else m k

/-- The outer loop of `removeEmptyRows` from `row` down to 0 (in the source
`row` is an `int` that starts at `matrix.size()`, and the loop ends when it
would become negative). The result is the matrix at the end of the loop; the
set is cleared by the caller. -/
def removeEmptyRowsLoop : Nat → Matrix → Finset Nat → Except Failure Matrix
  | row, m, pending =>
    if row ∉ pending then
      match row with
      | 0 => .ok m
      | r + 1 => removeEmptyRowsLoop r m pending
    else
      let next_filled_row := nextFilledRow pending (row + 2) (row : Int)
      if next_filled_row < 0 then .ok m
      else if h : row < rows ∧ next_filled_row.toNat < rows then
        let m1 := swapRows m ⟨row, h.1⟩ ⟨next_filled_row.toNat, h.2⟩
        let pending1 := insert next_filled_row.toNat pending
        match row with
        | 0 => .ok m1
        | r + 1 => removeEmptyRowsLoop r m1 pending1
      else .error .matrixIndex

/-- Function `Well::removeEmptyRows()`. -/
def Well.removeEmptyRows (w : Well) : Except Failure Well :=
  if w.pending_cleared_rows.card = 0 then .error .removeNoPendingRows
  else
    match removeEmptyRowsLoop rows w.matrix w.pending_cleared_rows with
    | .error e => .error e
    | .ok m => .ok { w with matrix := m, pending_cleared_rows := ∅ }

/-! ## Movement -/

/-- Function `Well::moveLeftNow()`. -/
def Well.moveLeftNow (w : Well) : Except Failure Well :=
  if w.active_piece.isNone ∨ w.active_piece_x - 1 ≤ -3 then .ok w
  else
    match w.hasCollisionAt (w.active_piece_x - 1) w.active_piece_y with
    | .error e => .error e
    | .ok true => .ok w
    | .ok false =>
      Well.calculateGhostOffset { w with active_piece_x := w.active_piece_x - 1 }

/-- Function `Well::moveRightNow()`. -/
def Well.moveRightNow (w : Well) : Except Failure Well :=
  if w.active_piece.isNone ∨ w.active_piece_x + 1 ≥ (columns : Int) then .ok w
  else
    match w.hasCollisionAt (w.active_piece_x + 1) w.active_piece_y with
    | .error e => .error e
    | .ok true => .ok w
    | .ok false =>
      Well.calculateGhostOffset { w with active_piece_x := w.active_piece_x + 1 }

/-- Function `Well::moveDownNow()`: the early return, then the step down when
the piece fits one row lower, then the lock when the row did not change. -/
def Well.moveDownNow (w : Well) : Except Failure Well :=
  if w.active_piece.isNone ∨ w.active_piece_y + 1 ≥ rows then .ok w
  else
    let pos_before := w.active_piece_y
    match w.hasCollisionAt w.active_piece_x (w.active_piece_y + 1) with
    | .error e => .error e
    | .ok collision =>
      let w1 := if ¬ collision then { w with active_piece_y := w.active_piece_y + 1 } else w
      if pos_before = w1.active_piece_y then w1.lockAndReleasePiece else .ok w1

/-- Function `Well::applyGravity()`. -/
def Well.applyGravity (w : Well) : Except Failure Well := w.moveDownNow

/-- Function `Well::hardDrop()`. -/
def Well.hardDrop (w : Well) : Except Failure Well :=
  match w.active_piece with
  | none => .error .hardDropNoPiece
  | some _ => Well.moveDownNow { w with active_piece_y := w.ghost_piece_y }

/-- Function `Well::rotateCWNow()`: rotate, try the offsets `x`, `x - 1` and
`x + 1` in this order, recompute the ghost on success, rotate back
otherwise. -/
def Well.rotateCWNow (w : Well) : Except Failure Well :=
  match w.active_piece with
  | none => .ok w
  | some p =>
    let w1 := { w with active_piece := some p.rotateCW }
    match w1.hasCollisionAt w1.active_piece_x w1.active_piece_y with
    | .error e => .error e
    | .ok false => w1.calculateGhostOffset
    | .ok true =>
      match w1.hasCollisionAt (w1.active_piece_x - 1) w1.active_piece_y with
      | .error e => .error e
      | .ok false =>
        Well.calculateGhostOffset { w1 with active_piece_x := w1.active_piece_x - 1 }
      | .ok true =>
        match w1.hasCollisionAt (w1.active_piece_x + 1) w1.active_piece_y with
        | .error e => .error e
        | .ok false =>
          Well.calculateGhostOffset { w1 with active_piece_x := w1.active_piece_x + 1 }
        | .ok true => .ok { w1 with active_piece := some p.rotateCW.rotateCCW }

/-- Function `Well::rotateCCWNow()`: rotate, try the offsets `x`, `x + 1` and
`x - 1` in this order, recompute the ghost on success, rotate back
otherwise. -/
def Well.rotateCCWNow (w : Well) : Except Failure Well :=
  match w.active_piece with
  | none => .ok w
  | some p =>
    let w1 := { w with active_piece := some p.rotateCCW }
    match w1.hasCollisionAt w1.active_piece_x w1.active_piece_y with
    | .error e => .error e
    | .ok false => w1.calculateGhostOffset
    | .ok true =>
      match w1.hasCollisionAt (w1.active_piece_x + 1) w1.active_piece_y with
      | .error e => .error e
      | .ok false =>
        Well.calculateGhostOffset { w1 with active_piece_x := w1.active_piece_x + 1 }
      | .ok true =>
        match w1.hasCollisionAt (w1.active_piece_x - 1) w1.active_piece_y with
        | .error e => .error e
        | .ok false =>
          Well.calculateGhostOffset { w1 with active_piece_x := w1.active_piece_x - 1 }
        | .ok true => .ok { w1 with active_piece := some p.rotateCCW.rotateCW }

/-! ## Keys, gravity and the frame update -/

/-- Function `Well::updateKeystate(events)`. -/
def Well.updateKeystate (w : Well) (events : List InputEvent) : Well :=
  let keystates :=
    events.foldl
      (fun ks event => if ks.count event.type then ks.set event.type event.down else ks)
      w.keystates
  let w1 : Well :=
    { w with
      previous_keystates := w.keystates
      keystates := keystates
      skip_gravity := keystates.at .DOWN && w.keystates.at .DOWN }
  if KeyStates.keys.any (fun k => w1.previous_keystates.at k && !w1.keystates.at k) then
    w1.resetAutorepeat
  else w1

/-- The end of `handleKeys`: the countdown restarts when a key press was
handled, and the autorepeat timer advances or is reset. -/
def Well.finishKeys (frame_duration : Duration) (w : Well)
    (keypress_happened update_autorepeat_timer : Bool) : Well :=
  if keypress_happened then
    let w1 := { w with keypress_countdown := w.keypress_rate_now }
    if update_autorepeat_timer then
      let w2 :=
        { w1 with autorepeat_timer := w1.autorepeat_timer + (w1.keypress_rate_now + frame_duration) }
      if w2.autorepeat_timer > w2.autorepeat_delay then
        { w2 with keypress_rate_now := w2.keypress_turbo_update_rate }
      else w2
    else w1.resetAutorepeat
  else w

/-- The horizontal step of `handleKeys`: LEFT xor RIGHT. -/
def Well.handleHorizontal (w : Well) : Except Failure Well :=
  if w.keystates.at .LEFT ≠ w.keystates.at .RIGHT then
    if w.keystates.at .LEFT then w.moveLeftNow else w.moveRightNow
  else .ok w

/-- The DOWN step of `handleKeys`. -/
def Well.handleDown (w : Well) : Except Failure Well :=
  if w.keystates.at .DOWN then
    match w.moveDownNow with
    | .error e => .error e
    | .ok w1 => .ok { w1 with skip_gravity := true }
  else .ok w

/-- The UP step of `handleKeys`. -/
def Well.handleUp (w : Well) : Except Failure Well :=
  if w.keystates.at .UP then
    match w.hardDrop with
    | .error e => .error e
    | .ok w1 => .ok { w1 with skip_gravity := true }
  else .ok w

/-- The rotation step of `handleKeys`: A xor B. -/
def Well.handleRotate (w : Well) : Except Failure Well :=
  if w.keystates.at .A ≠ w.keystates.at .B then
    match (if w.keystates.at .A then w.rotateCCWNow else w.rotateCWNow) with
    | .error e => .error e
    | .ok w1 => .ok w1.resetAutorepeat
  else .ok w

/-- Function `Well::handleKeys()`. Each of the four tests reads `keystates`
at the moment it is reached; `keypress_happened` and
`update_autorepeat_timer` are the two local flags. -/
def Well.handleKeys (frame_duration : Duration) (w : Well) : Except Failure Well :=
  let horizontal : Bool := w.keystates.at .LEFT != w.keystates.at .RIGHT
  match w.handleHorizontal with
  | .error e => .error e
  | .ok w1 =>
    let down := w1.keystates.at .DOWN
    match w1.handleDown with
    | .error e => .error e
    | .ok w2 =>
      let up := w2.keystates.at .UP
      match w2.handleUp with
      | .error e => .error e
      | .ok w3 =>
        let rotate : Bool := w3.keystates.at .A != w3.keystates.at .B
        match w3.handleRotate with
        | .error e => .error e
        | .ok w4 =>
          .ok (w4.finishKeys frame_duration
            (horizontal || down || up || rotate) (horizontal || down))

/-- Function `Well::updateGravity()`. -/
def Well.updateGravity (frame_duration : Duration) (w : Well) : Except Failure Well :=
  let w1 := { w with gravity_timer := w.gravity_timer + frame_duration }
  if w1.gravity_timer ≥ w1.gravity_update_rate then
    let w2 := { w1 with gravity_timer := w1.gravity_timer - w1.gravity_update_rate }
    if ¬ w2.skip_gravity then w2.applyGravity else .ok w2
  else .ok w1

/-- The call `lineclear_alpha.update(frame_duration)` in `update`: the timer
advances and, on completion, its callback `removeEmptyRows` runs. -/
def Well.updateLineclearAlpha (frame_duration : Duration) (w : Well) : Except Failure Well :=
  let r := w.lineclear_alpha.update frame_duration
  let w1 := { w with lineclear_alpha := r.1 }
  if r.2 then w1.removeEmptyRows else .ok w1

/-- Function `Well::update(events, app)`, with `GameState::frame_duration` as
a parameter. -/
def Well.update (frame_duration : Duration) (w : Well) (events : List InputEvent) :
    Except Failure Well :=
  if w.gameover then .ok w
  else if w.pending_cleared_rows.card ≠ 0 then
    if ¬ w.lineclear_alpha.running then .error .updateNotRunning
    else
      match w.updateLineclearAlpha frame_duration with
      | .error e => .error e
      | .ok w1 => if w1.active_piece.isSome then .error .updateActivePiece else .ok w1
  else
    let w1 := w.updateKeystate events
    let w2 := { w1 with keypress_countdown := w1.keypress_countdown - frame_duration }
    match (if w2.keypress_countdown ≤ 0 then w2.handleKeys frame_duration else .ok w2) with
    | .error e => .error e
    | .ok w3 => w3.updateGravity frame_duration

/-- Several frames in a row: `update` once per event list. -/
def Well.updateAll (frame_duration : Duration) (w : Well) :
    List (List InputEvent) → Except Failure Well
  | [] => .ok w
  | events :: rest =>
    match w.update frame_duration events with
    | .error e => .error e
    | .ok w1 => w1.updateAll frame_duration rest

/-! ## Spawning -/

/-- Function `Well::requiresNewPiece()`. -/
def Well.requiresNewPiece (w : Well) : Bool :=
  !w.active_piece.isSome && !w.gameover && !w.lineclear_alpha.running

/-- Function `Well::addPiece(type)`; `piece` is the piece that
`PieceFactory::make_uptr(type)` returns. -/
def Well.addPiece (w : Well) (piece : Piece) : Except Failure Well :=
  if ¬ w.requiresNewPiece then .error .addPieceNotRequired
  else
    let w1 := { w with active_piece := some piece, active_piece_x := 3, active_piece_y := 0 }
    match w1.calculateGhostOffset with
    | .error e => .error e
    | .ok w2 =>
      match w2.hasCollisionAt w2.active_piece_x w2.active_piece_y with
      | .error e => .error e
      | .ok false => .ok w2
      | .ok true =>
        match w2.lockAndReleasePiece with
        | .error e => .error e
        | .ok w3 => .ok { w3 with gameover := true }

/-! ## Rows as lists -/

/-- The row of the board with index `i`, the empty row outside the board. -/
def rowAt (m : Matrix) (i : Nat) : Row :=
  if h : i < rows then m ⟨i, h⟩ else emptyRow

/-- The first `n` rows of the board, top to bottom. -/
def prefixRows (m : Matrix) (n : Nat) : List Row :=
  (List.range n).map (rowAt m)

/-- The rows with index below `n` that are not pending, top to bottom. -/
def survivors (m : Matrix) (pending : Finset Nat) (n : Nat) : List Row :=
  ((List.range n).filter (fun i => decide (i ∉ pending))).map (rowAt m)

/-- The number of pending row indices below `n`. -/
def pendingBelow (pending : Finset Nat) (n : Nat) : Nat :=
  ((List.range n).filter (fun i => decide (i ∈ pending))).length

/-- Gravity compaction of the first `n` rows: one empty row for every pending
row, followed by the rows that are not pending in their original order. -/
def compacted (m : Matrix) (pending : Finset Nat) (n : Nat) : List Row :=
  List.replicate (pendingBelow pending n) emptyRow ++ survivors m pending n

/-! ## Predicates on states -/

/-- The anchor of the active piece is in the range that `hasCollisionAt` (and
`asAscii`) assert: at least one column of the 4-wide box is on the board and
the row offset is a board row. -/
def Well.InRange (w : Well) : Prop :=
  -3 ≤ w.active_piece_x ∧ w.active_piece_x < (columns : Int) ∧ w.active_piece_y < rows

/-- The ghost offset is valid: it is not above the piece, no row strictly
below the piece down to the ghost row collides, and no further row has that
property, so it is the largest such row. -/
def Well.GhostValid (w : Well) : Prop :=
  w.active_piece_y ≤ w.ghost_piece_y ∧
  (∀ y, w.active_piece_y < y → y ≤ w.ghost_piece_y →
    w.hasCollisionAt w.active_piece_x y = .ok false) ∧
  (∀ g, w.active_piece_y ≤ g →
    (∀ y, w.active_piece_y < y → y ≤ g → w.hasCollisionAt w.active_piece_x y = .ok false) →
    g ≤ w.ghost_piece_y)

/-- The facts `calculateGhostOffset` establishes, in terms of `collides`: the
piece `p` is active with its anchor in range, the rows between the piece and
the ghost are free, and the row below the ghost, if it is a board row,
collides. -/
def Well.GhostInv (w : Well) (p : Piece) : Prop :=
  w.active_piece = some p ∧ w.InRange ∧
  w.active_piece_y ≤ w.ghost_piece_y ∧ w.ghost_piece_y < rows ∧
  (∀ y, w.active_piece_y < y → y ≤ w.ghost_piece_y →
    collides w.matrix p.currentGrid w.active_piece_x y = false) ∧
  (w.ghost_piece_y + 1 < rows →
    collides w.matrix p.currentGrid w.active_piece_x (w.ghost_piece_y + 1) = true)

/-- The state `w'` differs from `w` at most in the active piece, its column
offset and the ghost offset: what a horizontal move or a rotation may
change. -/
def Well.SameButPiece (w w' : Well) : Prop :=
  ∃ q x g, w' = { w with active_piece := q, active_piece_x := x, ghost_piece_y := g }

/-- Only the DOWN key held. -/
def KeyStates.downOnly : KeyStates := { KeyStates.allReleased with down := true }

/-- The frames of a held DOWN key: the key is pressed in the first frame and
no further event arrives in the `n - 1` frames that follow. -/
def downFrames : Nat → List (List InputEvent)
  | 0 => []
  | n + 1 => [⟨.DOWN, true⟩] :: List.replicate n []

/-- A piece `p` is falling in a well that is in play: the ghost offset is
valid, the game is not over, no row is pending or completely filled, and the
keypress countdown and all repeat rates are at most one frame duration. -/
def Well.Falling (frame_duration : Duration) (w : Well) (p : Piece) : Prop :=
  w.GhostInv p ∧ w.gameover = false ∧ w.pending_cleared_rows = ∅ ∧
  (∀ i, rowFilled (w.matrix i) = false) ∧
  w.keypress_countdown ≤ frame_duration ∧ w.keypress_rate_now ≤ frame_duration ∧
  w.keypress_normal_update_rate ≤ frame_duration ∧
  w.keypress_turbo_update_rate ≤ frame_duration

/-- The piece has been locked: no piece is active, the game is not over, UP is
not held, and when rows are pending the fade timer runs and the pending
indices are board rows. -/
def Well.Settled (w : Well) : Prop :=
  w.active_piece = none ∧ w.gameover = false ∧ w.keystates.at .UP = false ∧
  (w.pending_cleared_rows.card ≠ 0 →
    w.lineclear_alpha.running = true ∧ ∀ i ∈ w.pending_cleared_rows, i < rows)

/-- The state `w'` differs from `w` at most in the input timers and the
gravity flag. -/
def Well.SameButTimers (w w' : Well) : Prop :=
  ∃ c t r s, w' =
    { w with
      keypress_countdown := c, autorepeat_timer := t, keypress_rate_now := r
      skip_gravity := s }

/-- The movement commands of the well. -/
inductive Move where
  | left | right | down | rotateCW | rotateCCW | hardDrop
deriving DecidableEq, Repr

/-- The function a movement command stands for. -/
def Well.applyMove (w : Well) : Move → Except Failure Well
  | .left => w.moveLeftNow
  | .right => w.moveRightNow
  | .down => w.moveDownNow
  | .rotateCW => w.rotateCWNow
  | .rotateCCW => w.rotateCCWNow
  | .hardDrop => w.hardDrop

/-- A sequence of movement commands, one call after the other. -/
def Well.run (w : Well) : List Move → Except Failure Well
  | [] => .ok w
  | m :: rest =>
    match w.applyMove m with
    | .error e => .error e
    | .ok w1 => w1.run rest
/-- The piece `p` is in play: the facts of `GhostInv`, and `p` does not collide
at its own position. -/
def Well.InPlay (w : Well) (p : Piece) : Prop :=
  w.GhostInv p ∧ collides w.matrix p.currentGrid w.active_piece_x w.active_piece_y = false
/-- Only the LEFT key held. -/
def KeyStates.leftOnly : KeyStates := { KeyStates.allReleased with left := true }

/-- The state `w'` has the input state of `w`: key states, autorepeat timer,
repeat rate, keypress countdown and the three timing constants. -/
def Well.SameInput (w w' : Well) : Prop :=
  w'.keystates = w.keystates ∧ w'.autorepeat_timer = w.autorepeat_timer ∧
  w'.keypress_rate_now = w.keypress_rate_now ∧
  w'.keypress_countdown = w.keypress_countdown ∧
  w'.autorepeat_delay = w.autorepeat_delay ∧
  w'.keypress_normal_update_rate = w.keypress_normal_update_rate ∧
  w'.keypress_turbo_update_rate = w.keypress_turbo_update_rate

/-- One frame in which LEFT alone is held and no key is released: before the
frame no key or LEFT alone is held, after the events of the frame LEFT alone is
held, `update` returns, and LEFT alone is still held after it (a line clear
would release all keys). -/
def Well.LeftHeldFrame (frame_duration : Duration) (w : Well) (events : List InputEvent)
    (w' : Well) : Prop :=
  (w.keystates = KeyStates.allReleased ∨ w.keystates = KeyStates.leftOnly) ∧
  (w.updateKeystate events).keystates = KeyStates.leftOnly ∧
  w.update frame_duration events = .ok w' ∧ w'.keystates = KeyStates.leftOnly

/-- The runs of `n` frames in a row, from the state `w`, in which LEFT alone
is held. -/
inductive Well.LeftHeld (frame_duration : Duration) : Well → Nat → Well → Prop
  | start (w : Well) : Well.LeftHeld frame_duration w 0 w
  | frame (w : Well) (n : Nat) (w1 w2 : Well) (events : List InputEvent) :
      Well.LeftHeld frame_duration w n w1 → Well.LeftHeldFrame frame_duration w1 events w2 →
      Well.LeftHeld frame_duration w (n + 1) w2

/-- The invariant of the line-clear sequencer: no board row is completely
filled, at most four rows are pending, and while rows are pending no piece is
active and the fade timer runs. -/
def Well.Tidy (w : Well) : Prop :=
  (∀ i, rowFilled (w.matrix i) = false) ∧ w.pending_cleared_rows.card ≤ 4 ∧
  (w.pending_cleared_rows.card ≠ 0 →
    w.active_piece = none ∧ w.lineclear_alpha.running = true)

/-- A call result that is a state with the invariant `Tidy`, or a failure
other than the assertion `pending_cleared_rows.size() <= 4`. -/
def Well.Safe (r : Except Failure Well) : Prop :=
  match r with
  | .ok w' => w'.Tidy
  | .error e => e ≠ .lineclearTooManyRows

/-- The states reachable from the initial well by `addPiece` calls, made only
when `requiresNewPiece` holds, and `update` calls that return. -/
inductive Well.Reachable (frame_duration : Duration) : Well → Prop
  | init : Well.Reachable frame_duration Well.init
  | addPiece (w w' : Well) (piece : Piece) :
      Well.Reachable frame_duration w → w.requiresNewPiece = true →
      w.addPiece piece = .ok w' → Well.Reachable frame_duration w'
  | update (w w' : Well) (events : List InputEvent) :
      Well.Reachable frame_duration w → w.update frame_duration events = .ok w' →
      Well.Reachable frame_duration w'
/-! ## Text dump -/

/-- The ways `fromAscii` and `asAscii` can fail. -/
inductive AsciiFailure where
  /-- Assertion `assert(text.length() == matrix.size() * (matrix[0].size() + 1))` in `fromAscii` -/
  | textLength
  /-- Access `text.at(str_i)` outside the string -/
  | textIndex
  /-- Call of `Piece::typeFromAscii` with a character that names no piece type -/
  | unknownPieceType
  /-- Assertion `assert(0 <= active_piece_x + 3)` in `asAscii` -/
  | anchorLeft
  /-- Assertion `assert(active_piece_x < static_cast<int>(matrix[0].size()))` in `asAscii` -/
  | anchorRight
  /-- Assertion `assert(active_piece_y < matrix.size())` in `asAscii` -/
  | anchorRow
  /-- Assertion `assert(board_layer.length() == piece_layer.length())` in `asAscii` -/
  | layerLength
deriving DecidableEq, Repr

/-- The inner loop of `fromAscii` over the cells of one row. `typeFromAscii`
stands for `Piece::typeFromAscii` (Piece.cpp is not among the sources), `none`
for a character it rejects; `MinoFactory::make_uptr(type)` is the mino of
that type. The counter `str_i` runs along. -/
def fromAsciiCells (typeFromAscii : Char → Option PieceType) (text : List Char)
    (row : Fin rows) : List (Fin columns) → Matrix → Nat → Except AsciiFailure (Matrix × Nat)
  | [], m, str_i => .ok (m, str_i)
  | cell :: rest, m, str_i =>
    match text[str_i]? with
    | none => .error .textIndex
    | some c =>
      if c = '.' then
        fromAsciiCells typeFromAscii text row rest (setCell m row.val cell.val none) (str_i + 1)
      else
        match typeFromAscii c with
        | none => .error .unknownPieceType
        | some t =>
          fromAsciiCells typeFromAscii text row rest
            (setCell m row.val cell.val (some ⟨t⟩)) (str_i + 1)

/-- The outer loop of `fromAscii` over the rows; after each row the counter
skips the newline. -/
def fromAsciiRows (typeFromAscii : Char → Option PieceType) (text : List Char) :
    List (Fin rows) → Matrix → Nat → Except AsciiFailure Matrix
  | [], m, _ => .ok m
  | row :: rest, m, str_i =>
    match fromAsciiCells typeFromAscii text row (List.finRange columns) m str_i with
    | .error e => .error e
    | .ok (m1, str_i1) => fromAsciiRows typeFromAscii text rest m1 (str_i1 + 1)

/-- Function `Well::fromAscii(text)`. -/
def Well.fromAscii (typeFromAscii : Char → Option PieceType) (w : Well) (text : List Char) :
    Except AsciiFailure Well :=
  if text.length ≠ rows * (columns + 1) then .error .textLength
  else
    match fromAsciiRows typeFromAscii text (List.finRange rows) w.matrix 0 with
    | .error e => .error e
    | .ok m => .ok { w with matrix := m }

/-- The access `currentGrid().at(r).at(c)`; `asAscii` only calls it inside the
grid. -/
def gridAt (g : PieceGrid) (r c : Nat) : Cell :=
  if h : r < 4 ∧ c < 4 then g ⟨r, h.1⟩ ⟨c, h.2⟩ else none

/-- The character `appended_char` of the piece layer of `asAscii` at one cell:
`g` for a ghost mino, the lower-case identity character for a mino of the real
piece, which overwrites the ghost. `minoAscii` stands for `Mino::asAscii`
(Mino.cpp is not among the sources). -/
def Well.pieceLayerChar (minoAscii : Mino → Char) (w : Well) (row : Fin rows)
    (cell : Fin columns) : Char :=
  match w.active_piece with
  | none => '.'
  | some p =>
    if w.active_piece_x ≤ (cell.val : Int) ∧ (cell.val : Int) ≤ w.active_piece_x + 3 then
      let ghost_char :=
        if w.ghost_piece_y ≤ row.val ∧ row.val ≤ w.ghost_piece_y + 3 then
          match gridAt p.currentGrid (row.val - w.ghost_piece_y)
              (toUnsigned ((cell.val : Int) - w.active_piece_x)) with
          | some _ => 'g'
          | none => '.'
        else '.'
      if w.active_piece_y ≤ row.val ∧ row.val ≤ w.active_piece_y + 3 then
        match gridAt p.currentGrid (row.val - w.active_piece_y)
            (toUnsigned ((cell.val : Int) - w.active_piece_x)) with
        | some mino => (minoAscii mino).toLower
        | none => ghost_char
      else ghost_char
    else '.'

/-- A layer of `asAscii`: the characters of every row, each row followed by a
newline. -/
def asciiLayer (f : Fin rows → Fin columns → Char) : List Char :=
  (List.finRange rows).flatMap fun row => (List.finRange columns).map (f row) ++ ['\n']

/-- The character of the board layer of `asAscii` at one cell. -/
def boardLayerChar (minoAscii : Mino → Char) (m : Matrix) (row : Fin rows)
    (cell : Fin columns) : Char :=
  match m row cell with
  | some mino => minoAscii mino
  | none => '.'

/-- Function `Well::asAscii()`: the three assertions, the board layer, the
piece layer, and the merge of the two, in which a piece character other than
`.` hides the board character. -/
def Well.asAscii (minoAscii : Mino → Char) (w : Well) : Except AsciiFailure (List Char) :=
  if ¬ (0 ≤ w.active_piece_x + 3) then .error .anchorLeft
  else if ¬ (w.active_piece_x < (columns : Int)) then .error .anchorRight
  else if ¬ (w.active_piece_y < rows) then .error .anchorRow
  else
    let board_layer := asciiLayer (boardLayerChar minoAscii w.matrix)
    let piece_layer := asciiLayer (w.pieceLayerChar minoAscii)
    if board_layer.length ≠ piece_layer.length then .error .layerLength
    else
      .ok (List.zipWith (fun p b => if p ≠ '.' then p else b) piece_layer board_layer)

/-- The character is the empty-cell mark or an identity character that a
parsed mino prints again. -/
def validChar (typeFromAscii : Char → Option PieceType) (minoAscii : Mino → Char)
    (c : Char) : Prop :=
  c = '.' ∨ (typeFromAscii c).map (fun t => minoAscii ⟨t⟩) = some c

instance validCharDecidable (typeFromAscii : Char → Option PieceType)
    (minoAscii : Mino → Char) (c : Char) :
    Decidable (validChar typeFromAscii minoAscii c) := by
  unfold validChar
  exact inferInstance

/-- The cell that `fromAscii` stores for a character. -/
def parseCell (typeFromAscii : Char → Option PieceType) (c : Char) : Cell :=
  if c = '.' then none else (typeFromAscii c).map Mino.mk

/-! ## Sample data -/

/-- The four orientations of a T piece inside the upper left 3x3 corner of
the grid. -/
def tGrid (rotation : Fin 4) : PieceGrid := fun r c =>
  let occupied : Bool :=
    match rotation.val, r.val, c.val with
    | 0, 0, 1 | 0, 1, 0 | 0, 1, 1 | 0, 1, 2 => true
    | 1, 0, 1 | 1, 1, 1 | 1, 1, 2 | 1, 2, 1 => true
    | 2, 1, 0 | 2, 1, 1 | 2, 1, 2 | 2, 2, 1 => true
    | 3, 0, 1 | 3, 1, 0 | 3, 1, 1 | 3, 2, 1 => true
    | _, _, _ => false
  if occupied then some ⟨.T⟩ else none

/-- A sample T piece in its first orientation. -/
def tPiece : Piece := { frames := tGrid, current_rotation := 0 }

/-- The initial well with `tPiece` active at column 3, row 0, and the ghost at
row 20. -/
def tWell : Well :=
  { Well.init with
    active_piece := some tPiece, active_piece_x := 3, active_piece_y := 0, ghost_piece_y := 20 }

/-- The well `tWell` after one step to the left, one step down and one
clockwise rotation: the piece stands upright at column 2, row 1, and the
ghost is at row 19. -/
def tWellMoved : Well :=
  { Well.init with
    active_piece := some { frames := tGrid, current_rotation := 1 }
    active_piece_x := 2, active_piece_y := 1, ghost_piece_y := 19 }

/-- A bar piece that lies in the first row of its grid in every
orientation. -/
def barPiece : Piece :=
  { frames := fun _ r _ => if r.val = 0 then some ⟨.I⟩ else none, current_rotation := 0 }

/-- The initial well with `barPiece` freshly spawned: column 3, row 0, ghost
at the last row. -/
def barWell : Well :=
  { Well.init with
    active_piece := some barPiece, active_piece_x := 3, active_piece_y := 0, ghost_piece_y := 21 }

/-- The well `barWell` with the piece on the last board row. -/
def barWellLast : Well :=
  { Well.init with
    active_piece := some barPiece, active_piece_x := 3, active_piece_y := 21, ghost_piece_y := 21 }

/-- A board whose last row is filled except for the columns 3, 4 and 5. -/
def gapMatrix : Matrix := fun i j =>
  if i.val = 21 ∧ ¬ (3 ≤ j.val ∧ j.val ≤ 5) then some ⟨.O⟩ else none

/-- The well with the board `gapMatrix` and `tPiece` freshly spawned: its
ghost is at row 20, where the bar of the T fills the gap of the last row. -/
def gapWell : Well :=
  { Well.init with
    matrix := gapMatrix
    active_piece := some tPiece, active_piece_x := 3, active_piece_y := 0, ghost_piece_y := 20 }

/-- The well with one settled mino at row 0, column 4, in the way of a
spawning T piece. -/
def blockedWell : Well :=
  { Well.init with
    matrix := fun i j => if i.val = 0 ∧ j.val = 4 then some ⟨.O⟩ else none }

/-- The initial well after a game over. -/
def overWell : Well := { Well.init with gameover := true }

/-- The well `tWell` after one frame of 16 ticks in which DOWN was pressed:
the piece is one row lower, the countdown restarts at the normal rate, and the
gravity step is skipped. -/
def tWellStepped : Well :=
  { tWell with
    active_piece_y := 1
    keystates := { KeyStates.allReleased with down := true }
    skip_gravity := true
    keypress_countdown := 150
    autorepeat_timer := 166
    gravity_timer := 16 }

/-- A well in the middle of a line clear: the rows 19 and 21 are pending and
already emptied, the rows 18 and 20 each hold one settled mino. -/
def pendingWell : Well :=
  { Well.init with
    matrix := fun i j =>
      if (i.val = 18 ∧ j.val = 0) ∨ (i.val = 20 ∧ j.val = 1) then some ⟨.L⟩ else none
    pending_cleared_rows := {19, 21}
    lineclear_alpha := { duration := 500, timer := 0, is_running := true } }

/-- The well `tWell` with a gravity interval of 16 ticks, one frame of 16
ticks. -/
def tWellFast : Well := { tWell with gravity_update_rate := 16 }

/-- The well `tWell` with a gravity interval of 150 ticks, one frame of 150
ticks, which is also the normal repeat rate. -/
def tWellSlow : Well := { tWell with gravity_update_rate := 150 }
/-- An I piece that stands in the first column of its grid in the
orientations 0 and 2 and lies in the first row in the orientations 1 and 3. -/
def colPiece : Piece :=
  { frames := fun rotation r c =>
      if rotation.val % 2 = 0 then (if c.val = 0 then some ⟨.I⟩ else none)
      else (if r.val = 0 then some ⟨.I⟩ else none)
    current_rotation := 0 }

/-- The initial well with `colPiece` spawned: column 3, row 0, ghost at row
18. -/
def colWell : Well :=
  { Well.init with
    active_piece := some colPiece, active_piece_x := 3, active_piece_y := 0, ghost_piece_y := 18 }

/-- The well `colWell` after six steps to the right: the piece stands in the
last board column, its anchor is `columns - 1`. -/
def edgeWell : Well :=
  { Well.init with
    active_piece := some colPiece, active_piece_x := 9, active_piece_y := 0, ghost_piece_y := 18 }

/-- A well with one settled mino at row 7, column 4, and `tPiece` resting on
it: column 3, row 5, ghost at row 5. -/
def kickWell : Well :=
  { Well.init with
    matrix := fun i j => if i.val = 7 ∧ j.val = 4 then some ⟨.O⟩ else none
    active_piece := some tPiece, active_piece_x := 3, active_piece_y := 5, ghost_piece_y := 5 }

/-- The well `kickWell` after `rotateCWNow`: the piece is kicked one column
to the left. -/
def kickWellCW : Well :=
  { kickWell with active_piece := some tPiece.rotateCW, active_piece_x := 2 }

/-- The well `kickWell` after `rotateCCWNow`: the piece is kicked one column
to the right. -/
def kickWellCCW : Well :=
  { kickWell with active_piece := some tPiece.rotateCCW, active_piece_x := 4 }
/-- A well without a piece whose last row is filled, with LEFT held and the
autorepeat in turbo mode. -/
def fullRowWell : Well :=
  { Well.init with
    matrix := fun i _ => if i.val = 21 then some ⟨.O⟩ else none
    keystates := { KeyStates.allReleased with left := true }
    autorepeat_timer := 340, keypress_rate_now := 40, keypress_countdown := 12 }
/-- The well `tWell` after twenty steps down: the T piece rests on the floor,
row 20, which is also its ghost row. -/
def tWellRest : Well :=
  { Well.init with
    active_piece := some tPiece, active_piece_x := 3, active_piece_y := 20, ghost_piece_y := 20 }
/-- The well `tWell` after one frame of 150 ms in which LEFT was pressed: the
piece is one column further left, the countdown restarts at the normal rate
and the autorepeat timer stands at the delay. -/
def tWellLeft1 : Well :=
  { tWell with
    active_piece_x := 2, keystates := KeyStates.leftOnly
    keypress_countdown := 150, autorepeat_timer := 300, gravity_timer := 150 }

/-- The well `tWellLeft1` after one more frame with LEFT held: the autorepeat
timer exceeds the delay and the repeat rate is turbo. -/
def tWellLeft2 : Well :=
  { tWell with
    active_piece_x := 1, keystates := KeyStates.leftOnly
    previous_keystates := KeyStates.leftOnly
    keypress_countdown := 150, autorepeat_timer := 600, keypress_rate_now := 40
    gravity_timer := 300 }

/-- The well `tWellLeft2` after a third frame with LEFT held: the countdown
restarts at the turbo rate. -/
def tWellLeft3 : Well :=
  { tWell with
    active_piece_x := 0, keystates := KeyStates.leftOnly
    previous_keystates := KeyStates.leftOnly
    keypress_countdown := 40, autorepeat_timer := 790, keypress_rate_now := 40
    gravity_timer := 450 }
/-- A table for `Piece::typeFromAscii`: the upper-case letter of each piece
type. -/
def letterType : Char → Option PieceType
  | 'I' => some .I | 'J' => some .J | 'L' => some .L | 'O' => some .O
  | 'S' => some .S | 'T' => some .T | 'Z' => some .Z
  | _ => none

/-- A table for `Mino::asAscii`: the upper-case letter of the piece type. -/
def typeLetter (m : Mino) : Char :=
  match m.piece_type with
  | .I => 'I' | .J => 'J' | .L => 'L' | .O => 'O' | .S => 'S' | .T => 'T' | .Z => 'Z'

/-- Twenty empty lines, a line with a T and a line with three kinds of
minos. -/
def sampleLines : List (List Char) :=
  List.replicate 20 "..........".toList ++ ["....T.....".toList, "II.TTT..ZZ".toList]
theorem boardHasMinoHere_iff (m : Matrix) (row : Nat) (cell : Int) :
    boardHasMinoHere m row cell = true ↔
      (cell < 0 ∨ (columns : Int) ≤ cell ∨ rows ≤ row ∨
        ∃ (i : Fin rows) (j : Fin columns), i.val = row ∧ (j.val : Int) = cell ∧ (m i j).isSome = true) := by
  unfold boardHasMinoHere
  split
  · rename_i h
    obtain ⟨h1, h2, h3⟩ := h
    have h4 : cell.toNat < columns := by omega
    simp only [cellAt, h1, h4, dite_true]
    constructor
    · intro hs
      exact Or.inr (Or.inr (Or.inr ⟨⟨row, h1⟩, ⟨cell.toNat, h4⟩, rfl, by simp; omega, hs⟩))
    · rintro (h | h | h | ⟨i, j, hi, hj, hs⟩)
      · omega
      · omega
      · omega
      · have e1 : i = ⟨row, h1⟩ := Fin.ext hi
        have e2 : j = ⟨cell.toNat, h4⟩ := Fin.ext (by simp; omega)
        subst e1; subst e2; exact hs
  · rename_i h
    simp only [true_iff]
    by_cases h1 : row < rows
    · by_cases h2 : 0 ≤ cell
      · right; left
        by_contra h3
        exact h ⟨h1, h2, by omega⟩
      · left; omega
    · right; right; left; omega

theorem collides_iff (m : Matrix) (g : PieceGrid) (x : Int) (y : Nat) :
    collides m g x y = true ↔
      ∃ r c : Fin 4, (g r c).isSome = true ∧ boardHasMinoHere m (y + r.val) (x + (c.val : Int)) = true := by
  simp [collides, List.any_eq_true, List.mem_finRange]

theorem hasCollisionAt_ok (w : Well) (p : Piece) (x : Int) (y : Nat)
    (hp : w.active_piece = some p) (hx : -3 ≤ x ∧ x < (columns : Int)) (hy : y < rows) :
    w.hasCollisionAt x y = .ok (collides w.matrix p.currentGrid x y) := by
  unfold Well.hasCollisionAt
  have h1 : (x + 3 ≥ 0 ∧ x < (columns : Int)) := ⟨by omega, hx.2⟩
  rw [if_neg (not_not.mpr h1), if_neg (not_not.mpr hy), hp]

theorem setCell_apply (m : Matrix) (row cell : Nat) (v : Cell) (i : Fin rows) (j : Fin columns) :
    setCell m row cell v i j = if i.val = row ∧ j.val = cell then v else m i j := rfl

theorem boardHasMinoHere_setCell (m : Matrix) (i : Fin rows) (j : Fin columns) (v : Mino)
    (row : Nat) (cell : Int) :
    boardHasMinoHere (setCell m i.val j.val (some v)) row cell = true ↔
      (boardHasMinoHere m row cell = true ∨ (row = i.val ∧ cell = (j.val : Int))) := by
  rw [boardHasMinoHere_iff, boardHasMinoHere_iff]
  constructor
  · rintro (h | h | h | ⟨a, b, ha, hb, hs⟩)
    · exact Or.inl (Or.inl h)
    · exact Or.inl (Or.inr (Or.inl h))
    · exact Or.inl (Or.inr (Or.inr (Or.inl h)))
    · rw [setCell_apply] at hs
      by_cases hc : a.val = i.val ∧ b.val = j.val
      · right
        exact ⟨by omega, by omega⟩
      · rw [if_neg hc] at hs
        exact Or.inl (Or.inr (Or.inr (Or.inr ⟨a, b, ha, hb, hs⟩)))
  · rintro ((h | h | h | ⟨a, b, ha, hb, hs⟩) | ⟨h1, h2⟩)
    · exact Or.inl h
    · exact Or.inr (Or.inl h)
    · exact Or.inr (Or.inr (Or.inl h))
    · refine Or.inr (Or.inr (Or.inr ⟨a, b, ha, hb, ?_⟩))
      rw [setCell_apply]
      split
      · rfl
      · exact hs
    · refine Or.inr (Or.inr (Or.inr ⟨i, j, h1.symm, h2.symm, ?_⟩))
      rw [setCell_apply]
      simp

/-- C2. With an active piece and an anchor in the asserted range,
`hasCollisionAt` returns a boolean, and it returns `true` exactly when some
occupied piece cell `(r, c)` maps to a position `(offset_y + r, offset_x + c)`
left of column 0, at or beyond the last column, at or below the row count, or
onto an occupied board cell. The function returns this boolean only: it has no
state to change. -/
theorem hasCollisionAt_spec (w : Well) (p : Piece) (offset_x : Int) (offset_y : Nat)
    (hp : w.active_piece = some p)
    (hx : -3 ≤ offset_x ∧ offset_x < (columns : Int)) (hy : offset_y < rows) :
    ∃ b : Bool, w.hasCollisionAt offset_x offset_y = .ok b ∧
      (b = true ↔ ∃ r c : Fin 4, (p.currentGrid r c).isSome = true ∧
        (offset_x + (c.val : Int) < 0 ∨ (columns : Int) ≤ offset_x + (c.val : Int) ∨
          rows ≤ offset_y + r.val ∨
          ∃ (i : Fin rows) (j : Fin columns), i.val = offset_y + r.val ∧
            (j.val : Int) = offset_x + (c.val : Int) ∧ (w.matrix i j).isSome = true)) := by
  refine ⟨_, hasCollisionAt_ok w p offset_x offset_y hp hx hy, ?_⟩
  rw [collides_iff]
  constructor
  · rintro ⟨r, c, h1, h2⟩
    exact ⟨r, c, h1, (boardHasMinoHere_iff _ _ _).mp h2⟩
  · rintro ⟨r, c, h1, h2⟩
    exact ⟨r, c, h1, (boardHasMinoHere_iff _ _ _).mpr h2⟩

/-- Witness for C2: the freshly spawned T piece on the empty board, anchor (3, 0). -/
theorem hasCollisionAt_spec_witness :
    tWell.active_piece = some tPiece ∧ (-3 ≤ (3 : Int) ∧ (3 : Int) < (columns : Int)) ∧
      0 < rows ∧
      ∃ b : Bool, tWell.hasCollisionAt 3 0 = .ok b ∧
        (b = true ↔ ∃ r c : Fin 4, (tPiece.currentGrid r c).isSome = true ∧
          ((3 : Int) + (c.val : Int) < 0 ∨ (columns : Int) ≤ (3 : Int) + (c.val : Int) ∨
            rows ≤ 0 + r.val ∨
            ∃ (i : Fin rows) (j : Fin columns), i.val = 0 + r.val ∧
              (j.val : Int) = (3 : Int) + (c.val : Int) ∧ (tWell.matrix i j).isSome = true)) :=
  ⟨rfl, by decide, by decide, hasCollisionAt_spec tWell tPiece 3 0 rfl (by decide) (by decide)⟩

/-- C3. Occupying an empty board cell `(i, j)` never turns a collision into a
non-collision, and when the cell lies outside the 4x4 footprint of the anchor
the result of `hasCollisionAt` is the same on both boards. -/
theorem hasCollisionAt_occupy (w : Well) (p : Piece) (offset_x : Int) (offset_y : Nat)
    (i : Fin rows) (j : Fin columns) (mino : Mino)
    (hp : w.active_piece = some p)
    (hx : -3 ≤ offset_x ∧ offset_x < (columns : Int)) (hy : offset_y < rows)
    (_hk : w.matrix i j = none) :
    (w.hasCollisionAt offset_x offset_y = .ok true →
      Well.hasCollisionAt { w with matrix := setCell w.matrix i.val j.val (some mino) }
        offset_x offset_y = .ok true) ∧
    (¬ (offset_y ≤ i.val ∧ i.val ≤ offset_y + 3 ∧
          offset_x ≤ (j.val : Int) ∧ (j.val : Int) ≤ offset_x + 3) →
      Well.hasCollisionAt { w with matrix := setCell w.matrix i.val j.val (some mino) }
        offset_x offset_y = w.hasCollisionAt offset_x offset_y) := by
  have e1 := hasCollisionAt_ok w p offset_x offset_y hp hx hy
  have e2 := hasCollisionAt_ok { w with matrix := setCell w.matrix i.val j.val (some mino) }
    p offset_x offset_y hp hx hy
  rw [e1, e2]
  constructor
  · intro h
    have h1 : collides w.matrix p.currentGrid offset_x offset_y = true := by
      simpa using h
    obtain ⟨r, c, hg, hb⟩ := (collides_iff _ _ _ _).mp h1
    have : collides (setCell w.matrix i.val j.val (some mino)) p.currentGrid offset_x offset_y
        = true :=
      (collides_iff _ _ _ _).mpr ⟨r, c, hg, (boardHasMinoHere_setCell _ _ _ _ _ _).mpr (Or.inl hb)⟩
    show Except.ok _ = Except.ok true
    rw [this]
  · intro hout
    show Except.ok _ = Except.ok _
    congr 1
    rw [Bool.eq_iff_iff, collides_iff, collides_iff]
    constructor
    · rintro ⟨r, c, hg, hb⟩
      rcases (boardHasMinoHere_setCell _ _ _ _ _ _).mp hb with h | ⟨h1, h2⟩
      · exact ⟨r, c, hg, h⟩
      · exfalso
        apply hout
        have := r.isLt
        have := c.isLt
        refine ⟨by omega, by omega, by omega, by omega⟩
    · rintro ⟨r, c, hg, hb⟩
      exact ⟨r, c, hg, (boardHasMinoHere_setCell _ _ _ _ _ _).mpr (Or.inl hb)⟩

/-- Witness for C3: the T piece at anchor (3, 21), where its bar is below the board, and
the board cell (1, 4), far from the footprint. -/
theorem hasCollisionAt_occupy_witness :
    tWell.active_piece = some tPiece ∧
    tWell.matrix ⟨1, by decide⟩ ⟨4, by decide⟩ = none ∧
    tWell.hasCollisionAt 3 21 = .ok true ∧
    Well.hasCollisionAt { tWell with matrix := setCell tWell.matrix 1 4 (some ⟨.I⟩) }
      3 21 = .ok true ∧
    ¬ (21 ≤ 1 ∧ 1 ≤ 21 + 3 ∧ (3 : Int) ≤ ((4 : Nat) : Int) ∧ ((4 : Nat) : Int) ≤ (3 : Int) + 3) ∧
    Well.hasCollisionAt { tWell with matrix := setCell tWell.matrix 1 4 (some ⟨.I⟩) }
      3 21 = tWell.hasCollisionAt 3 21 :=
  have h := hasCollisionAt_occupy tWell tPiece 3 21 ⟨1, by decide⟩ ⟨4, by decide⟩ ⟨.I⟩ rfl
    (by decide) (by decide) rfl
  ⟨rfl, rfl, rfl, h.1 rfl, by decide, h.2 (by decide)⟩

/-! ## Ghost offset -/

theorem ghostLoop_spec (w : Well) (p : Piece) (hp : w.active_piece = some p)
    (hx : -3 ≤ w.active_piece_x ∧ w.active_piece_x < (columns : Int)) :
    ∀ (fuel g : Nat), g < rows → rows ≤ g + fuel + 1 →
      ∃ g', w.ghostLoop fuel g = .ok g' ∧ g ≤ g' ∧ g' < rows ∧
        (∀ y, g < y → y ≤ g' → collides w.matrix p.currentGrid w.active_piece_x y = false) ∧
        (g' + 1 < rows → collides w.matrix p.currentGrid w.active_piece_x (g' + 1) = true) := by
  intro fuel
  induction fuel with
  | zero =>
    intro g hg hfuel
    refine ⟨g, rfl, le_refl _, hg, ?_, ?_⟩
    · intro y h1 h2; omega
    · intro h; omega
  | succ fuel ih =>
    intro g hg hfuel
    unfold Well.ghostLoop
    by_cases h1 : g + 1 < rows
    · rw [if_pos h1, hasCollisionAt_ok w p _ _ hp hx h1]
      cases hc : collides w.matrix p.currentGrid w.active_piece_x (g + 1) with
      | true =>
        refine ⟨g, rfl, le_refl _, hg, ?_, fun _ => hc⟩
        intro y h2 h3; omega
      | false =>
        obtain ⟨g', e, h2, h3, h4, h5⟩ := ih (g + 1) h1 (by omega)
        refine ⟨g', e, by omega, h3, ?_, h5⟩
        intro y hy1 hy2
        by_cases hy : y = g + 1
        · rw [hy]; exact hc
        · exact h4 y (by omega) hy2
    · rw [if_neg h1]
      refine ⟨g, rfl, le_refl _, hg, ?_, ?_⟩
      · intro y h2 h3; omega
      · intro h; omega

theorem calculateGhostOffset_spec (w : Well) (p : Piece) (hp : w.active_piece = some p)
    (hr : w.InRange) :
    ∃ g, w.calculateGhostOffset = .ok { w with ghost_piece_y := g } ∧
      Well.GhostInv { w with ghost_piece_y := g } p := by
  obtain ⟨hx1, hx2, hy⟩ := hr
  obtain ⟨g, e, h1, h2, h3, h4⟩ := ghostLoop_spec w p hp ⟨hx1, hx2⟩ rows w.active_piece_y hy (by omega)
  refine ⟨g, ?_, hp, ⟨hx1, hx2, hy⟩, h1, h2, h3, h4⟩
  unfold Well.calculateGhostOffset
  rw [hp]
  simp only [e]

theorem calculateGhostOffset_frame (w w' : Well) (h : w.calculateGhostOffset = .ok w') :
    ∃ g, w' = { w with ghost_piece_y := g } := by
  unfold Well.calculateGhostOffset at h
  split at h
  · cases h
  · split at h
    · cases h
    · rename_i g _
      injection h with h
      exact ⟨g, h.symm⟩

theorem ghostValid_of_ghostInv (w : Well) (p : Piece) (h : w.GhostInv p) : w.GhostValid := by
  obtain ⟨hp, ⟨hx1, hx2, hy⟩, h1, h2, h3, h4⟩ := h
  refine ⟨h1, ?_, ?_⟩
  · intro y hy1 hy2
    rw [hasCollisionAt_ok w p _ _ hp ⟨hx1, hx2⟩ (by omega), h3 y hy1 hy2]
  · intro g hg hall
    by_contra hlt
    have hlt : w.ghost_piece_y < g := by omega
    have e := hall (w.ghost_piece_y + 1) (by omega) (by omega)
    by_cases hb : w.ghost_piece_y + 1 < rows
    · rw [hasCollisionAt_ok w p _ _ hp ⟨hx1, hx2⟩ hb, h4 hb] at e
      cases e
    · unfold Well.hasCollisionAt at e
      have h1 : (w.active_piece_x + 3 ≥ 0 ∧ w.active_piece_x < (columns : Int)) := ⟨by omega, hx2⟩
      rw [if_neg (not_not.mpr h1), if_pos hb] at e
      cases e

theorem hasCollisionAt_inv (w : Well) (x : Int) (y : Nat) (b : Bool)
    (h : w.hasCollisionAt x y = .ok b) :
    (-3 ≤ x ∧ x < (columns : Int)) ∧ y < rows ∧
      ∃ p, w.active_piece = some p ∧ b = collides w.matrix p.currentGrid x y := by
  unfold Well.hasCollisionAt at h
  split at h
  · cases h
  · rename_i h1
    split at h
    · cases h
    · rename_i h2
      split at h
      · cases h
      · rename_i p hp
        injection h with h
        have h1 := not_not.mp h1
        exact ⟨⟨by omega, h1.2⟩, not_not.mp h2, p, hp, h.symm⟩

theorem calculateGhostOffset_ghostInv (w w' : Well) (p : Piece) (hp : w.active_piece = some p)
    (hr : w.InRange) (h : w.calculateGhostOffset = .ok w') : w'.GhostInv p := by
  obtain ⟨g, e, hg⟩ := calculateGhostOffset_spec w p hp hr
  rw [e] at h
  injection h with h
  rw [← h]
  exact hg

theorem Piece.rotateCCW_rotateCW (p : Piece) : p.rotateCW.rotateCCW = p := by
  cases p with
  | mk frames r =>
    simp only [Piece.rotateCW, Piece.rotateCCW]
    congr 1
    exact add_sub_cancel_right r 1

theorem Piece.rotateCW_rotateCCW (p : Piece) : p.rotateCCW.rotateCW = p := by
  cases p with
  | mk frames r =>
    simp only [Piece.rotateCW, Piece.rotateCCW]
    congr 1
    exact sub_add_cancel r 1

theorem checkLineclear_active (w w' : Well) (h : w.checkLineclear = .ok w') :
    w'.active_piece = none ∧ w.active_piece = none := by
  unfold Well.checkLineclear at h
  split at h
  · cases h
  · rename_i hn
    have hn : w.active_piece = none := by
      cases hw : w.active_piece with
      | none => rfl
      | some p => rw [hw] at hn; exact absurd rfl hn
    simp only at h
    split at h
    · cases h
    · split at h
      · split at h
        · cases h
        · injection h with h
          rw [← h]
          exact ⟨hn, hn⟩
      · injection h with h
        rw [← h]
        exact ⟨hn, hn⟩

theorem lockAndReleasePiece_active (w w' : Well) (h : w.lockAndReleasePiece = .ok w') :
    w'.active_piece = none := by
  unfold Well.lockAndReleasePiece at h
  split at h
  · cases h
  · exact (checkLineclear_active _ _ h).1

/-! ## Movement keeps the ghost offset valid -/

theorem moveLeftNow_ghostInv (w w' : Well) (p : Piece) (hi : w.GhostInv p)
    (h : w.moveLeftNow = .ok w') : w'.GhostInv p := by
  unfold Well.moveLeftNow at h
  split at h
  · injection h with h; rw [← h]; exact hi
  · split at h
    · cases h
    · injection h with h; rw [← h]; exact hi
    · rename_i hc
      obtain ⟨hx, hy, _⟩ := hasCollisionAt_inv _ _ _ _ hc
      exact calculateGhostOffset_ghostInv { w with active_piece_x := w.active_piece_x - 1 } w' p
        hi.1 ⟨hx.1, hx.2, hy⟩ h

theorem moveRightNow_ghostInv (w w' : Well) (p : Piece) (hi : w.GhostInv p)
    (h : w.moveRightNow = .ok w') : w'.GhostInv p := by
  unfold Well.moveRightNow at h
  split at h
  · injection h with h; rw [← h]; exact hi
  · split at h
    · cases h
    · injection h with h; rw [← h]; exact hi
    · rename_i hc
      obtain ⟨hx, hy, _⟩ := hasCollisionAt_inv _ _ _ _ hc
      exact calculateGhostOffset_ghostInv { w with active_piece_x := w.active_piece_x + 1 } w' p
        hi.1 ⟨hx.1, hx.2, hy⟩ h

theorem moveDownNow_ghostInv (w w' : Well) (p : Piece) (hi : w.GhostInv p)
    (h : w.moveDownNow = .ok w') (ha : w'.active_piece.isSome = true) : w'.GhostInv p := by
  unfold Well.moveDownNow at h
  split at h
  · injection h with h; rw [← h]; exact hi
  · split at h
    · cases h
    · rename_i c hc
      obtain ⟨hx, hy, q, hq, hcq⟩ := hasCollisionAt_inv _ _ _ _ hc
      obtain ⟨hp, hr, h1, h2, h3, h4⟩ := hi
      have hqp : q = p := by rw [hp] at hq; injection hq with hq; exact hq.symm
      subst hqp
      cases c with
      | true =>
        simp only [not_true_eq_false, if_false, if_true] at h
        rw [lockAndReleasePiece_active _ _ h] at ha
        cases ha
      | false =>
        simp only [Bool.false_eq_true, not_false_eq_true, if_true] at h
        rw [if_neg (by simp)] at h
        injection h with h
        rw [← h]
        have hlt : w.active_piece_y < w.ghost_piece_y := by
          by_contra hge
          have heq : w.ghost_piece_y = w.active_piece_y := by omega
          have := h4 (by omega)
          rw [heq, ← hcq] at this
          cases this
        refine ⟨hp, ⟨hr.1, hr.2.1, hy⟩, ?_, h2, ?_, h4⟩
        · exact hlt
        · intro y hy1 hy2
          exact h3 y (by simp only at hy1; omega) hy2

theorem Well.eta_active_piece (w : Well) (p : Piece) (hp : w.active_piece = some p) :
    { w with active_piece := some p } = w := by
  cases w
  simp only at hp
  subst hp
  rfl

theorem rotateCWNow_ghostInv (w w' : Well) (p : Piece) (hi : w.GhostInv p)
    (h : w.rotateCWNow = .ok w') : ∃ p', w'.GhostInv p' := by
  obtain ⟨hp, hr, hrest⟩ := hi
  unfold Well.rotateCWNow at h
  rw [hp] at h
  simp only at h
  split at h
  · cases h
  · exact ⟨_, calculateGhostOffset_ghostInv { w with active_piece := some p.rotateCW } w'
      p.rotateCW rfl hr h⟩
  · split at h
    · cases h
    · rename_i hc
      obtain ⟨hx, hy, _⟩ := hasCollisionAt_inv _ _ _ _ hc
      exact ⟨_, calculateGhostOffset_ghostInv
        { w with active_piece := some p.rotateCW, active_piece_x := w.active_piece_x - 1 } w'
        p.rotateCW rfl ⟨hx.1, hx.2, hy⟩ h⟩
    · split at h
      · cases h
      · rename_i hc
        obtain ⟨hx, hy, _⟩ := hasCollisionAt_inv _ _ _ _ hc
        exact ⟨_, calculateGhostOffset_ghostInv
          { w with active_piece := some p.rotateCW, active_piece_x := w.active_piece_x + 1 } w'
          p.rotateCW rfl ⟨hx.1, hx.2, hy⟩ h⟩
      · injection h with h
        rw [Piece.rotateCCW_rotateCW] at h
        have e : ({ w with active_piece := some p } : Well) = w := Well.eta_active_piece w p hp
        have h' : w = w' := by rw [← h]; exact e.symm
        rw [← h']
        exact ⟨p, hp, hr, hrest⟩

theorem rotateCCWNow_ghostInv (w w' : Well) (p : Piece) (hi : w.GhostInv p)
    (h : w.rotateCCWNow = .ok w') : ∃ p', w'.GhostInv p' := by
  obtain ⟨hp, hr, hrest⟩ := hi
  unfold Well.rotateCCWNow at h
  rw [hp] at h
  simp only at h
  split at h
  · cases h
  · exact ⟨_, calculateGhostOffset_ghostInv { w with active_piece := some p.rotateCCW } w'
      p.rotateCCW rfl hr h⟩
  · split at h
    · cases h
    · rename_i hc
      obtain ⟨hx, hy, _⟩ := hasCollisionAt_inv _ _ _ _ hc
      exact ⟨_, calculateGhostOffset_ghostInv
        { w with active_piece := some p.rotateCCW, active_piece_x := w.active_piece_x + 1 } w'
        p.rotateCCW rfl ⟨hx.1, hx.2, hy⟩ h⟩
    · split at h
      · cases h
      · rename_i hc
        obtain ⟨hx, hy, _⟩ := hasCollisionAt_inv _ _ _ _ hc
        exact ⟨_, calculateGhostOffset_ghostInv
          { w with active_piece := some p.rotateCCW, active_piece_x := w.active_piece_x - 1 } w'
          p.rotateCCW rfl ⟨hx.1, hx.2, hy⟩ h⟩
      · injection h with h
        rw [Piece.rotateCW_rotateCCW] at h
        have e : ({ w with active_piece := some p } : Well) = w := Well.eta_active_piece w p hp
        have h' : w = w' := by rw [← h]; exact e.symm
        rw [← h']
        exact ⟨p, hp, hr, hrest⟩

theorem applyMove_ghostInv (w w' : Well) (p : Piece) (m : Move) (hi : w.GhostInv p)
    (hm : m ≠ .hardDrop) (h : w.applyMove m = .ok w') (ha : w'.active_piece.isSome = true) :
    ∃ p', w'.GhostInv p' := by
  cases m with
  | left => exact ⟨p, moveLeftNow_ghostInv w w' p hi h⟩
  | right => exact ⟨p, moveRightNow_ghostInv w w' p hi h⟩
  | down => exact ⟨p, moveDownNow_ghostInv w w' p hi h ha⟩
  | rotateCW => exact rotateCWNow_ghostInv w w' p hi h
  | rotateCCW => exact rotateCCWNow_ghostInv w w' p hi h
  | hardDrop => exact absurd rfl hm

theorem applyMove_of_no_piece (w : Well) (m : Move) (hn : w.active_piece = none)
    (hm : m ≠ .hardDrop) : w.applyMove m = .ok w := by
  cases m with
  | left => simp [Well.applyMove, Well.moveLeftNow, hn]
  | right => simp [Well.applyMove, Well.moveRightNow, hn]
  | down => simp [Well.applyMove, Well.moveDownNow, hn]
  | rotateCW => simp [Well.applyMove, Well.rotateCWNow, hn]
  | rotateCCW => simp [Well.applyMove, Well.rotateCCWNow, hn]
  | hardDrop => exact absurd rfl hm

theorem run_of_no_piece (moves : List Move) (w : Well) (hn : w.active_piece = none)
    (hm : ∀ m ∈ moves, m ≠ .hardDrop) : w.run moves = .ok w := by
  induction moves with
  | nil => rfl
  | cons m rest ih =>
    unfold Well.run
    rw [applyMove_of_no_piece w m hn (hm m (List.mem_cons_self _ _))]
    exact ih (fun m' hm' => hm m' (List.mem_cons_of_mem _ hm'))

theorem run_ghostInv (moves : List Move) :
    ∀ (w w' : Well) (p : Piece), w.GhostInv p → (∀ m ∈ moves, m ≠ .hardDrop) →
      w.run moves = .ok w' → w'.active_piece.isSome = true → ∃ p', w'.GhostInv p' := by
  induction moves with
  | nil =>
    intro w w' p hi _ h _
    injection h with h
    exact ⟨p, h ▸ hi⟩
  | cons m rest ih =>
    intro w w' p hi hm h ha
    unfold Well.run at h
    split at h
    · cases h
    · rename_i w1 h1
      have hrest : ∀ m' ∈ rest, m' ≠ .hardDrop := fun m' hm' => hm m' (List.mem_cons_of_mem _ hm')
      have ha1 : w1.active_piece.isSome = true := by
        cases hw1 : w1.active_piece with
        | some q => rfl
        | none =>
          rw [run_of_no_piece rest w1 hw1 hrest] at h
          injection h with h
          rw [← h, hw1] at ha
          cases ha
      obtain ⟨p1, hi1⟩ :=
        applyMove_ghostInv w w1 p m hi (hm m (List.mem_cons_self _ _)) h1 ha1
      exact ih w1 w' p1 hi1 hrest h ha

theorem addPiece_ghostInv (w0 s0 : Well) (piece : Piece) (h : w0.addPiece piece = .ok s0)
    (hfree : s0.hasCollisionAt s0.active_piece_x s0.active_piece_y = .ok false) :
    s0.GhostInv piece := by
  unfold Well.addPiece at h
  split at h
  · cases h
  · simp only at h
    split at h
    · cases h
    · rename_i w2 h2
      have hi : w2.GhostInv piece :=
        calculateGhostOffset_ghostInv
          { w0 with active_piece := some piece, active_piece_x := 3, active_piece_y := 0 } w2
          piece rfl
          (show (-3 : Int) ≤ 3 ∧ (3 : Int) < (columns : Int) ∧ 0 < rows from
            ⟨by decide, by decide, by decide⟩) h2
      split at h
      · cases h
      · injection h with h
        rw [← h]; exact hi
      · split at h
        · cases h
        · rename_i w3 h3
          injection h with h
          have hn : s0.active_piece = none := by
            rw [← h]
            exact lockAndReleasePiece_active w2 w3 h3
          obtain ⟨_, _, q, hq, _⟩ := hasCollisionAt_inv _ _ _ _ hfree
          rw [hn] at hq
          cases hq

/-- C4. In every state with an active piece that is reached from a freshly
spawned, non-colliding piece by any sequence of `moveLeftNow`, `moveRightNow`,
`moveDownNow`, `rotateCWNow` and `rotateCCWNow`, the ghost offset is valid:
`ghost_piece_y >= active_piece_y`, and `ghost_piece_y` is the largest row
`g >= active_piece_y` such that `hasCollisionAt(active_piece_x, y)` is false for
every `y` with `active_piece_y < y <= g`. -/
theorem ghost_valid_of_reachable (w0 s0 s : Well) (piece : Piece) (moves : List Move)
    (hspawn : w0.addPiece piece = .ok s0)
    (hfree : s0.hasCollisionAt s0.active_piece_x s0.active_piece_y = .ok false)
    (hmoves : ∀ m ∈ moves, m ≠ .hardDrop)
    (hrun : s0.run moves = .ok s)
    (hactive : s.active_piece.isSome = true) :
    s.GhostValid := by
  obtain ⟨p, hi⟩ :=
    run_ghostInv moves s0 s piece (addPiece_ghostInv w0 s0 piece hspawn hfree) hmoves hrun hactive
  exact ghostValid_of_ghostInv s p hi

/-- Witness for C4: the T piece is spawned on the empty board, moved left, stepped down and
rotated clockwise. -/
theorem ghost_valid_of_reachable_witness :
    Well.init.addPiece tPiece = .ok tWell ∧
    tWell.hasCollisionAt tWell.active_piece_x tWell.active_piece_y = .ok false ∧
    tWell.run [.left, .down, .rotateCW] = .ok tWellMoved ∧
    tWellMoved.active_piece.isSome = true ∧
    tWellMoved.GhostValid :=
  ⟨rfl, rfl, rfl, rfl,
    ghost_valid_of_reachable Well.init tWell tWellMoved tPiece [.left, .down, .rotateCW]
      rfl rfl (by decide) rfl rfl⟩

/-! ## Locking and line clears -/

theorem toUnsigned_lt_columns (x : Int) (hx : -3 ≤ x ∧ x < (columns : Int) + 3) (j : Nat)
    (hj : j < columns) : toUnsigned x = j ↔ x = (j : Int) := by
  have hcol : (columns : Int) = 10 := rfl
  have hcol2 : columns = 10 := rfl
  unfold toUnsigned
  omega

theorem toUnsigned_of_nonneg (x : Int) (hx : 0 ≤ x ∧ x < 4294967296) :
    toUnsigned x = x.toNat := by
  unfold toUnsigned
  omega

/-- The fold of `lockCells` over any list of grid positions leaves a board cell
alone when no listed position that is written maps onto it. -/
theorem lockFold_apply_of_not_mem (g : PieceGrid) (x : Int) (y : Nat) (i : Fin rows)
    (j : Fin columns) (l : List (Fin 4 × Fin 4)) :
    ∀ m : Matrix,
      (∀ rc ∈ l, (g rc.1 rc.2).isSome = true →
        ¬ (y + rc.1.val = i.val ∧ toUnsigned (x + (rc.2.val : Int)) = j.val)) →
      (l.foldl
        (fun m rc =>
          if y + rc.1.val < rows ∧ toUnsigned (x + (rc.2.val : Int)) < columns ∧
              (g rc.1 rc.2).isSome then
            setCell m (y + rc.1.val) (toUnsigned (x + (rc.2.val : Int))) (g rc.1 rc.2)
          else m)
        m) i j = m i j := by
  induction l with
  | nil => intro m _; rfl
  | cons rc rest ih =>
    intro m h
    rw [List.foldl_cons, ih _ (fun rc' hrc' => h rc' (List.mem_cons_of_mem _ hrc'))]
    split
    · rename_i hc
      rw [setCell_apply, if_neg]
      intro hij
      exact h rc (List.mem_cons_self _ _) hc.2.2 ⟨hij.1.symm, hij.2.symm⟩
    · rfl

theorem lockFold_apply_of_mem (g : PieceGrid) (x : Int) (y : Nat) (i : Fin rows)
    (j : Fin columns) (r c : Fin 4) (hg : (g r c).isSome = true)
    (hi : y + r.val = i.val) (hj : toUnsigned (x + (c.val : Int)) = j.val)
    (l : List (Fin 4 × Fin 4)) :
    ∀ m : Matrix, (r, c) ∈ l →
      (∀ rc ∈ l, (g rc.1 rc.2).isSome = true →
        (y + rc.1.val = i.val ∧ toUnsigned (x + (rc.2.val : Int)) = j.val) → rc = (r, c)) →
      (l.foldl
        (fun m rc =>
          if y + rc.1.val < rows ∧ toUnsigned (x + (rc.2.val : Int)) < columns ∧
              (g rc.1 rc.2).isSome then
            setCell m (y + rc.1.val) (toUnsigned (x + (rc.2.val : Int))) (g rc.1 rc.2)
          else m)
        m) i j = g r c := by
  induction l with
  | nil => intro m h; cases h
  | cons rc rest ih =>
    intro m hmem huniq
    rw [List.foldl_cons]
    by_cases hin : (r, c) ∈ rest
    · exact ih _ hin (fun rc' hrc' => huniq rc' (List.mem_cons_of_mem _ hrc'))
    · have hrc : rc = (r, c) := by
        rcases List.mem_cons.mp hmem with h | h
        · exact h.symm
        · exact absurd h hin
      subst hrc
      rw [lockFold_apply_of_not_mem]
      · have hcond : y + r.val < rows ∧ toUnsigned (x + (c.val : Int)) < columns ∧
            (g r c).isSome = true := ⟨by omega, by omega, hg⟩
        simp only
        rw [if_pos hcond, setCell_apply, if_pos ⟨hi.symm, hj.symm⟩]
      · intro rc' hrc' hg' htarget
        have := huniq rc' (List.mem_cons_of_mem _ hrc') hg' htarget
        rw [this] at hrc'
        exact hin hrc'

theorem mem_gridCells (rc : Fin 4 × Fin 4) : rc ∈ gridCells := by
  unfold gridCells
  simp only [List.mem_flatMap, List.mem_map, List.mem_finRange, true_and]
  exact ⟨rc.1, rc.2, rfl⟩

/-- An occupied piece cell that maps onto a board cell is written there. -/
theorem lockCells_apply_of_mem (m : Matrix) (g : PieceGrid) (x : Int) (y : Nat)
    (hx : -3 ≤ x ∧ x < (columns : Int)) (i : Fin rows) (j : Fin columns) (r c : Fin 4)
    (hg : (g r c).isSome = true) (hi : y + r.val = i.val) (hj : x + (c.val : Int) = (j.val : Int)) :
    lockCells m g x y i j = g r c := by
  unfold lockCells
  have hc := c.isLt
  have hjl := j.isLt
  refine lockFold_apply_of_mem g x y i j r c hg hi ?_ gridCells m (mem_gridCells _) ?_
  · exact (toUnsigned_lt_columns _ (by omega) _ hjl).mpr hj
  · rintro ⟨r', c'⟩ _ _ ⟨h1, h2⟩
    have hc' := c'.isLt
    have h3 := (toUnsigned_lt_columns _ (by constructor <;> omega) _ hjl).mp h2
    simp only at h1 h3
    have e1 : r' = r := Fin.ext (by omega)
    have e2 : c' = c := Fin.ext (by omega)
    rw [e1, e2]

/-- A board cell onto which no occupied piece cell maps keeps its content. -/
theorem lockCells_apply_of_not_mem (m : Matrix) (g : PieceGrid) (x : Int) (y : Nat)
    (hx : -3 ≤ x ∧ x < (columns : Int)) (i : Fin rows) (j : Fin columns)
    (h : ∀ r c : Fin 4, (g r c).isSome = true →
      ¬ (y + r.val = i.val ∧ x + (c.val : Int) = (j.val : Int))) :
    lockCells m g x y i j = m i j := by
  unfold lockCells
  refine lockFold_apply_of_not_mem g x y i j gridCells m ?_
  rintro ⟨r, c⟩ _ hg ⟨h1, h2⟩
  have hc := c.isLt
  exact h r c hg ⟨h1, (toUnsigned_lt_columns _ (by constructor <;> omega) _ j.isLt).mp h2⟩

theorem rowFilled_iff (r : Row) : rowFilled r = true ↔ ∀ j, (r j).isSome = true := by
  simp [rowFilled, List.all_eq_true, List.mem_finRange]

theorem collectFold_mem (m : Matrix) (r : Nat) (l : List (Fin rows)) :
    ∀ pending : Finset Nat,
      r ∈ l.foldl
          (fun pending row => if rowFilled (m row) then insert row.val pending else pending)
          pending ↔
        (r ∈ pending ∨ ∃ i ∈ l, i.val = r ∧ rowFilled (m i) = true) := by
  induction l with
  | nil => intro pending; simp
  | cons a rest ih =>
    intro pending
    rw [List.foldl_cons, ih]
    by_cases ha : rowFilled (m a) = true
    · rw [if_pos ha]
      simp only [Finset.mem_insert, List.mem_cons, exists_eq_or_imp]
      constructor
      · rintro ((h | h) | h)
        · exact Or.inr (Or.inl ⟨h.symm, ha⟩)
        · exact Or.inl h
        · exact Or.inr (Or.inr h)
      · rintro (h | ⟨h, _⟩ | h)
        · exact Or.inl (Or.inr h)
        · exact Or.inl (Or.inl h.symm)
        · exact Or.inr h
    · rw [if_neg ha]
      simp only [List.mem_cons, exists_eq_or_imp]
      constructor
      · rintro (h | h)
        · exact Or.inl h
        · exact Or.inr (Or.inr h)
      · rintro (h | ⟨_, h⟩ | h)
        · exact Or.inl h
        · exact absurd h ha
        · exact Or.inr h

theorem mem_collectFilledRows (m : Matrix) (pending : Finset Nat) (r : Nat) :
    r ∈ collectFilledRows m pending ↔
      (r ∈ pending ∨ ∃ i : Fin rows, i.val = r ∧ rowFilled (m i) = true) := by
  unfold collectFilledRows
  rw [collectFold_mem]
  simp [List.mem_finRange]

theorem checkLineclear_spec (w : Well) (hn : w.active_piece = none)
    (hcard : (collectFilledRows w.matrix w.pending_cleared_rows).card ≤ 4)
    (hrows : ∀ r ∈ collectFilledRows w.matrix w.pending_cleared_rows, r < rows) :
    w.checkLineclear =
      .ok (if (collectFilledRows w.matrix w.pending_cleared_rows).card ≠ 0 then
        Well.resetInput
          { w with
            pending_cleared_rows := collectFilledRows w.matrix w.pending_cleared_rows
            matrix := clearRows w.matrix (collectFilledRows w.matrix w.pending_cleared_rows)
            lineclear_alpha := w.lineclear_alpha.reset }
      else { w with pending_cleared_rows := collectFilledRows w.matrix w.pending_cleared_rows }) := by
  unfold Well.checkLineclear
  rw [hn]
  simp only [Option.isSome_none, Bool.false_eq_true, if_false]
  rw [if_neg (not_not.mpr hcard)]
  split
  · rfl
  · rfl

theorem lockAndReleasePiece_spec (w : Well) (p : Piece) (hp : w.active_piece = some p) :
    w.lockAndReleasePiece =
      Well.checkLineclear
        { w with
          matrix := lockCells w.matrix p.currentGrid w.active_piece_x w.active_piece_y
          active_piece := none } := by
  unfold Well.lockAndReleasePiece
  rw [hp]

theorem moveDownNow_spec (w : Well) (p : Piece) (hp : w.active_piece = some p)
    (hx : -3 ≤ w.active_piece_x ∧ w.active_piece_x < (columns : Int))
    (hy : w.active_piece_y + 1 < rows) :
    w.moveDownNow =
      if collides w.matrix p.currentGrid w.active_piece_x (w.active_piece_y + 1) = true then
        w.lockAndReleasePiece
      else .ok { w with active_piece_y := w.active_piece_y + 1 } := by
  unfold Well.moveDownNow
  have hg : ¬ (w.active_piece.isNone = true ∨ w.active_piece_y + 1 ≥ rows) := by
    rw [hp]; simp; omega
  rw [if_neg hg, hasCollisionAt_ok w p _ _ hp hx hy]
  simp only
  cases collides w.matrix p.currentGrid w.active_piece_x (w.active_piece_y + 1) with
  | true => simp
  | false => simp

theorem moveDownNow_of_last_row (w : Well) (hy : w.active_piece_y + 1 ≥ rows) :
    w.moveDownNow = .ok w := by
  unfold Well.moveDownNow
  rw [if_pos (Or.inr hy)]

theorem moveDownNow_of_no_piece (w : Well) (hn : w.active_piece = none) :
    w.moveDownNow = .ok w := by
  unfold Well.moveDownNow
  rw [if_pos (Or.inl (by rw [hn]; rfl))]

theorem lockCells_isSome_iff (m : Matrix) (g : PieceGrid) (x : Int) (y : Nat)
    (hx : -3 ≤ x ∧ x < (columns : Int)) (i : Fin rows) (j : Fin columns) :
    (lockCells m g x y i j).isSome = true ↔
      ((m i j).isSome = true ∨
        ∃ r c : Fin 4, (g r c).isSome = true ∧ y + r.val = i.val ∧
          x + (c.val : Int) = (j.val : Int)) := by
  by_cases h : ∃ r c : Fin 4, (g r c).isSome = true ∧ y + r.val = i.val ∧
      x + (c.val : Int) = (j.val : Int)
  · obtain ⟨r, c, hg, hi, hj⟩ := h
    rw [lockCells_apply_of_mem m g x y hx i j r c hg hi hj]
    constructor
    · intro _; exact Or.inr ⟨r, c, hg, hi, hj⟩
    · intro _; exact hg
  · rw [lockCells_apply_of_not_mem m g x y hx i j
      (fun r c hg hij => h ⟨r, c, hg, hij.1, hij.2⟩)]
    constructor
    · intro h1; exact Or.inl h1
    · rintro (h1 | h1)
      · exact h1
      · exact absurd h1 h

theorem lockCells_row_eq (m : Matrix) (g : PieceGrid) (x : Int) (y : Nat)
    (hx : -3 ≤ x ∧ x < (columns : Int)) (i : Fin rows)
    (hi : ¬ (y ≤ i.val ∧ i.val ≤ y + 3)) : lockCells m g x y i = m i := by
  funext j
  apply lockCells_apply_of_not_mem m g x y hx i j
  intro r c _ hij
  have := r.isLt
  omega

/-- When no row of the board is filled and nothing is pending, the rows
filled after a lock are among the four rows of the piece grid, so they are at
most four and all of them are board rows. -/
theorem collectFilledRows_lockCells (m : Matrix) (g : PieceGrid) (x : Int) (y : Nat)
    (hx : -3 ≤ x ∧ x < (columns : Int)) (hfull : ∀ i, rowFilled (m i) = false) :
    (collectFilledRows (lockCells m g x y) ∅).card ≤ 4 ∧
      ∀ r ∈ collectFilledRows (lockCells m g x y) ∅, r < rows := by
  have hsub : collectFilledRows (lockCells m g x y) ∅ ⊆ Finset.Icc y (y + 3) := by
    intro r hr
    rw [mem_collectFilledRows] at hr
    rcases hr with hr | ⟨i, hi, hf⟩
    · simp at hr
    · rw [Finset.mem_Icc]
      by_contra hout
      rw [lockCells_row_eq m g x y hx i (by rw [hi]; exact hout), hfull i] at hf
      cases hf
  constructor
  · calc (collectFilledRows (lockCells m g x y) ∅).card
        ≤ (Finset.Icc y (y + 3)).card := Finset.card_le_card hsub
      _ = 4 := by rw [Nat.card_Icc]; omega
  · intro r hr
    rw [mem_collectFilledRows] at hr
    rcases hr with hr | ⟨i, hi, _⟩
    · simp at hr
    · rw [← hi]; exact i.isLt

theorem checkLineclear_matrix (w w' : Well) (h : w.checkLineclear = .ok w') :
    w'.pending_cleared_rows = collectFilledRows w.matrix w.pending_cleared_rows ∧
      ∀ i : Fin rows, w'.matrix i =
        if i.val ∈ w'.pending_cleared_rows then emptyRow else w.matrix i := by
  unfold Well.checkLineclear at h
  split at h
  · cases h
  · simp only at h
    split at h
    · cases h
    · split at h
      · split at h
        · cases h
        · injection h with h
          rw [← h]
          exact ⟨rfl, fun i => rfl⟩
      · rename_i hc
        injection h with h
        rw [← h]
        refine ⟨rfl, fun i => ?_⟩
        have hc : (collectFilledRows w.matrix w.pending_cleared_rows) = ∅ := by
          rw [← Finset.card_eq_zero]
          exact not_not.mp hc
        simp only [hc, Finset.not_mem_empty, if_false]

/-! ## Stepping down, hard drop and spawning -/

/-- The early return of `moveDownNow` concerns only a piece whose minos all lie
in the first row of its grid. Such a bar piece is spawned on the empty board
and stepped down 21 times; it then sits with its anchor on the last board row
without colliding, and one more `moveDownNow` takes the early return and
leaves the state unchanged. Every piece with a mino below the first grid row
stops with its anchor above the last board row. -/
theorem moveDownNow_last_row_stays_active :
    Well.init.addPiece barPiece = .ok barWell ∧
    barWell.run (List.replicate 21 .down) = .ok barWellLast ∧
    barWellLast.hasCollisionAt barWellLast.active_piece_x barWellLast.active_piece_y
      = .ok false ∧
    barWellLast.active_piece_y + 1 = rows ∧
    barWellLast.moveDownNow = .ok barWellLast ∧
    barWellLast.active_piece.isSome = true :=
  ⟨rfl, rfl, rfl, rfl, rfl, rfl⟩

theorem hardDrop_of_piece (w : Well) (p : Piece) (hp : w.active_piece = some p) :
    w.hardDrop = Well.moveDownNow { w with active_piece_y := w.ghost_piece_y } := by
  unfold Well.hardDrop
  split
  · rename_i h; rw [hp] at h; cases h
  · rfl

/-- With a valid ghost offset whose next row is a board row, the position one
row below the ghost collides. -/
theorem collides_below_ghost (w : Well) (p : Piece) (hp : w.active_piece = some p)
    (hr : w.InRange) (hg : w.GhostValid) (hlast : w.ghost_piece_y + 1 < rows) :
    collides w.matrix p.currentGrid w.active_piece_x (w.ghost_piece_y + 1) = true := by
  obtain ⟨h1, h2, h3⟩ := hg
  by_contra hc
  have hc : collides w.matrix p.currentGrid w.active_piece_x (w.ghost_piece_y + 1) = false := by
    simpa using hc
  have := h3 (w.ghost_piece_y + 1) (by omega) (by
    intro y hy1 hy2
    by_cases hy : y = w.ghost_piece_y + 1
    · rw [hy, hasCollisionAt_ok w p _ _ hp ⟨hr.1, hr.2.1⟩ hlast, hc]
    · exact h2 y hy1 (by omega))
  omega

/-- C6 (counterexample). The T piece is dropped into the gap of the last row:
the ghost offset is valid, `hardDrop` returns, and the board cell under the
left end of the bar, row 21 and column 3, is empty afterwards although an
occupied piece cell maps onto it: the completed row has been cleared. -/
theorem hardDrop_merge_counterexample :
    gapWell.active_piece = some tPiece ∧ gapWell.InRange ∧ gapWell.GhostValid ∧
    gapWell.ghost_piece_y = 20 ∧ gapWell.active_piece_x = 3 ∧
    (tPiece.currentGrid 1 0).isSome = true ∧
    ∃ w', gapWell.hardDrop = .ok w' ∧ w'.active_piece = none ∧
      w'.matrix ⟨20 + 1, by decide⟩ ⟨3 + 0, by decide⟩ = none :=
  ⟨rfl, ⟨by decide, by decide, by decide⟩,
    ghostValid_of_ghostInv gapWell tPiece
      (addPiece_ghostInv { Well.init with matrix := gapMatrix } gapWell tPiece rfl rfl),
    rfl, rfl, rfl, _, rfl, rfl, rfl⟩

/-- C6 (amended). For every state with an active piece whose anchor is in
range and whose ghost offset is valid and above the last board row, with no
pending rows and no completely filled board row, `hardDrop` returns, no active
piece exists afterwards, and the board is the old board with the occupied
cells of the piece merged at column offset `active_piece_x` and row offset
`ghost_piece_y`, in which every row that the merge completed has been emptied:
the pending rows are exactly the completed rows, their cells are empty, and
in every other row a cell holds the mino of the piece cell that maps onto it,
or its previous content when there is none. -/
theorem hardDrop_spec (w : Well) (p : Piece)
    (hp : w.active_piece = some p) (hr : w.InRange) (hg : w.GhostValid)
    (hlast : w.ghost_piece_y + 1 < rows)
    (hpend : w.pending_cleared_rows = ∅)
    (hfull : ∀ i, rowFilled (w.matrix i) = false) :
    ∃ w', w.hardDrop = .ok w' ∧ w'.active_piece = none ∧
      (∀ i : Fin rows, i.val ∈ w'.pending_cleared_rows ↔
        ∀ j : Fin columns, (w.matrix i j).isSome = true ∨
          ∃ r c : Fin 4, (p.currentGrid r c).isSome = true ∧
            w.ghost_piece_y + r.val = i.val ∧ w.active_piece_x + (c.val : Int) = (j.val : Int)) ∧
      (∀ (i : Fin rows) (j : Fin columns),
        (i.val ∈ w'.pending_cleared_rows → w'.matrix i j = none) ∧
        (i.val ∉ w'.pending_cleared_rows →
          (∀ r c : Fin 4, (p.currentGrid r c).isSome = true →
            w.ghost_piece_y + r.val = i.val → w.active_piece_x + (c.val : Int) = (j.val : Int) →
            w'.matrix i j = p.currentGrid r c) ∧
          ((∀ r c : Fin 4, (p.currentGrid r c).isSome = true →
              ¬ (w.ghost_piece_y + r.val = i.val ∧
                w.active_piece_x + (c.val : Int) = (j.val : Int))) →
            w'.matrix i j = w.matrix i j))) := by
  have hx : -3 ≤ w.active_piece_x ∧ w.active_piece_x < (columns : Int) := ⟨hr.1, hr.2.1⟩
  have hcol := collides_below_ghost w p hp hr hg hlast
  have hasrt := collectFilledRows_lockCells w.matrix p.currentGrid w.active_piece_x
    w.ghost_piece_y hx hfull
  have e : w.hardDrop =
      Well.checkLineclear
        { w with
          active_piece_y := w.ghost_piece_y
          matrix := lockCells w.matrix p.currentGrid w.active_piece_x w.ghost_piece_y
          active_piece := none } := by
    rw [hardDrop_of_piece w p hp]
    rw [moveDownNow_spec { w with active_piece_y := w.ghost_piece_y } p hp hx hlast]
    rw [if_pos hcol]
    rw [lockAndReleasePiece_spec { w with active_piece_y := w.ghost_piece_y } p hp]
  have hcl := checkLineclear_spec
    { w with
      active_piece_y := w.ghost_piece_y
      matrix := lockCells w.matrix p.currentGrid w.active_piece_x w.ghost_piece_y
      active_piece := none } rfl (by simp only [hpend]; exact hasrt.1)
      (by simp only [hpend]; exact hasrt.2)
  generalize hw' : (if (collectFilledRows
      ({ w with
        active_piece_y := w.ghost_piece_y
        matrix := lockCells w.matrix p.currentGrid w.active_piece_x w.ghost_piece_y
        active_piece := none } : Well).matrix
      ({ w with
        active_piece_y := w.ghost_piece_y
        matrix := lockCells w.matrix p.currentGrid w.active_piece_x w.ghost_piece_y
        active_piece := none } : Well).pending_cleared_rows).card ≠ 0 then _ else _) = w' at hcl
  obtain ⟨hpend', hmat⟩ := checkLineclear_matrix _ w' hcl
  simp only [hpend] at hpend'
  have hmem : ∀ i : Fin rows, i.val ∈ w'.pending_cleared_rows ↔
      ∀ j : Fin columns, (w.matrix i j).isSome = true ∨
        ∃ r c : Fin 4, (p.currentGrid r c).isSome = true ∧
          w.ghost_piece_y + r.val = i.val ∧ w.active_piece_x + (c.val : Int) = (j.val : Int) := by
    intro i
    rw [hpend', mem_collectFilledRows]
    simp only [Finset.not_mem_empty, false_or]
    constructor
    · rintro ⟨i', hi', hf⟩ j
      have hi' : i' = i := Fin.ext hi'
      subst hi'
      exact (lockCells_isSome_iff _ _ _ _ hx i' j).mp ((rowFilled_iff _).mp hf j)
    · intro h
      exact ⟨i, rfl, (rowFilled_iff _).mpr
        (fun j => (lockCells_isSome_iff _ _ _ _ hx i j).mpr (h j))⟩
  refine ⟨w', e.trans hcl, (checkLineclear_active _ w' hcl).1, hmem, ?_⟩
  intro i j
  constructor
  · intro hi
    rw [hmat i, if_pos hi]
    rfl
  · intro hi
    rw [hmat i, if_neg hi]
    constructor
    · intro r c hgr h1 h2
      exact lockCells_apply_of_mem _ _ _ _ hx i j r c hgr h1 h2
    · intro h
      exact lockCells_apply_of_not_mem _ _ _ _ hx i j h

/-- Witness for C6 (amended): the freshly spawned T piece on the empty board. -/
theorem hardDrop_spec_witness :
    tWell.active_piece = some tPiece ∧ tWell.InRange ∧ tWell.GhostValid ∧
    tWell.ghost_piece_y + 1 < rows ∧ tWell.pending_cleared_rows = ∅ ∧
    (∀ i, rowFilled (tWell.matrix i) = false) ∧
    ∃ w', tWell.hardDrop = .ok w' ∧ w'.active_piece = none ∧
      (∀ i : Fin rows, i.val ∈ w'.pending_cleared_rows ↔
        ∀ j : Fin columns, (tWell.matrix i j).isSome = true ∨
          ∃ r c : Fin 4, (tPiece.currentGrid r c).isSome = true ∧
            tWell.ghost_piece_y + r.val = i.val ∧
            tWell.active_piece_x + (c.val : Int) = (j.val : Int)) ∧
      (∀ (i : Fin rows) (j : Fin columns),
        (i.val ∈ w'.pending_cleared_rows → w'.matrix i j = none) ∧
        (i.val ∉ w'.pending_cleared_rows →
          (∀ r c : Fin 4, (tPiece.currentGrid r c).isSome = true →
            tWell.ghost_piece_y + r.val = i.val →
            tWell.active_piece_x + (c.val : Int) = (j.val : Int) →
            w'.matrix i j = tPiece.currentGrid r c) ∧
          ((∀ r c : Fin 4, (tPiece.currentGrid r c).isSome = true →
              ¬ (tWell.ghost_piece_y + r.val = i.val ∧
                tWell.active_piece_x + (c.val : Int) = (j.val : Int))) →
            w'.matrix i j = tWell.matrix i j))) :=
  have hg : tWell.GhostValid :=
    ghostValid_of_ghostInv tWell tPiece (addPiece_ghostInv Well.init tWell tPiece rfl rfl)
  ⟨rfl, ⟨by decide, by decide, by decide⟩, hg, by decide, rfl, by decide,
    hardDrop_spec tWell tPiece rfl ⟨by decide, by decide, by decide⟩ hg (by decide) rfl
      (by decide)⟩

theorem checkLineclear_cases (w w' : Well) (h : w.checkLineclear = .ok w') :
    w' = { w with pending_cleared_rows := collectFilledRows w.matrix w.pending_cleared_rows } ∨
    w' = Well.resetInput
      { w with
        pending_cleared_rows := collectFilledRows w.matrix w.pending_cleared_rows
        matrix := clearRows w.matrix (collectFilledRows w.matrix w.pending_cleared_rows)
        lineclear_alpha := w.lineclear_alpha.reset } := by
  unfold Well.checkLineclear at h
  split at h
  · cases h
  · simp only at h
    split at h
    · cases h
    · split at h
      · split at h
        · cases h
        · injection h with h
          exact Or.inr h.symm
      · injection h with h
        exact Or.inl h.symm

theorem requiresNewPiece_iff (w : Well) :
    w.requiresNewPiece = true ↔
      w.active_piece = none ∧ w.gameover = false ∧ w.lineclear_alpha.running = false := by
  unfold Well.requiresNewPiece
  cases w.active_piece <;> cases w.gameover <;> cases w.lineclear_alpha.running <;> simp

theorem addPiece_eq (w : Well) (piece : Piece) (hreq : w.requiresNewPiece = true) :
    ∃ g,
      Well.GhostInv
        { w with
          active_piece := some piece, active_piece_x := 3, active_piece_y := 0
          ghost_piece_y := g } piece ∧
      w.addPiece piece =
        if collides w.matrix piece.currentGrid 3 0 = true then
          match Well.lockAndReleasePiece
              { w with
                active_piece := some piece, active_piece_x := 3, active_piece_y := 0
                ghost_piece_y := g } with
          | .error e => .error e
          | .ok w3 => .ok { w3 with gameover := true }
        else
          .ok { w with
                active_piece := some piece, active_piece_x := 3, active_piece_y := 0
                ghost_piece_y := g } := by
  obtain ⟨g, e, hi⟩ := calculateGhostOffset_spec
    { w with active_piece := some piece, active_piece_x := 3, active_piece_y := 0 } piece rfl
    (show (-3 : Int) ≤ 3 ∧ (3 : Int) < (columns : Int) ∧ 0 < rows from
      ⟨by decide, by decide, by decide⟩)
  refine ⟨g, hi, ?_⟩
  unfold Well.addPiece
  rw [if_neg (by simp [hreq])]
  simp only [e]
  rw [hasCollisionAt_ok _ piece _ _ rfl (by decide) (by decide)]
  simp only
  cases collides w.matrix piece.currentGrid 3 0
  · simp
  · simp only [if_true]
    try rfl

/-- C7. For every state in which `requiresNewPiece` holds, `addPiece` puts the
new piece at column offset 3 and row offset 0. If that position does not
collide, the call returns with `gameover` still false, the piece active at
(3, 0), a valid ghost offset and the board unchanged. If it collides, then
after every call that returns `gameover` is true and no active piece exists;
the call returns whenever the line-clear check of the lock passes its
assertions (at most four filled or pending rows, all of them board rows). -/
theorem addPiece_spec (w : Well) (piece : Piece) (hreq : w.requiresNewPiece = true) :
    (collides w.matrix piece.currentGrid 3 0 = false →
      ∃ w', w.addPiece piece = .ok w' ∧ w'.gameover = false ∧
        w'.active_piece = some piece ∧ w'.active_piece_x = 3 ∧ w'.active_piece_y = 0 ∧
        w'.GhostValid ∧ w'.matrix = w.matrix) ∧
    (collides w.matrix piece.currentGrid 3 0 = true →
      (∀ w', w.addPiece piece = .ok w' →
        w'.gameover = true ∧ w'.active_piece = none ∧
          w'.active_piece_x = 3 ∧ w'.active_piece_y = 0) ∧
      ((collectFilledRows (lockCells w.matrix piece.currentGrid 3 0)
            w.pending_cleared_rows).card ≤ 4 →
        (∀ r ∈ collectFilledRows (lockCells w.matrix piece.currentGrid 3 0)
            w.pending_cleared_rows, r < rows) →
        ∃ w', w.addPiece piece = .ok w')) := by
  obtain ⟨g, hi, e⟩ := addPiece_eq w piece hreq
  constructor
  · intro hc
    rw [hc] at e
    simp only [Bool.false_eq_true, if_false] at e
    refine ⟨_, e, ?_, rfl, rfl, rfl, ghostValid_of_ghostInv _ piece hi, rfl⟩
    exact ((requiresNewPiece_iff w).mp hreq).2.1
  · intro hc
    rw [if_pos hc, lockAndReleasePiece_spec _ piece rfl] at e
    constructor
    · intro w' h
      rw [e] at h
      split at h
      · cases h
      · rename_i w3 h3
        injection h with h
        rw [← h]
        refine ⟨rfl, (checkLineclear_active _ w3 h3).1, ?_, ?_⟩
        · rcases checkLineclear_cases _ w3 h3 with h4 | h4 <;> subst h4 <;> rfl
        · rcases checkLineclear_cases _ w3 h3 with h4 | h4 <;> subst h4 <;> rfl
    · intro hcard hrows
      have hcl := checkLineclear_spec
        { w with
          matrix := lockCells w.matrix piece.currentGrid 3 0
          active_piece := none, active_piece_x := 3, active_piece_y := 0
          ghost_piece_y := g } rfl hcard hrows
      rw [e]
      exact ⟨_, congrArg
        (fun r : Except Failure Well =>
          match r with
          | .error e => Except.error e
          | .ok w3 => Except.ok { w3 with gameover := true }) hcl⟩

/-- Witness for C7: a spawn on the empty board, and a spawn onto a settled mino. -/
theorem addPiece_spec_witness :
    Well.init.requiresNewPiece = true ∧
    collides Well.init.matrix tPiece.currentGrid 3 0 = false ∧
    (∃ w', Well.init.addPiece tPiece = .ok w' ∧ w'.gameover = false ∧
      w'.active_piece = some tPiece ∧ w'.active_piece_x = 3 ∧ w'.active_piece_y = 0 ∧
      w'.GhostValid ∧ w'.matrix = Well.init.matrix) ∧
    blockedWell.requiresNewPiece = true ∧
    collides blockedWell.matrix tPiece.currentGrid 3 0 = true ∧
    (∃ w', blockedWell.addPiece tPiece = .ok w') :=
  ⟨rfl, by decide, (addPiece_spec Well.init tPiece rfl).1 (by decide), rfl, by decide,
    ((addPiece_spec blockedWell tPiece rfl).2 (by decide)).2 (by decide) (by decide)⟩

/-! ## The frame update -/

theorem update_of_gameover (frame_duration : Duration) (w : Well) (events : List InputEvent)
    (h : w.gameover = true) : w.update frame_duration events = .ok w := by
  unfold Well.update
  rw [if_pos h]

/-- C8. When `gameover` is true, `update` returns the state it was given, for
every list of input events: board, active piece, offsets, ghost offset, key
states, timers and pending rows are all unchanged. Hence any number of
`update` calls leaves the state unchanged, and `gameover` stays true. -/
theorem update_gameover_noop (frame_duration : Duration) (w : Well)
    (h : w.gameover = true) :
    (∀ events : List InputEvent, w.update frame_duration events = .ok w) ∧
    (∀ frames : List (List InputEvent), w.updateAll frame_duration frames = .ok w) := by
  refine ⟨fun events => update_of_gameover frame_duration w events h, ?_⟩
  intro frames
  induction frames with
  | nil => rfl
  | cons events rest ih =>
    unfold Well.updateAll
    rw [update_of_gameover frame_duration w events h]
    exact ih

/-- Witness for C8: the initial well with `gameover` set, frames of 16 ticks. -/
theorem update_gameover_noop_witness :
    overWell.gameover = true ∧
    (∀ events : List InputEvent, overWell.update 16 events = .ok overWell) ∧
    (∀ frames : List (List InputEvent), overWell.updateAll 16 frames = .ok overWell) :=
  ⟨rfl, update_gameover_noop 16 overWell rfl⟩

theorem lockAndReleasePiece_cases (w w' : Well) (h : w.lockAndReleasePiece = .ok w') :
    (∃ m P, w' =
      { w with matrix := m, active_piece := none, pending_cleared_rows := P }) ∨
    (∃ m P, w' = Well.resetInput
      { w with
        matrix := m, active_piece := none, pending_cleared_rows := P
        lineclear_alpha := w.lineclear_alpha.reset }) := by
  unfold Well.lockAndReleasePiece at h
  split at h
  · cases h
  · rcases checkLineclear_cases _ w' h with h1 | h1
    · exact Or.inl ⟨_, _, h1⟩
    · exact Or.inr ⟨_, _, h1⟩

theorem moveDownNow_cases (w w' : Well) (h : w.moveDownNow = .ok w') :
    w' = w ∨ w' = { w with active_piece_y := w.active_piece_y + 1 } ∨
    (∃ m P, w' =
      { w with matrix := m, active_piece := none, pending_cleared_rows := P }) ∨
    (∃ m P, w' = Well.resetInput
      { w with
        matrix := m, active_piece := none, pending_cleared_rows := P
        lineclear_alpha := w.lineclear_alpha.reset }) := by
  unfold Well.moveDownNow at h
  split at h
  · injection h with h; exact Or.inl h.symm
  · split at h
    · cases h
    · rename_i c _
      cases c with
      | true =>
        simp only [not_true_eq_false, if_false, if_true] at h
        exact Or.inr (Or.inr (lockAndReleasePiece_cases w w' h))
      | false =>
        simp only [Bool.false_eq_true, not_false_eq_true, if_true] at h
        rw [if_neg (by simp)] at h
        injection h with h
        exact Or.inr (Or.inl h.symm)

/-- What a step down leaves alone and what it may change: the row offset
grows by at most one, the gravity timer, the gravity rate and the gravity
flag are kept, and the UP key is not pressed by it. -/
theorem moveDownNow_fields (w w' : Well) (h : w.moveDownNow = .ok w') :
    (w'.active_piece_y = w.active_piece_y ∨ w'.active_piece_y = w.active_piece_y + 1) ∧
    w'.gravity_timer = w.gravity_timer ∧ w'.gravity_update_rate = w.gravity_update_rate ∧
    w'.skip_gravity = w.skip_gravity ∧
    (w.keystates.at .UP = false → w'.keystates.at .UP = false) := by
  rcases moveDownNow_cases w w' h with h1 | h1 | ⟨m, P, h1⟩ | ⟨m, P, h1⟩
  · subst h1
    exact ⟨Or.inl rfl, rfl, rfl, rfl, fun h => h⟩
  · subst h1
    exact ⟨Or.inr rfl, rfl, rfl, rfl, fun h => h⟩
  · subst h1
    exact ⟨Or.inl rfl, rfl, rfl, rfl, fun h => h⟩
  · subst h1
    exact ⟨Or.inl rfl, rfl, rfl, rfl, fun _ => rfl⟩

theorem Well.sameButPiece_refl (w : Well) : w.SameButPiece w :=
  ⟨w.active_piece, w.active_piece_x, w.ghost_piece_y, rfl⟩

theorem calculateGhostOffset_sameButPiece (w0 w w' : Well) (h0 : w0.SameButPiece w)
    (h : w.calculateGhostOffset = .ok w') : w0.SameButPiece w' := by
  obtain ⟨g, hg⟩ := calculateGhostOffset_frame w w' h
  obtain ⟨q, x, g0, h0⟩ := h0
  subst h0
  subst hg
  exact ⟨q, x, g, rfl⟩

theorem moveLeftNow_sameButPiece (w w' : Well) (h : w.moveLeftNow = .ok w') :
    w.SameButPiece w' := by
  unfold Well.moveLeftNow at h
  split at h
  · injection h with h; subst h; exact w.sameButPiece_refl
  · split at h
    · cases h
    · injection h with h; subst h; exact w.sameButPiece_refl
    · exact calculateGhostOffset_sameButPiece w _ w'
        ⟨w.active_piece, w.active_piece_x - 1, w.ghost_piece_y, rfl⟩ h

theorem moveRightNow_sameButPiece (w w' : Well) (h : w.moveRightNow = .ok w') :
    w.SameButPiece w' := by
  unfold Well.moveRightNow at h
  split at h
  · injection h with h; subst h; exact w.sameButPiece_refl
  · split at h
    · cases h
    · injection h with h; subst h; exact w.sameButPiece_refl
    · exact calculateGhostOffset_sameButPiece w _ w'
        ⟨w.active_piece, w.active_piece_x + 1, w.ghost_piece_y, rfl⟩ h

theorem rotateCWNow_sameButPiece (w w' : Well) (h : w.rotateCWNow = .ok w') :
    w.SameButPiece w' := by
  unfold Well.rotateCWNow at h
  split at h
  · injection h with h; subst h; exact w.sameButPiece_refl
  · rename_i p _
    simp only at h
    split at h
    · cases h
    · exact calculateGhostOffset_sameButPiece w _ w'
        ⟨some p.rotateCW, w.active_piece_x, w.ghost_piece_y, rfl⟩ h
    · split at h
      · cases h
      · exact calculateGhostOffset_sameButPiece w _ w'
          ⟨some p.rotateCW, w.active_piece_x - 1, w.ghost_piece_y, rfl⟩ h
      · split at h
        · cases h
        · exact calculateGhostOffset_sameButPiece w _ w'
            ⟨some p.rotateCW, w.active_piece_x + 1, w.ghost_piece_y, rfl⟩ h
        · injection h with h
          exact ⟨some p.rotateCW.rotateCCW, w.active_piece_x, w.ghost_piece_y, h.symm⟩

theorem rotateCCWNow_sameButPiece (w w' : Well) (h : w.rotateCCWNow = .ok w') :
    w.SameButPiece w' := by
  unfold Well.rotateCCWNow at h
  split at h
  · injection h with h; subst h; exact w.sameButPiece_refl
  · rename_i p _
    simp only at h
    split at h
    · cases h
    · exact calculateGhostOffset_sameButPiece w _ w'
        ⟨some p.rotateCCW, w.active_piece_x, w.ghost_piece_y, rfl⟩ h
    · split at h
      · cases h
      · exact calculateGhostOffset_sameButPiece w _ w'
          ⟨some p.rotateCCW, w.active_piece_x + 1, w.ghost_piece_y, rfl⟩ h
      · split at h
        · cases h
        · exact calculateGhostOffset_sameButPiece w _ w'
            ⟨some p.rotateCCW, w.active_piece_x - 1, w.ghost_piece_y, rfl⟩ h
        · injection h with h
          exact ⟨some p.rotateCCW.rotateCW, w.active_piece_x, w.ghost_piece_y, h.symm⟩

theorem handleHorizontal_sameButPiece (w w' : Well) (h : w.handleHorizontal = .ok w') :
    w.SameButPiece w' := by
  unfold Well.handleHorizontal at h
  split at h
  · split at h
    · exact moveLeftNow_sameButPiece w w' h
    · exact moveRightNow_sameButPiece w w' h
  · injection h with h; subst h; exact w.sameButPiece_refl

theorem handleDown_fields (w w' : Well) (h : w.handleDown = .ok w') :
    (w'.active_piece_y = w.active_piece_y ∨ w'.active_piece_y = w.active_piece_y + 1) ∧
    w'.gravity_timer = w.gravity_timer ∧ w'.gravity_update_rate = w.gravity_update_rate ∧
    (w.keystates.at .UP = false → w'.keystates.at .UP = false) ∧
    (w.keystates.at .DOWN = true → w'.skip_gravity = true) ∧
    (w.keystates.at .DOWN = false → w' = w) := by
  unfold Well.handleDown at h
  split at h
  · rename_i hd
    split at h
    · cases h
    · rename_i w1 h1
      injection h with h
      subst h
      obtain ⟨hy, hg, hr, _, hu⟩ := moveDownNow_fields w w1 h1
      refine ⟨hy, hg, hr, hu, fun _ => rfl, ?_⟩
      intro hf
      rw [hf] at hd
      cases hd
  · injection h with h
    subst h
    rename_i hd
    exact ⟨Or.inl rfl, rfl, rfl, fun h => h, fun ht => absurd ht hd, fun _ => rfl⟩

theorem handleUp_of_released (w : Well) (h : w.keystates.at .UP = false) :
    w.handleUp = .ok w := by
  unfold Well.handleUp
  rw [if_neg (by rw [h]; simp)]

theorem handleRotate_fields (w w' : Well) (h : w.handleRotate = .ok w') :
    w'.active_piece_y = w.active_piece_y ∧ w'.gravity_timer = w.gravity_timer ∧
    w'.gravity_update_rate = w.gravity_update_rate ∧ w'.skip_gravity = w.skip_gravity := by
  unfold Well.handleRotate at h
  split at h
  · split at h
    · cases h
    · rename_i w1 h1
      injection h with h
      subst h
      have hs : w.SameButPiece w1 := by
        split at h1
        · exact rotateCCWNow_sameButPiece w w1 h1
        · exact rotateCWNow_sameButPiece w w1 h1
      obtain ⟨q, x, g, hs⟩ := hs
      subst hs
      exact ⟨rfl, rfl, rfl, rfl⟩
  · injection h with h
    subst h
    exact ⟨rfl, rfl, rfl, rfl⟩

theorem finishKeys_frame (frame_duration : Duration) (w : Well) (a b : Bool) :
    ∃ c t r, w.finishKeys frame_duration a b =
      { w with keypress_countdown := c, autorepeat_timer := t, keypress_rate_now := r } := by
  unfold Well.finishKeys
  cases a
  · exact ⟨w.keypress_countdown, w.autorepeat_timer, w.keypress_rate_now, rfl⟩
  · cases b
    · exact ⟨_, _, _, rfl⟩
    · dsimp only
      simp only [if_true]
      split
      · exact ⟨_, _, _, rfl⟩
      · exact ⟨_, _, _, rfl⟩

theorem finishKeys_fields (frame_duration : Duration) (w : Well) (a b : Bool) :
    (w.finishKeys frame_duration a b).active_piece_y = w.active_piece_y ∧
    (w.finishKeys frame_duration a b).gravity_timer = w.gravity_timer ∧
    (w.finishKeys frame_duration a b).gravity_update_rate = w.gravity_update_rate ∧
    (w.finishKeys frame_duration a b).skip_gravity = w.skip_gravity := by
  obtain ⟨c, t, r, h⟩ := finishKeys_frame frame_duration w a b
  rw [h]
  exact ⟨rfl, rfl, rfl, rfl⟩

/-- Key handling with UP released: the row offset grows by at most one, the
gravity timer and rate are kept, a held DOWN key sets the gravity flag, and
without DOWN neither the row offset nor the flag changes. -/
theorem handleKeys_fields (frame_duration : Duration) (w w' : Well)
    (h : w.handleKeys frame_duration = .ok w') (hup : w.keystates.at .UP = false) :
    (w'.active_piece_y = w.active_piece_y ∨ w'.active_piece_y = w.active_piece_y + 1) ∧
    w'.gravity_timer = w.gravity_timer ∧ w'.gravity_update_rate = w.gravity_update_rate ∧
    (w.keystates.at .DOWN = true → w'.skip_gravity = true) ∧
    (w.keystates.at .DOWN = false →
      w'.active_piece_y = w.active_piece_y ∧ w'.skip_gravity = w.skip_gravity) := by
  unfold Well.handleKeys at h
  simp only at h
  split at h
  · cases h
  · rename_i w1 h1
    split at h
    · cases h
    · rename_i w2 h2
      split at h
      · cases h
      · rename_i w3 h3
        split at h
        · cases h
        · rename_i w4 h4
          injection h with h
          obtain ⟨q, x, g, hs⟩ := handleHorizontal_sameButPiece w w1 h1
          obtain ⟨hy2, hg2, hr2, hu2, hd2, hn2⟩ := handleDown_fields w1 w2 h2
          have hup1 : w1.keystates.at .UP = false := by rw [hs]; exact hup
          have hup2 := hu2 hup1
          rw [handleUp_of_released w2 hup2] at h3
          injection h3 with h3
          subst h3
          obtain ⟨hy4, hg4, hr4, hs4⟩ := handleRotate_fields w2 w4 h4
          obtain ⟨hy5, hg5, hr5, hs5⟩ := finishKeys_fields frame_duration w4
            ((w.keystates.at .LEFT != w.keystates.at .RIGHT) || w1.keystates.at .DOWN ||
              w2.keystates.at .UP || (w2.keystates.at .A != w2.keystates.at .B))
            ((w.keystates.at .LEFT != w.keystates.at .RIGHT) || w1.keystates.at .DOWN)
          rw [h] at hy5 hg5 hr5 hs5
          have e1y : w1.active_piece_y = w.active_piece_y := by rw [hs]
          have e1g : w1.gravity_timer = w.gravity_timer := by rw [hs]
          have e1r : w1.gravity_update_rate = w.gravity_update_rate := by rw [hs]
          have e1s : w1.skip_gravity = w.skip_gravity := by rw [hs]
          have e1k : w1.keystates = w.keystates := by rw [hs]
          refine ⟨?_, ?_, ?_, ?_, ?_⟩
          · rw [hy5, hy4, ← e1y]; exact hy2
          · rw [hg5, hg4, hg2, e1g]
          · rw [hr5, hr4, hr2, e1r]
          · intro hd
            rw [hs5, hs4]
            exact hd2 (by rw [e1k]; exact hd)
          · intro hd
            have := hn2 (by rw [e1k]; exact hd)
            rw [hy5, hy4, hs5, hs4, this]
            exact ⟨e1y, e1s⟩

theorem updateGravity_cases (frame_duration : Duration) (w w' : Well)
    (h : w.updateGravity frame_duration = .ok w') :
    w' = { w with gravity_timer := w.gravity_timer + frame_duration } ∨
    (w.skip_gravity = true ∧
      w' = { w with
        gravity_timer := w.gravity_timer + frame_duration - w.gravity_update_rate }) ∨
    (w.skip_gravity = false ∧
      Well.moveDownNow
        { w with gravity_timer := w.gravity_timer + frame_duration - w.gravity_update_rate }
        = .ok w') := by
  unfold Well.updateGravity at h
  simp only at h
  split at h
  · split at h
    · rename_i hs
      right; right
      exact ⟨by simpa using hs, h⟩
    · rename_i hs
      injection h with h
      right; left
      exact ⟨by simpa using hs, h.symm⟩
  · injection h with h
    exact Or.inl h.symm

theorem updateKeystate_frame (w : Well) (events : List InputEvent) :
    ∃ ks sg t r, w.updateKeystate events =
      { w with
        previous_keystates := w.keystates, keystates := ks, skip_gravity := sg
        autorepeat_timer := t, keypress_rate_now := r } := by
  unfold Well.updateKeystate
  dsimp only
  split
  · exact ⟨_, _, _, _, rfl⟩
  · exact ⟨_, _, _, _, rfl⟩

theorem removeEmptyRows_frame (w w' : Well) (h : w.removeEmptyRows = .ok w') :
    ∃ m, w' = { w with matrix := m, pending_cleared_rows := ∅ } := by
  unfold Well.removeEmptyRows at h
  split at h
  · cases h
  · split at h
    · cases h
    · injection h with h
      exact ⟨_, h.symm⟩

theorem updateLineclearAlpha_frame (frame_duration : Duration) (w w' : Well)
    (h : w.updateLineclearAlpha frame_duration = .ok w') :
    ∃ t m P, w' = { w with lineclear_alpha := t, matrix := m, pending_cleared_rows := P } := by
  unfold Well.updateLineclearAlpha at h
  dsimp only at h
  split at h
  · obtain ⟨m, hm⟩ := removeEmptyRows_frame _ w' h
    exact ⟨_, m, ∅, hm⟩
  · injection h with h
    exact ⟨_, w.matrix, w.pending_cleared_rows, h.symm⟩

/-- C9. One `update` call on a state with an active piece, with UP not held
after the events, moves the piece down by at most one row. The gravity timer
gains one frame duration and loses at most one gravity interval. When the DOWN
step of the key handling applies (DOWN held, countdown expired), the gravity
step does not: after the key handling, `update` changes the gravity timer
only. -/
theorem update_down_at_most_one (frame_duration : Duration) (w w' : Well)
    (events : List InputEvent)
    (_hactive : w.active_piece.isSome = true)
    (hup : (w.updateKeystate events).keystates.at .UP = false)
    (h : w.update frame_duration events = .ok w') :
    (w'.active_piece_y = w.active_piece_y ∨ w'.active_piece_y = w.active_piece_y + 1) ∧
    (w'.gravity_timer = w.gravity_timer ∨
      w'.gravity_timer = w.gravity_timer + frame_duration ∨
      w'.gravity_timer = w.gravity_timer + frame_duration - w.gravity_update_rate) ∧
    (w.gameover = false → w.pending_cleared_rows.card = 0 →
      (w.updateKeystate events).keypress_countdown - frame_duration ≤ 0 →
      (w.updateKeystate events).keystates.at .DOWN = true →
      ∃ w3,
        Well.handleKeys frame_duration
          { w.updateKeystate events with
            keypress_countdown := (w.updateKeystate events).keypress_countdown - frame_duration }
          = .ok w3 ∧
        (w' = { w3 with gravity_timer := w3.gravity_timer + frame_duration } ∨
          w' = { w3 with
            gravity_timer := w3.gravity_timer + frame_duration - w3.gravity_update_rate })) := by
  unfold Well.update at h
  split at h
  · rename_i hgo
    injection h with h
    subst h
    exact ⟨Or.inl rfl, Or.inl rfl, fun hf => by rw [hf] at hgo; cases hgo⟩
  · split at h
    · rename_i hpend
      split at h
      · cases h
      · split at h
        · cases h
        · rename_i w1 h1
          split at h
          · cases h
          · injection h with h
            subst h
            obtain ⟨t, m, P, h1⟩ := updateLineclearAlpha_frame frame_duration w w1 h1
            subst h1
            exact ⟨Or.inl rfl, Or.inl rfl, fun _ hc => absurd hc hpend⟩
    · dsimp only at h
      obtain ⟨ks, sg, t, r, hk⟩ := updateKeystate_frame w events
      have eky : (w.updateKeystate events).active_piece_y = w.active_piece_y := by rw [hk]
      have ekg : (w.updateKeystate events).gravity_timer = w.gravity_timer := by rw [hk]
      have ekr : (w.updateKeystate events).gravity_update_rate = w.gravity_update_rate := by
        rw [hk]
      split at h
      · cases h
      · rename_i w3 h3
        -- the state after key handling
        have hkeys :
            (w3.active_piece_y = w.active_piece_y ∨ w3.active_piece_y = w.active_piece_y + 1) ∧
            w3.gravity_timer = w.gravity_timer ∧ w3.gravity_update_rate = w.gravity_update_rate ∧
            ((w3.active_piece_y = w.active_piece_y) ∨ w3.skip_gravity = true) ∧
            ((w.updateKeystate events).keypress_countdown - frame_duration ≤ 0 →
              (w.updateKeystate events).keystates.at .DOWN = true →
              w3.skip_gravity = true ∧
              Well.handleKeys frame_duration
                { w.updateKeystate events with
                  keypress_countdown :=
                    (w.updateKeystate events).keypress_countdown - frame_duration }
                = .ok w3) := by
          split at h3
          · rename_i hcd
            obtain ⟨hy, hg, hr, hd, hn⟩ := handleKeys_fields frame_duration _ w3 h3 hup
            refine ⟨by rw [← eky]; exact hy, by rw [hg]; exact ekg, by rw [hr]; exact ekr, ?_, ?_⟩
            · cases hdown : (w.updateKeystate events).keystates.at .DOWN with
              | true => exact Or.inr (hd hdown)
              | false => exact Or.inl (by rw [(hn hdown).1]; exact eky)
            · intro _ hdown
              exact ⟨hd hdown, h3⟩
          · rename_i hcd
            injection h3 with h3
            subst h3
            exact ⟨Or.inl eky, ekg, ekr, Or.inl eky, fun hc => absurd hc hcd⟩
        obtain ⟨hy3, hg3, hr3, hskip, hdown⟩ := hkeys
        rcases updateGravity_cases frame_duration w3 w' h with hu | ⟨_, hu⟩ | ⟨hs, hu⟩
        · subst hu
          refine ⟨hy3, Or.inr (Or.inl (by simp only [hg3])), ?_⟩
          intro _ _ hc hd
          exact ⟨w3, (hdown hc hd).2, Or.inl rfl⟩
        · subst hu
          refine ⟨hy3, Or.inr (Or.inr (by simp only [hg3, hr3])), ?_⟩
          intro _ _ hc hd
          exact ⟨w3, (hdown hc hd).2, Or.inr rfl⟩
        · obtain ⟨hy, hg, _, _, _⟩ := moveDownNow_fields _ w' hu
          simp only at hy hg
          have hy3' : w3.active_piece_y = w.active_piece_y := by
            rcases hskip with hk | hk
            · exact hk
            · rw [hs] at hk; cases hk
          refine ⟨by rw [← hy3']; exact hy, Or.inr (Or.inr (by rw [hg, hg3, hr3])), ?_⟩
          intro _ _ hc hd
          have := (hdown hc hd).1
          rw [hs] at this
          cases this

/-- Witness for C9: the freshly spawned T piece, DOWN pressed, one frame of 16 ticks. -/
theorem update_down_at_most_one_witness :
    tWell.active_piece.isSome = true ∧
    (tWell.updateKeystate [⟨.DOWN, true⟩]).keystates.at .UP = false ∧
    tWell.update 16 [⟨.DOWN, true⟩] = .ok tWellStepped ∧
    (tWellStepped.active_piece_y = tWell.active_piece_y ∨
      tWellStepped.active_piece_y = tWell.active_piece_y + 1) ∧
    (tWellStepped.gravity_timer = tWell.gravity_timer ∨
      tWellStepped.gravity_timer = tWell.gravity_timer + 16 ∨
      tWellStepped.gravity_timer = tWell.gravity_timer + 16 - tWell.gravity_update_rate) :=
  have h := update_down_at_most_one 16 tWell tWellStepped [⟨.DOWN, true⟩] rfl rfl rfl
  ⟨rfl, rfl, rfl, h.1, h.2.1⟩

/-! ## Row removal -/

theorem toUnsigned_natCast (k : Nat) (hk : k < rows) : toUnsigned (k : Int) = k := by
  have hr : rows = 22 := rfl
  unfold toUnsigned
  omega

theorem nextFilledRow_spec (pending : Finset Nat) (hP : ∀ i ∈ pending, i < rows) :
    ∀ k : Nat, k < rows →
      (nextFilledRow pending (k + 2) (k : Int) = -1 ∧ ∀ i, i ≤ k → i ∈ pending) ∨
      (∃ j : Nat, nextFilledRow pending (k + 2) (k : Int) = (j : Int) ∧ j ≤ k ∧ j ∉ pending ∧
        ∀ i, j < i → i ≤ k → i ∈ pending) := by
  intro k
  induction k with
  | zero =>
    intro hk
    by_cases h0 : 0 ∈ pending
    · left
      refine ⟨?_, fun i hi => by have : i = 0 := by omega
                                 rw [this]; exact h0⟩
      have h1 : toUnsigned ((0 : Nat) : Int) ∈ pending := by
        rw [toUnsigned_natCast 0 hk]; exact h0
      have h2 : toUnsigned (((0 : Nat) : Int) - 1) ∉ pending := by
        intro hm
        have := hP _ hm
        have hr : rows = 22 := rfl
        unfold toUnsigned at this
        omega
      show nextFilledRow pending (0 + 1 + 1) ((0 : Nat) : Int) = -1
      unfold nextFilledRow
      rw [if_pos h1]
      unfold nextFilledRow
      rw [if_neg h2]
      rfl
    · right
      refine ⟨0, ?_, le_refl _, h0, fun i h1 h2 => by omega⟩
      have h1 : toUnsigned ((0 : Nat) : Int) ∉ pending := by
        rw [toUnsigned_natCast 0 hk]; exact h0
      show nextFilledRow pending (0 + 1 + 1) ((0 : Nat) : Int) = _
      unfold nextFilledRow
      rw [if_neg h1]
  | succ k ih =>
    intro hk
    by_cases hin : k + 1 ∈ pending
    · have h1 : toUnsigned ((k + 1 : Nat) : Int) ∈ pending := by
        rw [toUnsigned_natCast (k + 1) hk]; exact hin
      have e : nextFilledRow pending (k + 1 + 2) ((k + 1 : Nat) : Int)
          = nextFilledRow pending (k + 2) (k : Int) := by
        show nextFilledRow pending (k + 2 + 1) ((k + 1 : Nat) : Int) = _
        rw [nextFilledRow, if_pos h1]
        congr 1
        omega
      rw [e]
      rcases ih (by omega) with ⟨h2, h3⟩ | ⟨j, h2, h3, h4, h5⟩
      · left
        refine ⟨h2, fun i hi => ?_⟩
        by_cases hik : i = k + 1
        · rw [hik]; exact hin
        · exact h3 i (by omega)
      · right
        refine ⟨j, h2, by omega, h4, fun i hi1 hi2 => ?_⟩
        by_cases hik : i = k + 1
        · rw [hik]; exact hin
        · exact h5 i hi1 (by omega)
    · right
      have h1 : toUnsigned ((k + 1 : Nat) : Int) ∉ pending := by
        rw [toUnsigned_natCast (k + 1) hk]; exact hin
      refine ⟨k + 1, ?_, le_refl _, hin, fun i h2 h3 => by omega⟩
      show nextFilledRow pending (k + 2 + 1) ((k + 1 : Nat) : Int) = _
      rw [nextFilledRow, if_neg h1]

theorem prefixRows_succ (m : Matrix) (n : Nat) :
    prefixRows m (n + 1) = prefixRows m n ++ [rowAt m n] := by
  simp [prefixRows, List.range_succ]

theorem survivors_succ (m : Matrix) (pending : Finset Nat) (n : Nat) :
    survivors m pending (n + 1) =
      survivors m pending n ++ (if n ∈ pending then [] else [rowAt m n]) := by
  unfold survivors
  rw [List.range_succ, List.filter_append, List.map_append]
  by_cases h : n ∈ pending
  · simp [h]
  · simp [h]

theorem pendingBelow_succ (pending : Finset Nat) (n : Nat) :
    pendingBelow pending (n + 1) = pendingBelow pending n + (if n ∈ pending then 1 else 0) := by
  unfold pendingBelow
  rw [List.range_succ, List.filter_append, List.length_append]
  by_cases h : n ∈ pending
  · simp [h]
  · simp [h]

theorem survivors_congr (m m' : Matrix) (pending pending' : Finset Nat) :
    ∀ n : Nat, (∀ i, i < n → rowAt m i = rowAt m' i) →
      (∀ i, i < n → (i ∈ pending ↔ i ∈ pending')) →
      survivors m pending n = survivors m' pending' n := by
  intro n
  induction n with
  | zero => intro _ _; rfl
  | succ n ih =>
    intro h1 h2
    rw [survivors_succ, survivors_succ,
      ih (fun i hi => h1 i (by omega)) (fun i hi => h2 i (by omega)), h1 n (by omega)]
    by_cases h : n ∈ pending
    · rw [if_pos h, if_pos ((h2 n (by omega)).mp h)]
    · rw [if_neg h, if_neg (fun h' => h ((h2 n (by omega)).mpr h'))]

theorem pendingBelow_congr (pending pending' : Finset Nat) :
    ∀ n : Nat, (∀ i, i < n → (i ∈ pending ↔ i ∈ pending')) →
      pendingBelow pending n = pendingBelow pending' n := by
  intro n
  induction n with
  | zero => intro _; rfl
  | succ n ih =>
    intro h2
    rw [pendingBelow_succ, pendingBelow_succ, ih (fun i hi => h2 i (by omega))]
    by_cases h : n ∈ pending
    · rw [if_pos h, if_pos ((h2 n (by omega)).mp h)]
    · rw [if_neg h, if_neg (fun h' => h ((h2 n (by omega)).mpr h'))]

theorem survivors_skip (m : Matrix) (pending : Finset Nat) (j : Nat) :
    ∀ d : Nat, (∀ i, j ≤ i → i < j + d → i ∈ pending) →
      survivors m pending (j + d) = survivors m pending j := by
  intro d
  induction d with
  | zero => intro _; rfl
  | succ d ih =>
    intro h
    rw [← Nat.add_assoc, survivors_succ, if_pos (h (j + d) (by omega) (by omega)),
      List.append_nil]
    exact ih (fun i h1 h2 => h i h1 (by omega))

theorem mem_insert_of_ne (pending : Finset Nat) (j i : Nat) (h : i ≠ j) :
    i ∈ insert j pending ↔ i ∈ pending := by
  rw [Finset.mem_insert]
  constructor
  · rintro (h1 | h1)
    · exact absurd h1 h
    · exact h1
  · intro h1; exact Or.inr h1

theorem pendingBelow_insert (pending : Finset Nat) (j : Nat) (hj : j ∉ pending) :
    ∀ n : Nat, j < n → pendingBelow (insert j pending) n = pendingBelow pending n + 1 := by
  intro n
  induction n with
  | zero => intro h; omega
  | succ n ih =>
    intro h
    by_cases hn : j = n
    · subst hn
      have e := pendingBelow_congr (insert j pending) pending j
        (fun i hi => mem_insert_of_ne pending j i (by omega))
      simp only [pendingBelow_succ, if_pos (Finset.mem_insert_self j pending), if_neg hj, e,
        Nat.add_zero]
    · have e := ih (by omega)
      have hm := mem_insert_of_ne pending j n (fun h' => hn h'.symm)
      by_cases hp : n ∈ pending
      · simp only [pendingBelow_succ, if_pos hp, if_pos (hm.mpr hp), e]
      · simp only [pendingBelow_succ, if_neg hp, if_neg (fun h' => hp (hm.mp h')), e,
          Nat.add_zero]

theorem pendingBelow_of_all_pending (pending : Finset Nat) :
    ∀ n : Nat, (∀ i, i < n → i ∈ pending) → pendingBelow pending n = n := by
  intro n
  induction n with
  | zero => intro _; rfl
  | succ n ih =>
    intro h
    simp only [pendingBelow_succ, if_pos (h n (by omega)), ih (fun i hi => h i (by omega))]

theorem survivors_of_all_pending (m : Matrix) (pending : Finset Nat) (n : Nat)
    (h : ∀ i, i < n → i ∈ pending) : survivors m pending n = [] := by
  have e := survivors_skip m pending 0 n (fun i _ hi => h i (by omega))
  rw [Nat.zero_add] at e
  rw [e]
  rfl

theorem prefixRows_of_all_empty (m : Matrix) :
    ∀ n : Nat, (∀ i, i < n → rowAt m i = emptyRow) →
      prefixRows m n = List.replicate n emptyRow := by
  intro n
  induction n with
  | zero => intro _; rfl
  | succ n ih =>
    intro h
    rw [prefixRows_succ, ih (fun i hi => h i (by omega)), h n (by omega),
      List.replicate_succ']

theorem compacted_succ_of_not_mem (m : Matrix) (pending : Finset Nat) (n : Nat)
    (h : n ∉ pending) :
    compacted m pending (n + 1) = compacted m pending n ++ [rowAt m n] := by
  unfold compacted
  simp only [survivors_succ, pendingBelow_succ, if_neg h, Nat.add_zero, List.append_assoc]

theorem rowAt_swapRows (m : Matrix) (a b : Fin rows) (i : Nat) :
    rowAt (swapRows m a b) i =
      if i = a.val then rowAt m b.val else if i = b.val then rowAt m a.val else rowAt m i := by
  unfold rowAt swapRows
  by_cases hi : i < rows
  · simp only [hi, dite_true, a.isLt, b.isLt]
    by_cases h1 : i = a.val
    · rw [if_pos h1, if_pos (Fin.ext h1)]
    · rw [if_neg h1, if_neg (fun h => h1 (congrArg Fin.val h))]
      by_cases h2 : i = b.val
      · rw [if_pos h2, if_pos (Fin.ext h2)]
      · rw [if_neg h2, if_neg (fun h => h2 (congrArg Fin.val h))]
  · have ha := a.isLt
    have hb := b.isLt
    rw [if_neg (by omega), if_neg (by omega)]
    simp only [hi, dite_false]

theorem removeEmptyRowsLoop_zero (m : Matrix) (pending : Finset Nat) :
    removeEmptyRowsLoop 0 m pending =
      if 0 ∉ pending then .ok m
      else
        if nextFilledRow pending (0 + 2) ((0 : Nat) : Int) < 0 then .ok m
        else if h : 0 < rows ∧ (nextFilledRow pending (0 + 2) ((0 : Nat) : Int)).toNat < rows then
          .ok (swapRows m ⟨0, h.1⟩ ⟨(nextFilledRow pending (0 + 2) ((0 : Nat) : Int)).toNat, h.2⟩)
        else .error .matrixIndex := by
  rw [removeEmptyRowsLoop]

theorem removeEmptyRowsLoop_succ (r : Nat) (m : Matrix) (pending : Finset Nat) :
    removeEmptyRowsLoop (r + 1) m pending =
      if r + 1 ∉ pending then removeEmptyRowsLoop r m pending
      else
        if nextFilledRow pending (r + 1 + 2) ((r + 1 : Nat) : Int) < 0 then .ok m
        else if h : r + 1 < rows ∧
            (nextFilledRow pending (r + 1 + 2) ((r + 1 : Nat) : Int)).toNat < rows then
          removeEmptyRowsLoop r
            (swapRows m ⟨r + 1, h.1⟩
              ⟨(nextFilledRow pending (r + 1 + 2) ((r + 1 : Nat) : Int)).toNat, h.2⟩)
            (insert (nextFilledRow pending (r + 1 + 2) ((r + 1 : Nat) : Int)).toNat pending)
        else .error .matrixIndex := by
  rw [removeEmptyRowsLoop]

theorem compacted_of_all_pending (m : Matrix) (pending : Finset Nat) (n : Nat)
    (h : ∀ i, i < n → i ∈ pending) : compacted m pending n = List.replicate n emptyRow := by
  unfold compacted
  rw [pendingBelow_of_all_pending pending n h, survivors_of_all_pending m pending n h,
    List.append_nil]

/-- The loop of `removeEmptyRows` started at row `r`, on a board whose pending
rows up to `r` are empty: it returns, leaves the rows below `r` alone and
turns the rows 0..r into their gravity compaction. -/
theorem removeEmptyRowsLoop_spec :
    ∀ (r : Nat) (m : Matrix) (pending : Finset Nat), r < rows →
      (∀ i ∈ pending, i < rows) →
      (∀ i, i ≤ r → i ∈ pending → rowAt m i = emptyRow) →
      ∃ m', removeEmptyRowsLoop r m pending = .ok m' ∧
        (∀ i, r < i → rowAt m' i = rowAt m i) ∧
        prefixRows m' (r + 1) = compacted m pending (r + 1) := by
  intro r
  induction r with
  | zero =>
    intro m pending hr hP hempty
    rw [removeEmptyRowsLoop_zero]
    by_cases h0 : 0 ∈ pending
    · rw [if_neg (not_not.mpr h0)]
      rcases nextFilledRow_spec pending hP 0 hr with ⟨hn, hall⟩ | ⟨j, _, hj1, hj2, _⟩
      · rw [if_pos (by rw [hn]; decide)]
        refine ⟨m, rfl, fun _ _ => rfl, ?_⟩
        rw [compacted_of_all_pending m pending 1 (fun i hi => hall i (by omega)),
          prefixRows_of_all_empty m 1 (fun i hi => hempty i (by omega) (hall i (by omega)))]
      · have : j = 0 := by omega
        rw [this] at hj2
        exact absurd h0 hj2
    · rw [if_pos h0]
      refine ⟨m, rfl, fun _ _ => rfl, ?_⟩
      rw [compacted_succ_of_not_mem m pending 0 h0, prefixRows_succ]
      rfl
  | succ r ih =>
    intro m pending hr hP hempty
    rw [removeEmptyRowsLoop_succ]
    by_cases hin : r + 1 ∈ pending
    · rw [if_neg (not_not.mpr hin)]
      rcases nextFilledRow_spec pending hP (r + 1) hr with ⟨hn, hall⟩ | ⟨j, hn, hj1, hj2, hj3⟩
      · rw [if_pos (by rw [hn]; decide)]
        refine ⟨m, rfl, fun _ _ => rfl, ?_⟩
        rw [compacted_of_all_pending m pending (r + 1 + 1) (fun i hi => hall i (by omega)),
          prefixRows_of_all_empty m (r + 1 + 1)
            (fun i hi => hempty i (by omega) (hall i (by omega)))]
      · have hjr : j < r + 1 := by
          rcases Nat.lt_or_ge j (r + 1) with h | h
          · exact h
          · have : j = r + 1 := by omega
            rw [this] at hj2
            exact absurd hin hj2
        have hjrows : j < rows := by omega
        rw [if_neg (by rw [hn]; omega)]
        have htn : (nextFilledRow pending (r + 1 + 2) ((r + 1 : Nat) : Int)).toNat = j := by
          rw [hn]; rfl
        rw [dif_pos ⟨hr, by rw [htn]; exact hjrows⟩]
        simp only [htn]
        -- the state after the swap
        have hP1 : ∀ i ∈ insert j pending, i < rows := by
          intro i hi
          rcases Finset.mem_insert.mp hi with h | h
          · rw [h]; exact hjrows
          · exact hP i h
        have hrow : ∀ i, rowAt (swapRows m ⟨r + 1, hr⟩ ⟨j, hjrows⟩) i =
            if i = r + 1 then rowAt m j else if i = j then rowAt m (r + 1) else rowAt m i :=
          fun i => rowAt_swapRows m ⟨r + 1, hr⟩ ⟨j, hjrows⟩ i
        have hempty1 : ∀ i, i ≤ r → i ∈ insert j pending →
            rowAt (swapRows m ⟨r + 1, hr⟩ ⟨j, hjrows⟩) i = emptyRow := by
          intro i hi hmem
          rw [hrow, if_neg (by omega)]
          by_cases hij : i = j
          · rw [if_pos hij]
            exact hempty (r + 1) (le_refl _) hin
          · rw [if_neg hij]
            exact hempty i (by omega) ((mem_insert_of_ne pending j i hij).mp hmem)
        obtain ⟨m', hm', hkeep, hpre⟩ :=
          ih (swapRows m ⟨r + 1, hr⟩ ⟨j, hjrows⟩) (insert j pending) (by omega) hP1 hempty1
        refine ⟨m', hm', ?_, ?_⟩
        · intro i hi
          rw [hkeep i (by omega), hrow, if_neg (by omega), if_neg (by omega)]
        · rw [prefixRows_succ, hpre, hkeep (r + 1) (by omega), hrow, if_pos rfl]
          -- both sides are the compaction of the rows 0..r+1
          have hs1 : survivors (swapRows m ⟨r + 1, hr⟩ ⟨j, hjrows⟩) (insert j pending) (r + 1)
              = survivors m pending j := by
            have e1 := survivors_skip (swapRows m ⟨r + 1, hr⟩ ⟨j, hjrows⟩) (insert j pending) j
              (r + 1 - j) (fun i h1 h2 => by
                by_cases hij : i = j
                · rw [hij]; exact Finset.mem_insert_self _ _
                · exact Finset.mem_insert_of_mem (hj3 i (by omega) (by omega)))
            rw [show j + (r + 1 - j) = r + 1 by omega] at e1
            rw [e1]
            apply survivors_congr
            · intro i hi
              rw [hrow, if_neg (by omega), if_neg (by omega)]
            · intro i hi
              exact mem_insert_of_ne pending j i (by omega)
          have hs2 : survivors m pending (r + 1 + 1) = survivors m pending j ++ [rowAt m j] := by
            have e1 := survivors_skip m pending (j + 1) (r + 1 - j) (fun i h1 h2 => by
              exact hj3 i (by omega) (by omega))
            rw [show j + 1 + (r + 1 - j) = r + 1 + 1 by omega] at e1
            rw [e1, survivors_succ, if_neg hj2]
          have hp1 : pendingBelow (insert j pending) (r + 1) = pendingBelow pending (r + 1) + 1 :=
            pendingBelow_insert pending j hj2 (r + 1) hjr
          have hp2 : pendingBelow pending (r + 1 + 1) = pendingBelow pending (r + 1) + 1 := by
            rw [pendingBelow_succ, if_pos hin]
          unfold compacted
          rw [hs1, hs2, hp1, hp2, List.append_assoc]
    · rw [if_pos hin]
      obtain ⟨m', hm', hkeep, hpre⟩ :=
        ih m pending (by omega) hP (fun i hi => hempty i (by omega))
      refine ⟨m', hm', fun i hi => hkeep i (by omega), ?_⟩
      rw [prefixRows_succ, hpre, hkeep (r + 1) (by omega),
        compacted_succ_of_not_mem m pending (r + 1) hin]

theorem rowAt_val (m : Matrix) (i : Fin rows) : rowAt m i.val = m i := by
  unfold rowAt
  rw [dif_pos i.isLt]

theorem prefixRows_rows (m : Matrix) : prefixRows m rows = List.ofFn m := by
  unfold prefixRows
  rw [List.ofFn_eq_map, ← List.map_coe_finRange, List.map_map]
  apply List.map_congr_left
  intro i _
  exact rowAt_val m i

theorem survivors_rows (m : Matrix) (pending : Finset Nat) :
    survivors m pending rows =
      ((List.finRange rows).filter (fun i => decide (i.val ∉ pending))).map m := by
  unfold survivors
  rw [← List.map_coe_finRange, List.filter_map, List.map_map]
  apply List.map_congr_left
  intro i _
  exact rowAt_val m i

theorem pendingBelow_rows (pending : Finset Nat) (hP : ∀ i ∈ pending, i < rows) :
    pendingBelow pending rows = pending.card := by
  have e : pending = (Finset.range rows).filter (fun i => i ∈ pending) := by
    ext i
    rw [Finset.mem_filter, Finset.mem_range]
    exact ⟨fun h => ⟨hP i h, h⟩, fun h => h.2⟩
  unfold pendingBelow
  conv_rhs => rw [e]
  rfl

/-- C1. For every board (22 rows) and every non-empty set of pending row
indices, all of them board rows and all of them empty on the board,
`removeEmptyRows` returns; the board then consists of one empty row for every
pending index at the top, followed by the rows of the original board that were
not pending, in their original top-to-bottom order; and the pending set is
empty afterwards. -/
theorem removeEmptyRows_compacts (w : Well)
    (hne : w.pending_cleared_rows ≠ ∅)
    (hP : ∀ i ∈ w.pending_cleared_rows, i < rows)
    (hempty : ∀ i : Fin rows, i.val ∈ w.pending_cleared_rows → ∀ j, w.matrix i j = none) :
    ∃ w', w.removeEmptyRows = .ok w' ∧
      List.ofFn w'.matrix =
        List.replicate w.pending_cleared_rows.card emptyRow ++
          ((List.finRange rows).filter
            (fun i => decide (i.val ∉ w.pending_cleared_rows))).map w.matrix ∧
      w'.pending_cleared_rows = ∅ := by
  have hempty' : ∀ i, i ≤ 21 → i ∈ w.pending_cleared_rows → rowAt w.matrix i = emptyRow := by
    intro i hi hmem
    have hlt : i < rows := hP i hmem
    unfold rowAt
    rw [dif_pos hlt]
    funext j
    exact hempty ⟨i, hlt⟩ hmem j
  obtain ⟨m', hm', _, hpre⟩ :=
    removeEmptyRowsLoop_spec 21 w.matrix w.pending_cleared_rows (by decide) hP hempty'
  have hloop : removeEmptyRowsLoop rows w.matrix w.pending_cleared_rows = .ok m' := by
    show removeEmptyRowsLoop (21 + 1) w.matrix w.pending_cleared_rows = .ok m'
    rw [removeEmptyRowsLoop_succ, if_pos (fun h => absurd (hP _ h) (by decide))]
    exact hm'
  refine ⟨{ w with matrix := m', pending_cleared_rows := ∅ }, ?_, ?_, rfl⟩
  · unfold Well.removeEmptyRows
    rw [if_neg (fun h => hne (Finset.card_eq_zero.mp h)), hloop]
  · show List.ofFn m' = _
    rw [← prefixRows_rows, ← survivors_rows, ← pendingBelow_rows _ hP]
    exact hpre

/-- Witness for C1: the rows 19 and 21 are pending, the rows 18 and 20 hold a mino each. -/
theorem removeEmptyRows_compacts_witness :
    pendingWell.pending_cleared_rows ≠ ∅ ∧
    (∀ i ∈ pendingWell.pending_cleared_rows, i < rows) ∧
    (∀ i : Fin rows, i.val ∈ pendingWell.pending_cleared_rows →
      ∀ j, pendingWell.matrix i j = none) ∧
    ∃ w', pendingWell.removeEmptyRows = .ok w' ∧
      List.ofFn w'.matrix =
        List.replicate pendingWell.pending_cleared_rows.card emptyRow ++
          ((List.finRange rows).filter
            (fun i => decide (i.val ∉ pendingWell.pending_cleared_rows))).map
            pendingWell.matrix ∧
      w'.pending_cleared_rows = ∅ :=
  ⟨by decide, by decide, by decide,
    removeEmptyRows_compacts pendingWell (by decide) (by decide) (by decide)⟩

/-! ## Holding DOWN -/

theorem updateKeystate_press_down (w : Well) (hk : w.keystates = KeyStates.allReleased) :
    w.updateKeystate [⟨.DOWN, true⟩] =
      { w with
        previous_keystates := KeyStates.allReleased, keystates := KeyStates.downOnly
        skip_gravity := false } := by
  unfold Well.updateKeystate
  rw [hk]
  rfl

theorem updateKeystate_hold_down (w : Well) (hk : w.keystates = KeyStates.downOnly) :
    w.updateKeystate [] =
      { w with
        previous_keystates := KeyStates.downOnly, keystates := KeyStates.downOnly
        skip_gravity := true } := by
  unfold Well.updateKeystate
  rw [hk]
  rfl

theorem moveDownNow_keystates (w w' : Well) (h : w.moveDownNow = .ok w') :
    w'.keystates = w.keystates ∨ w'.keystates = KeyStates.allReleased := by
  rcases moveDownNow_cases w w' h with h1 | h1 | ⟨m, P, h1⟩ | ⟨m, P, h1⟩
  · subst h1; exact Or.inl rfl
  · subst h1; exact Or.inl rfl
  · subst h1; exact Or.inl rfl
  · subst h1; exact Or.inr rfl

/-- Key handling when only DOWN is held: one step down, then the countdown
restarts and the autorepeat timer advances. -/
theorem handleKeys_down_only (frame_duration : Duration) (w wm : Well)
    (hk : w.keystates = KeyStates.downOnly) (hm : w.moveDownNow = .ok wm) :
    w.handleKeys frame_duration =
      .ok (Well.finishKeys frame_duration { wm with skip_gravity := true } true true) := by
  have hks := moveDownNow_keystates w wm hm
  unfold Well.handleKeys
  have h1 : w.handleHorizontal = .ok w := by
    unfold Well.handleHorizontal
    rw [hk]
    rfl
  have h2 : w.handleDown = .ok { wm with skip_gravity := true } := by
    unfold Well.handleDown
    rw [hk, hm]
    rfl
  have h3 : Well.handleUp { wm with skip_gravity := true } = .ok { wm with skip_gravity := true } := by
    apply handleUp_of_released
    show wm.keystates.at .UP = false
    rcases hks with h | h <;> rw [h]
    · rw [hk]; rfl
    · rfl
  have h4 : Well.handleRotate { wm with skip_gravity := true }
      = .ok { wm with skip_gravity := true } := by
    unfold Well.handleRotate
    show (if wm.keystates.at .A ≠ wm.keystates.at .B then _ else _) = _
    rcases hks with h | h <;> rw [h]
    · rw [hk]; rfl
    · rfl
  simp only [h1, h2, h3, h4]
  have e1 : (w.keystates.at .LEFT != w.keystates.at .RIGHT) = false := by rw [hk]; rfl
  have e2 : w.keystates.at .DOWN = true := by rw [hk]; rfl
  have e3 : wm.keystates.at .UP = false := by
    rcases hks with h | h <;> rw [h]
    · rw [hk]; rfl
    · rfl
  have e4 : (wm.keystates.at .A != wm.keystates.at .B) = false := by
    rcases hks with h | h <;> rw [h]
    · rw [hk]; rfl
    · rfl
  simp only [e1, e2, e3, e4, Bool.false_or, Bool.or_false, Bool.or_self]

theorem updateGravity_of_skip (frame_duration : Duration) (w : Well)
    (hs : w.skip_gravity = true) :
    ∃ t, w.updateGravity frame_duration = .ok { w with gravity_timer := t } := by
  unfold Well.updateGravity
  dsimp only
  by_cases h : w.gravity_timer + frame_duration ≥ w.gravity_update_rate
  · rw [if_pos h, hs]
    exact ⟨_, rfl⟩
  · rw [if_neg h]
    exact ⟨_, rfl⟩

theorem finishKeys_true_true (frame_duration : Duration) (w : Well) :
    ∃ t r, w.finishKeys frame_duration true true =
        { w with
          keypress_countdown := w.keypress_rate_now, autorepeat_timer := t
          keypress_rate_now := r } ∧
      (r = w.keypress_rate_now ∨ r = w.keypress_turbo_update_rate) := by
  unfold Well.finishKeys
  dsimp only
  simp only [if_true]
  by_cases h : w.autorepeat_timer + (w.keypress_rate_now + frame_duration) > w.autorepeat_delay
  · rw [if_pos h]
    exact ⟨_, _, rfl, Or.inr rfl⟩
  · rw [if_neg h]
    exact ⟨_, _, rfl, Or.inl rfl⟩

/-- One frame with only DOWN held after the events, the countdown expired, on
a well in play: the frame is one `moveDownNow` followed by timer updates. -/
theorem update_down_only (frame_duration : Duration) (w wm : Well) (events : List InputEvent)
    (prev : KeyStates) (sg : Bool)
    (hgo : w.gameover = false) (hpend : w.pending_cleared_rows = ∅)
    (hcd : w.keypress_countdown ≤ frame_duration)
    (hupd : w.updateKeystate events =
      { w with
        previous_keystates := prev, keystates := KeyStates.downOnly, skip_gravity := sg })
    (hm : Well.moveDownNow
      { w with
        previous_keystates := prev, keystates := KeyStates.downOnly, skip_gravity := sg
        keypress_countdown := w.keypress_countdown - frame_duration } = .ok wm) :
    ∃ t t2 r,
      w.update frame_duration events =
        .ok { wm with
              skip_gravity := true, keypress_countdown := wm.keypress_rate_now
              autorepeat_timer := t2, keypress_rate_now := r, gravity_timer := t } ∧
      (r = wm.keypress_rate_now ∨ r = wm.keypress_turbo_update_rate) := by
  obtain ⟨t2, r, hf, hr⟩ :=
    finishKeys_true_true frame_duration { wm with skip_gravity := true }
  have hk := handleKeys_down_only frame_duration _ wm rfl hm
  rw [hf] at hk
  obtain ⟨t, hgr⟩ := updateGravity_of_skip frame_duration
    { wm with
      skip_gravity := true, keypress_countdown := wm.keypress_rate_now
      autorepeat_timer := t2, keypress_rate_now := r } rfl
  refine ⟨t, t2, r, ?_, hr⟩
  unfold Well.update
  rw [if_neg (by rw [hgo]; simp), if_neg (by rw [hpend]; simp), hupd]
  dsimp only
  rw [if_pos (Int.sub_nonpos_of_le hcd), hk]
  exact hgr

theorem checkLineclear_settled (w w' : Well) (h : w.checkLineclear = .ok w')
    (hgo : w.gameover = false) (hup : w.keystates.at .UP = false) : w'.Settled := by
  have ha := (checkLineclear_active w w' h).1
  unfold Well.checkLineclear at h
  split at h
  · cases h
  · dsimp only at h
    split at h
    · cases h
    · split at h
      · split at h
        · cases h
        · rename_i hrows
          injection h with h
          subst h
          exact ⟨ha, hgo, rfl, fun _ => ⟨rfl, not_not.mp hrows⟩⟩
      · rename_i hc
        injection h with h
        subst h
        exact ⟨ha, hgo, hup, fun hc' => absurd hc' hc⟩

theorem checkLineclear_offsets (w w' : Well) (h : w.checkLineclear = .ok w') :
    w'.active_piece_y = w.active_piece_y ∧ w'.ghost_piece_y = w.ghost_piece_y := by
  rcases checkLineclear_cases w w' h with h1 | h1 <;> subst h1 <;> exact ⟨rfl, rfl⟩

/-- One frame of a falling piece with only DOWN held after the events: the
frame returns; above the ghost row the piece descends one row and keeps
falling, on the ghost row it stays where it is and either remains active (last
board row) or is locked. -/
theorem falling_step (frame_duration : Duration) (w : Well) (p : Piece)
    (events : List InputEvent) (prev : KeyStates) (sg : Bool)
    (hF : w.Falling frame_duration p)
    (hupd : w.updateKeystate events =
      { w with
        previous_keystates := prev, keystates := KeyStates.downOnly, skip_gravity := sg }) :
    ∃ w', w.update frame_duration events = .ok w' ∧
      w'.ghost_piece_y = w.ghost_piece_y ∧
      ((w.active_piece_y < w.ghost_piece_y ∧ w'.active_piece_y = w.active_piece_y + 1 ∧
          w'.Falling frame_duration p ∧ w'.keystates = KeyStates.downOnly) ∨
        (w.active_piece_y = w.ghost_piece_y ∧ w'.active_piece_y = w.active_piece_y ∧
          ((w'.Falling frame_duration p ∧ w'.keystates = KeyStates.downOnly) ∨ w'.Settled))) := by
  obtain ⟨⟨hp, ⟨hx1, hx2, hy⟩, hyg, hgr, hfree, hbelow⟩, hgo, hpend, hfull, hcd, hrate, hnorm,
    hturbo⟩ := hF
  by_cases hlt : w.active_piece_y < w.ghost_piece_y
  · -- the piece fits one row lower
    have hm : Well.moveDownNow
        { w with
          previous_keystates := prev, keystates := KeyStates.downOnly, skip_gravity := sg
          keypress_countdown := w.keypress_countdown - frame_duration }
        = .ok { w with
          previous_keystates := prev, keystates := KeyStates.downOnly, skip_gravity := sg
          keypress_countdown := w.keypress_countdown - frame_duration
          active_piece_y := w.active_piece_y + 1 } := by
      rw [moveDownNow_spec
        { w with
          previous_keystates := prev, keystates := KeyStates.downOnly, skip_gravity := sg
          keypress_countdown := w.keypress_countdown - frame_duration } p hp ⟨hx1, hx2⟩ (show w.active_piece_y + 1 < rows by omega)]
      rw [if_neg (by
        rw [show collides w.matrix p.currentGrid w.active_piece_x (w.active_piece_y + 1) = false
          from hfree _ (by omega) (by omega)]
        simp)]
    obtain ⟨t, t2, r, hu, hr⟩ :=
      update_down_only frame_duration w _ events prev sg hgo hpend hcd hupd hm
    refine ⟨_, hu, rfl, Or.inl ⟨hlt, rfl, ?_, rfl⟩⟩
    refine ⟨⟨hp, ⟨hx1, hx2, show w.active_piece_y + 1 < rows by omega⟩,
      show w.active_piece_y + 1 ≤ w.ghost_piece_y by omega, hgr, ?_, hbelow⟩,
      hgo, hpend, hfull, hrate, ?_, hnorm, hturbo⟩
    · intro y h1 h2
      exact hfree y (by simp only at h1; omega) h2
    · rcases hr with hr | hr <;> rw [hr]
      · exact hrate
      · exact hturbo
  · have heq : w.active_piece_y = w.ghost_piece_y := by omega
    by_cases hlast : w.active_piece_y + 1 < rows
    · -- the row below collides: the piece is locked
      have hcol : collides w.matrix p.currentGrid w.active_piece_x (w.active_piece_y + 1) = true := by
        rw [heq]; exact hbelow (by omega)
      have hasrt : (collectFilledRows
            (lockCells w.matrix p.currentGrid w.active_piece_x w.active_piece_y)
            w.pending_cleared_rows).card ≤ 4 ∧
          ∀ r ∈ collectFilledRows
            (lockCells w.matrix p.currentGrid w.active_piece_x w.active_piece_y)
            w.pending_cleared_rows, r < rows := by
        rw [hpend]
        exact collectFilledRows_lockCells w.matrix p.currentGrid w.active_piece_x
          w.active_piece_y ⟨hx1, hx2⟩ hfull
      have hcl := checkLineclear_spec
        { w with
          previous_keystates := prev, keystates := KeyStates.downOnly, skip_gravity := sg
          keypress_countdown := w.keypress_countdown - frame_duration
          matrix := lockCells w.matrix p.currentGrid w.active_piece_x w.active_piece_y
          active_piece := none } rfl hasrt.1 hasrt.2
      have hm0 : Well.moveDownNow
          { w with
            previous_keystates := prev, keystates := KeyStates.downOnly, skip_gravity := sg
            keypress_countdown := w.keypress_countdown - frame_duration }
          = Well.checkLineclear
            { w with
              previous_keystates := prev, keystates := KeyStates.downOnly, skip_gravity := sg
              keypress_countdown := w.keypress_countdown - frame_duration
              matrix := lockCells w.matrix p.currentGrid w.active_piece_x w.active_piece_y
              active_piece := none } := by
        rw [moveDownNow_spec
          { w with
          previous_keystates := prev, keystates := KeyStates.downOnly, skip_gravity := sg
          keypress_countdown := w.keypress_countdown - frame_duration } p hp ⟨hx1, hx2⟩ hlast, if_pos hcol,
          lockAndReleasePiece_spec
          { w with
          previous_keystates := prev, keystates := KeyStates.downOnly, skip_gravity := sg
          keypress_countdown := w.keypress_countdown - frame_duration } p hp]
      obtain ⟨wm, hwm⟩ : ∃ wm, Well.checkLineclear
          { w with
            previous_keystates := prev, keystates := KeyStates.downOnly, skip_gravity := sg
            keypress_countdown := w.keypress_countdown - frame_duration
            matrix := lockCells w.matrix p.currentGrid w.active_piece_x w.active_piece_y
            active_piece := none } = .ok wm := ⟨_, hcl⟩
      obtain ⟨hs1, hs2, hs3, hs4⟩ := checkLineclear_settled _ wm hwm hgo rfl
      obtain ⟨hf1, hf2⟩ := checkLineclear_offsets _ wm hwm
      obtain ⟨t, t2, r, hu, hr⟩ :=
        update_down_only frame_duration w wm events prev sg hgo hpend hcd hupd (hm0.trans hwm)
      exact ⟨_, hu, hf2, Or.inr ⟨heq, hf1, Or.inr ⟨hs1, hs2, hs3, hs4⟩⟩⟩
    · -- the piece is on the last board row and stays active
      have hm := moveDownNow_of_last_row
        { w with
          previous_keystates := prev, keystates := KeyStates.downOnly, skip_gravity := sg
          keypress_countdown := w.keypress_countdown - frame_duration }
        (show w.active_piece_y + 1 ≥ rows by omega)
      obtain ⟨t, t2, r, hu, hr⟩ :=
        update_down_only frame_duration w _ events prev sg hgo hpend hcd hupd hm
      refine ⟨_, hu, rfl, Or.inr ⟨heq, rfl, Or.inl ⟨?_, rfl⟩⟩⟩
      refine ⟨⟨hp, ⟨hx1, hx2, hy⟩, hyg, hgr, hfree, hbelow⟩,
        hgo, hpend, hfull, hrate, ?_, hnorm, hturbo⟩
      rcases hr with hr | hr <;> rw [hr]
      · exact hrate
      · exact hturbo

theorem removeEmptyRowsLoop_ok :
    ∀ (r : Nat) (m : Matrix) (pending : Finset Nat), r < rows →
      (∀ i ∈ pending, i < rows) → ∃ m', removeEmptyRowsLoop r m pending = .ok m' := by
  intro r
  induction r with
  | zero =>
    intro m pending hr hP
    rw [removeEmptyRowsLoop_zero]
    by_cases h0 : 0 ∈ pending
    · rw [if_neg (not_not.mpr h0)]
      rcases nextFilledRow_spec pending hP 0 hr with ⟨hn, _⟩ | ⟨j, _, hj1, hj2, _⟩
      · rw [if_pos (by rw [hn]; decide)]
        exact ⟨m, rfl⟩
      · have : j = 0 := by omega
        rw [this] at hj2
        exact absurd h0 hj2
    · rw [if_pos h0]
      exact ⟨m, rfl⟩
  | succ r ih =>
    intro m pending hr hP
    rw [removeEmptyRowsLoop_succ]
    by_cases hin : r + 1 ∈ pending
    · rw [if_neg (not_not.mpr hin)]
      rcases nextFilledRow_spec pending hP (r + 1) hr with ⟨hn, _⟩ | ⟨j, hn, hj1, hj2, _⟩
      · rw [if_pos (by rw [hn]; decide)]
        exact ⟨m, rfl⟩
      · have hjrows : j < rows := by omega
        rw [if_neg (by rw [hn]; omega)]
        have htn : (nextFilledRow pending (r + 1 + 2) ((r + 1 : Nat) : Int)).toNat = j := by
          rw [hn]; rfl
        rw [dif_pos ⟨hr, by rw [htn]; exact hjrows⟩]
        apply ih _ _ (by omega)
        intro i hi
        rcases Finset.mem_insert.mp hi with h | h
        · rw [h, htn]; exact hjrows
        · exact hP i h
    · rw [if_pos hin]
      exact ih m pending (by omega) hP

theorem removeEmptyRows_ok (w : Well) (hc : w.pending_cleared_rows.card ≠ 0)
    (hP : ∀ i ∈ w.pending_cleared_rows, i < rows) :
    ∃ m, w.removeEmptyRows = .ok { w with matrix := m, pending_cleared_rows := ∅ } := by
  obtain ⟨m', hm'⟩ := removeEmptyRowsLoop_ok 21 w.matrix w.pending_cleared_rows (by decide) hP
  have hloop : removeEmptyRowsLoop rows w.matrix w.pending_cleared_rows = .ok m' := by
    show removeEmptyRowsLoop (21 + 1) w.matrix w.pending_cleared_rows = .ok m'
    rw [removeEmptyRowsLoop_succ, if_pos (fun h => absurd (hP _ h) (by decide))]
    exact hm'
  refine ⟨m', ?_⟩
  unfold Well.removeEmptyRows
  rw [if_neg hc, hloop]

/-- The frame of a settled well whose rows are pending: the fade timer
advances, and when it completes the rows are removed. -/
theorem settled_step_pending (frame_duration : Duration) (w : Well) (hS : w.Settled)
    (hc : w.pending_cleared_rows.card ≠ 0) :
    ∃ w', w.update frame_duration [] = .ok w' ∧ w'.Settled ∧
      w'.active_piece_y = w.active_piece_y := by
  obtain ⟨ha, hgo, hup, hpend⟩ := hS
  obtain ⟨hrun, hP⟩ := hpend hc
  unfold Well.update
  rw [if_neg (by rw [hgo]; simp), if_pos hc, if_neg (by rw [hrun]; simp)]
  unfold Well.updateLineclearAlpha
  dsimp only
  by_cases hfire : (w.lineclear_alpha.update frame_duration).2 = true
  · rw [if_pos hfire]
    obtain ⟨m, hm⟩ := removeEmptyRows_ok
      { w with lineclear_alpha := (w.lineclear_alpha.update frame_duration).1 } hc hP
    rw [hm]
    dsimp only
    rw [if_neg (by rw [ha]; simp)]
    refine ⟨_, rfl, ⟨ha, hgo, hup, ?_⟩, rfl⟩
    intro h
    exact absurd Finset.card_empty h
  · rw [if_neg hfire]
    dsimp only
    rw [if_neg (by rw [ha]; simp)]
    refine ⟨_, rfl, ⟨ha, hgo, hup, ?_⟩, rfl⟩
    intro _
    refine ⟨?_, hP⟩
    show (w.lineclear_alpha.update frame_duration).1.running = true
    unfold Transition.update at hfire ⊢
    unfold Transition.running at hrun ⊢
    rw [hrun] at hfire ⊢
    simp only [if_true] at hfire ⊢
    by_cases hd : w.lineclear_alpha.timer + frame_duration ≥ w.lineclear_alpha.duration
    · rw [if_pos hd] at hfire
      exact absurd rfl hfire
    · rw [if_neg hd]

theorem updateKeystate_nil (w : Well) :
    ∃ sg t r, w.updateKeystate [] =
      { w with
        previous_keystates := w.keystates, skip_gravity := sg
        autorepeat_timer := t, keypress_rate_now := r } := by
  unfold Well.updateKeystate
  dsimp only [List.foldl]
  split
  · exact ⟨_, _, _, rfl⟩
  · exact ⟨_, _, _, rfl⟩

theorem updateGravity_no_piece (frame_duration : Duration) (w : Well)
    (ha : w.active_piece = none) :
    ∃ t, w.updateGravity frame_duration = .ok { w with gravity_timer := t } := by
  unfold Well.updateGravity
  dsimp only
  by_cases h : w.gravity_timer + frame_duration ≥ w.gravity_update_rate
  · rw [if_pos h]
    by_cases hs : w.skip_gravity = true
    · rw [if_neg (by rw [hs]; simp)]
      exact ⟨_, rfl⟩
    · rw [if_pos hs]
      unfold Well.applyGravity
      exact ⟨_, moveDownNow_of_no_piece
        { w with gravity_timer := w.gravity_timer + frame_duration - w.gravity_update_rate } ha⟩
  · rw [if_neg h]
    exact ⟨_, rfl⟩

/-- Key handling without an active piece and with UP released: every command
is ignored, only the input timers and the gravity flag may change. -/
theorem handleKeys_no_piece (frame_duration : Duration) (w : Well)
    (ha : w.active_piece = none) (hup : w.keystates.at .UP = false) :
    ∃ w', w.handleKeys frame_duration = .ok w' ∧ w.SameButTimers w' := by
  have h1 : w.handleHorizontal = .ok w := by
    unfold Well.handleHorizontal Well.moveLeftNow Well.moveRightNow
    simp [ha]
  obtain ⟨s, h2⟩ : ∃ s, w.handleDown = .ok { w with skip_gravity := s } := by
    unfold Well.handleDown
    rw [moveDownNow_of_no_piece w ha]
    by_cases hd : w.keystates.at .DOWN = true
    · rw [if_pos hd]
      exact ⟨true, rfl⟩
    · rw [if_neg hd]
      exact ⟨w.skip_gravity, rfl⟩
  have h3 : Well.handleUp { w with skip_gravity := s } = .ok { w with skip_gravity := s } :=
    handleUp_of_released _ hup
  obtain ⟨t, r, h4⟩ : ∃ t r, Well.handleRotate { w with skip_gravity := s } =
      .ok { w with skip_gravity := s, autorepeat_timer := t, keypress_rate_now := r } := by
    unfold Well.handleRotate Well.rotateCCWNow Well.rotateCWNow
    dsimp only
    rw [ha]
    by_cases hr : w.keystates.at .A ≠ w.keystates.at .B
    · rw [if_pos hr]
      by_cases hA : w.keystates.at .A = true
      · rw [if_pos hA]
        exact ⟨_, _, rfl⟩
      · rw [if_neg hA]
        exact ⟨_, _, rfl⟩
    · rw [if_neg hr]
      exact ⟨_, _, rfl⟩
  unfold Well.handleKeys
  simp only [h1, h2, h3, h4]
  obtain ⟨c, t', r', hf⟩ := finishKeys_frame frame_duration
    { w with skip_gravity := s, autorepeat_timer := t, keypress_rate_now := r }
    ((w.keystates.at .LEFT != w.keystates.at .RIGHT) || w.keystates.at .DOWN ||
      w.keystates.at .UP || (w.keystates.at .A != w.keystates.at .B))
    ((w.keystates.at .LEFT != w.keystates.at .RIGHT) || w.keystates.at .DOWN)
  exact ⟨_, rfl, c, t', r', s, hf⟩

/-- The frame of a settled well without pending rows: nothing moves. -/
theorem settled_step_idle (frame_duration : Duration) (w : Well) (hS : w.Settled)
    (hc : w.pending_cleared_rows.card = 0) :
    ∃ w', w.update frame_duration [] = .ok w' ∧ w'.Settled ∧
      w'.active_piece_y = w.active_piece_y := by
  obtain ⟨ha, hgo, hup, hpend⟩ := hS
  obtain ⟨sg, t, r, hk⟩ := updateKeystate_nil w
  unfold Well.update
  rw [if_neg (by rw [hgo]; simp), if_neg (by rw [hc]; simp), hk]
  dsimp only
  by_cases hcd : w.keypress_countdown - frame_duration ≤ 0
  · rw [if_pos hcd]
    obtain ⟨w3, h3, c', t', r', s', hs⟩ := handleKeys_no_piece frame_duration
      { w with
        previous_keystates := w.keystates, skip_gravity := sg
        autorepeat_timer := t, keypress_rate_now := r
        keypress_countdown := w.keypress_countdown - frame_duration } ha hup
    rw [h3]
    dsimp only
    subst hs
    obtain ⟨tg, hg⟩ := updateGravity_no_piece frame_duration
      { w with
        previous_keystates := w.keystates, skip_gravity := s'
        autorepeat_timer := t', keypress_rate_now := r'
        keypress_countdown := c' } ha
    exact ⟨_, hg, ⟨ha, hgo, hup, hpend⟩, rfl⟩
  · rw [if_neg hcd]
    dsimp only
    obtain ⟨tg, hg⟩ := updateGravity_no_piece frame_duration
      { w with
        previous_keystates := w.keystates, skip_gravity := sg
        autorepeat_timer := t, keypress_rate_now := r
        keypress_countdown := w.keypress_countdown - frame_duration } ha
    exact ⟨_, hg, ⟨ha, hgo, hup, hpend⟩, rfl⟩

theorem settled_step (frame_duration : Duration) (w : Well) (hS : w.Settled) :
    ∃ w', w.update frame_duration [] = .ok w' ∧ w'.Settled ∧
      w'.active_piece_y = w.active_piece_y := by
  by_cases hc : w.pending_cleared_rows.card = 0
  · exact settled_step_idle frame_duration w hS hc
  · exact settled_step_pending frame_duration w hS hc

theorem settled_frames (frame_duration : Duration) (n : Nat) :
    ∀ w : Well, w.Settled →
      ∃ w', w.updateAll frame_duration (List.replicate n []) = .ok w' ∧
        w'.active_piece_y = w.active_piece_y := by
  induction n with
  | zero => intro w _; exact ⟨w, rfl, rfl⟩
  | succ n ih =>
    intro w hS
    obtain ⟨w1, h1, hS1, hy1⟩ := settled_step frame_duration w hS
    obtain ⟨w', h', hy'⟩ := ih w1 hS1
    refine ⟨w', ?_, by rw [hy', hy1]⟩
    rw [List.replicate_succ]
    unfold Well.updateAll
    rw [h1]
    exact h'

theorem ghostInv_of_ghostValid (w : Well) (p : Piece) (hp : w.active_piece = some p)
    (hr : w.InRange) (hg : w.GhostValid) : w.GhostInv p := by
  have hx : -3 ≤ w.active_piece_x ∧ w.active_piece_x < (columns : Int) := ⟨hr.1, hr.2.1⟩
  have hfree : ∀ y, w.active_piece_y < y → y ≤ w.ghost_piece_y →
      y < rows ∧ collides w.matrix p.currentGrid w.active_piece_x y = false := by
    intro y h1 h2
    obtain ⟨_, hy, q, hq, hb⟩ := hasCollisionAt_inv _ _ _ _ (hg.2.1 y h1 h2)
    rw [hp] at hq
    injection hq with hq
    subst hq
    exact ⟨hy, hb.symm⟩
  have hrows : w.ghost_piece_y < rows := by
    by_cases h : w.active_piece_y < w.ghost_piece_y
    · exact (hfree _ h (le_refl _)).1
    · have := hg.1
      have := hr.2.2
      omega
  exact ⟨hp, hr, hg.1, hrows, fun y h1 h2 => (hfree y h1 h2).2,
    fun h => collides_below_ghost w p hp hr hg h⟩

theorem falling_frames (frame_duration : Duration) (n : Nat) :
    ∀ (w : Well) (p : Piece), w.Falling frame_duration p →
      w.keystates = KeyStates.downOnly →
      ∃ w', w.updateAll frame_duration (List.replicate n []) = .ok w' ∧
        w'.active_piece_y = min (w.active_piece_y + n) w.ghost_piece_y := by
  induction n with
  | zero =>
    intro w p hF _
    refine ⟨w, rfl, ?_⟩
    have := hF.1.2.2.1
    omega
  | succ n ih =>
    intro w p hF hk
    obtain ⟨w1, h1, hg1, hcase⟩ :=
      falling_step frame_duration w p [] KeyStates.downOnly true hF
        (updateKeystate_hold_down w hk)
    have hstep : ∀ w', w1.updateAll frame_duration (List.replicate n []) = .ok w' →
        w.updateAll frame_duration (List.replicate (n + 1) []) = .ok w' := by
      intro w' h'
      rw [List.replicate_succ]
      unfold Well.updateAll
      rw [h1]
      exact h'
    rcases hcase with ⟨hlt, hy1, hF1, hk1⟩ | ⟨heq, hy1, hF1 | hS1⟩
    · obtain ⟨w', h', hy'⟩ := ih w1 p hF1 hk1
      exact ⟨w', hstep w' h', by rw [hy', hy1, hg1]; omega⟩
    · obtain ⟨w', h', hy'⟩ := ih w1 p hF1.1 hF1.2
      exact ⟨w', hstep w' h', by rw [hy', hy1, hg1]; omega⟩
    · obtain ⟨w', h', hy'⟩ := settled_frames frame_duration n w1 hS1
      exact ⟨w', hstep w' h', by rw [hy', hy1]; omega⟩

/-- C10 (counterexample). A freshly spawned T piece, gravity interval and
frame duration both 16 ticks, default repeat rates, DOWN pressed in the first
frame and held: after two `update` calls the piece has descended one row, not
`min 2 20 = 2`. The second frame finds the keypress countdown at 150 - 16 and
handles no key, and the gravity step is skipped because DOWN is held. -/
theorem down_held_counterexample :
    Well.addPiece { Well.init with gravity_update_rate := 16 } tPiece = .ok tWellFast ∧
    tWellFast.gravity_update_rate = 16 ∧
    tWellFast.ghost_piece_y - tWellFast.active_piece_y = 20 ∧
    ∃ w', tWellFast.updateAll 16 (downFrames 2) = .ok w' ∧
      w'.active_piece_y - tWellFast.active_piece_y = 1 ∧
      w'.active_piece_y - tWellFast.active_piece_y ≠
        min 2 (tWellFast.ghost_piece_y - tWellFast.active_piece_y) :=
  ⟨rfl, rfl, rfl, _, rfl, rfl, by decide⟩

/-- C10 (amended). With the gravity interval equal to the frame duration,
the keypress countdown and the normal and turbo repeat rates at most one frame
duration, and only DOWN held from the first frame on, `n` consecutive
`update` calls on a piece in play return and the piece has descended exactly
`min n (ghost_piece_y - active_piece_y)` rows. -/
theorem update_down_held (frame_duration : Duration) (w : Well) (p : Piece) (n : Nat)
    (hp : w.active_piece = some p) (hr : w.InRange) (hg : w.GhostValid)
    (hgo : w.gameover = false) (hpend : w.pending_cleared_rows = ∅)
    (hfull : ∀ i, rowFilled (w.matrix i) = false)
    (hkeys : w.keystates = KeyStates.allReleased)
    (_hgrav : w.gravity_update_rate = frame_duration)
    (hcd : w.keypress_countdown ≤ frame_duration)
    (hrate : w.keypress_rate_now ≤ frame_duration)
    (hnorm : w.keypress_normal_update_rate ≤ frame_duration)
    (hturbo : w.keypress_turbo_update_rate ≤ frame_duration) :
    ∃ w', w.updateAll frame_duration (downFrames n) = .ok w' ∧
      w'.active_piece_y =
        w.active_piece_y + min n (w.ghost_piece_y - w.active_piece_y) := by
  have hF : w.Falling frame_duration p :=
    ⟨ghostInv_of_ghostValid w p hp hr hg, hgo, hpend, hfull, hcd, hrate, hnorm, hturbo⟩
  have hyg := hg.1
  cases n with
  | zero => exact ⟨w, rfl, by omega⟩
  | succ n =>
    obtain ⟨w1, h1, hg1, hcase⟩ :=
      falling_step frame_duration w p [⟨.DOWN, true⟩] KeyStates.allReleased false hF
        (updateKeystate_press_down w hkeys)
    have hstep : ∀ w', w1.updateAll frame_duration (List.replicate n []) = .ok w' →
        w.updateAll frame_duration (downFrames (n + 1)) = .ok w' := by
      intro w' h'
      unfold downFrames Well.updateAll
      rw [h1]
      exact h'
    rcases hcase with ⟨hlt, hy1, hF1, hk1⟩ | ⟨heq, hy1, hF1 | hS1⟩
    · obtain ⟨w', h', hy'⟩ := falling_frames frame_duration n w1 p hF1 hk1
      exact ⟨w', hstep w' h', by rw [hy', hy1, hg1]; omega⟩
    · obtain ⟨w', h', hy'⟩ := falling_frames frame_duration n w1 p hF1.1 hF1.2
      exact ⟨w', hstep w' h', by rw [hy', hy1, hg1]; omega⟩
    · obtain ⟨w', h', hy'⟩ := settled_frames frame_duration n w1 hS1
      exact ⟨w', hstep w' h', by rw [hy', hy1]; omega⟩

/-- Witness for C10 (amended): the freshly spawned T piece, three frames of 150 ticks. -/
theorem update_down_held_witness :
    tWellSlow.active_piece = some tPiece ∧ tWellSlow.InRange ∧ tWellSlow.GhostValid ∧
    tWellSlow.gameover = false ∧ tWellSlow.pending_cleared_rows = ∅ ∧
    (∀ i, rowFilled (tWellSlow.matrix i) = false) ∧
    tWellSlow.keystates = KeyStates.allReleased ∧
    tWellSlow.gravity_update_rate = 150 ∧
    tWellSlow.keypress_countdown ≤ 150 ∧ tWellSlow.keypress_rate_now ≤ 150 ∧
    tWellSlow.keypress_normal_update_rate ≤ 150 ∧
    tWellSlow.keypress_turbo_update_rate ≤ 150 ∧
    ∃ w', tWellSlow.updateAll 150 (downFrames 3) = .ok w' ∧
      w'.active_piece_y =
        tWellSlow.active_piece_y + min 3 (tWellSlow.ghost_piece_y - tWellSlow.active_piece_y) :=
  have hg : tWellSlow.GhostValid :=
    ghostValid_of_ghostInv tWellSlow tPiece
      (addPiece_ghostInv { Well.init with gravity_update_rate := 150 } tWellSlow tPiece rfl rfl)
  ⟨rfl, ⟨by decide, by decide, by decide⟩, hg, rfl, rfl, by decide, rfl, rfl,
    by decide, by decide, by decide, by decide,
    update_down_held 150 tWellSlow tPiece 3 rfl ⟨by decide, by decide, by decide⟩ hg rfl rfl
      (by decide) rfl rfl (by decide) (by decide) (by decide) (by decide)⟩

/-! ## Horizontal moves and rotations -/

theorem moveLeftNow_eq (w : Well) (p : Piece) (hp : w.active_piece = some p) (hr : w.InRange) :
    w.moveLeftNow =
      if w.active_piece_x - 1 ≤ -3 ∨
          collides w.matrix p.currentGrid (w.active_piece_x - 1) w.active_piece_y = true then
        .ok w
      else Well.calculateGhostOffset { w with active_piece_x := w.active_piece_x - 1 } := by
  obtain ⟨hx1, hx2, hy⟩ := hr
  have hcol : (columns : Int) = 10 := rfl
  unfold Well.moveLeftNow
  by_cases hg : w.active_piece_x - 1 ≤ -3
  · rw [if_pos (Or.inr hg), if_pos (Or.inl hg)]
  · have hn : ¬ (w.active_piece.isNone = true ∨ w.active_piece_x - 1 ≤ -3) := by
      rw [hp]
      rintro (h | h)
      · cases h
      · exact hg h
    rw [if_neg hn, hasCollisionAt_ok w p _ _ hp ⟨by omega, by omega⟩ hy]
    cases hc : collides w.matrix p.currentGrid (w.active_piece_x - 1) w.active_piece_y with
    | true =>
      refine Eq.trans ?_ (if_pos (Or.inr rfl)).symm
      rfl
    | false =>
      refine Eq.trans ?_ (if_neg ?_).symm
      · rfl
      · rintro (h | h)
        · exact hg h
        · cases h

theorem moveRightNow_eq (w : Well) (p : Piece) (hp : w.active_piece = some p) (hr : w.InRange) :
    w.moveRightNow =
      if w.active_piece_x + 1 ≥ (columns : Int) ∨
          collides w.matrix p.currentGrid (w.active_piece_x + 1) w.active_piece_y = true then
        .ok w
      else Well.calculateGhostOffset { w with active_piece_x := w.active_piece_x + 1 } := by
  obtain ⟨hx1, hx2, hy⟩ := hr
  have hcol : (columns : Int) = 10 := rfl
  unfold Well.moveRightNow
  by_cases hg : w.active_piece_x + 1 ≥ (columns : Int)
  · rw [if_pos (Or.inr hg), if_pos (Or.inl hg)]
  · have hn : ¬ (w.active_piece.isNone = true ∨ w.active_piece_x + 1 ≥ (columns : Int)) := by
      rw [hp]
      rintro (h | h)
      · cases h
      · exact hg h
    rw [if_neg hn, hasCollisionAt_ok w p _ _ hp ⟨by omega, by omega⟩ hy]
    cases hc : collides w.matrix p.currentGrid (w.active_piece_x + 1) w.active_piece_y with
    | true =>
      refine Eq.trans ?_ (if_pos (Or.inr rfl)).symm
      rfl
    | false =>
      refine Eq.trans ?_ (if_neg ?_).symm
      · rfl
      · rintro (h | h)
        · exact hg h
        · cases h

/-- C12. For every state with an active piece whose anchor is in range:
`moveLeftNow` leaves the whole state unchanged if the piece would collide one
column to the left or if `active_piece_x - 1 <= -3`, `moveRightNow` leaves it
unchanged if the piece would collide one column to the right or if
`active_piece_x + 1 >= columns`, and both calls return: no assertion fails, so
`hasCollisionAt` is never called with an anchor outside its asserted range. -/
theorem move_horizontal_blocked (w : Well) (p : Piece) (hp : w.active_piece = some p)
    (hr : w.InRange) :
    ((collides w.matrix p.currentGrid (w.active_piece_x - 1) w.active_piece_y = true ∨
        w.active_piece_x - 1 ≤ -3) → w.moveLeftNow = .ok w) ∧
    ((collides w.matrix p.currentGrid (w.active_piece_x + 1) w.active_piece_y = true ∨
        w.active_piece_x + 1 ≥ (columns : Int)) → w.moveRightNow = .ok w) ∧
    (∃ w', w.moveLeftNow = .ok w') ∧ (∃ w', w.moveRightNow = .ok w') := by
  have hl := moveLeftNow_eq w p hp hr
  have hrr := moveRightNow_eq w p hp hr
  obtain ⟨hx1, hx2, hy⟩ := hr
  refine ⟨?_, ?_, ?_, ?_⟩
  · intro h
    exact hl.trans (if_pos h.symm)
  · intro h
    exact hrr.trans (if_pos h.symm)
  · rw [hl]
    by_cases hc : w.active_piece_x - 1 ≤ -3 ∨
        collides w.matrix p.currentGrid (w.active_piece_x - 1) w.active_piece_y = true
    · rw [if_pos hc]; exact ⟨w, rfl⟩
    · rw [if_neg hc]
      obtain ⟨g, e, _⟩ := calculateGhostOffset_spec
        { w with active_piece_x := w.active_piece_x - 1 } p hp
        (show (-3 : Int) ≤ w.active_piece_x - 1 ∧ w.active_piece_x - 1 < (columns : Int) ∧
          w.active_piece_y < rows from ⟨by omega, by omega, hy⟩)
      exact ⟨_, e⟩
  · rw [hrr]
    by_cases hc : w.active_piece_x + 1 ≥ (columns : Int) ∨
        collides w.matrix p.currentGrid (w.active_piece_x + 1) w.active_piece_y = true
    · rw [if_pos hc]; exact ⟨w, rfl⟩
    · rw [if_neg hc]
      obtain ⟨g, e, _⟩ := calculateGhostOffset_spec
        { w with active_piece_x := w.active_piece_x + 1 } p hp
        (show (-3 : Int) ≤ w.active_piece_x + 1 ∧ w.active_piece_x + 1 < (columns : Int) ∧
          w.active_piece_y < rows from ⟨by omega, by omega, hy⟩)
      exact ⟨_, e⟩

theorem move_horizontal_blocked_witness :
    Well.moveLeftNow { tWell with active_piece_x := 0 } = .ok { tWell with active_piece_x := 0 } ∧
    Well.moveRightNow { tWell with active_piece_x := 7 } =
      .ok { tWell with active_piece_x := 7 } :=
  ⟨(move_horizontal_blocked { tWell with active_piece_x := 0 } tPiece rfl
      ⟨by decide, by decide, by decide⟩).1 (Or.inl rfl),
   (move_horizontal_blocked { tWell with active_piece_x := 7 } tPiece rfl
      ⟨by decide, by decide, by decide⟩).2.1 (Or.inl rfl)⟩

/-- For an anchor whose two neighbouring columns are in the asserted range,
`rotateCWNow` is a cascade over the three candidate offsets. -/
theorem rotateCWNow_eq (w : Well) (p : Piece) (hp : w.active_piece = some p) (hr : w.InRange)
    (hlo : -3 ≤ w.active_piece_x - 1) (hhi : w.active_piece_x + 1 < (columns : Int)) :
    w.rotateCWNow =
      if collides w.matrix p.rotateCW.currentGrid w.active_piece_x w.active_piece_y = false then
        Well.calculateGhostOffset { w with active_piece := some p.rotateCW }
      else if collides w.matrix p.rotateCW.currentGrid (w.active_piece_x - 1)
          w.active_piece_y = false then
        Well.calculateGhostOffset
          { w with active_piece := some p.rotateCW, active_piece_x := w.active_piece_x - 1 }
      else if collides w.matrix p.rotateCW.currentGrid (w.active_piece_x + 1)
          w.active_piece_y = false then
        Well.calculateGhostOffset
          { w with active_piece := some p.rotateCW, active_piece_x := w.active_piece_x + 1 }
      else .ok w := by
  obtain ⟨hx1, hx2, hy⟩ := hr
  have h0 := hasCollisionAt_ok { w with active_piece := some p.rotateCW } p.rotateCW
    w.active_piece_x w.active_piece_y rfl ⟨hx1, hx2⟩ hy
  have h1 := hasCollisionAt_ok { w with active_piece := some p.rotateCW } p.rotateCW
    (w.active_piece_x - 1) w.active_piece_y rfl ⟨hlo, by omega⟩ hy
  have h2 := hasCollisionAt_ok { w with active_piece := some p.rotateCW } p.rotateCW
    (w.active_piece_x + 1) w.active_piece_y rfl ⟨by omega, hhi⟩ hy
  have e : ({ w with active_piece := some p.rotateCW.rotateCCW } : Well) = w := by
    rw [Piece.rotateCCW_rotateCW]
    exact Well.eta_active_piece w p hp
  unfold Well.rotateCWNow
  rw [hp]
  try simp only []
  rw [h0]
  cases collides w.matrix p.rotateCW.currentGrid w.active_piece_x w.active_piece_y with
  | false => rfl
  | true =>
    try simp only []
    rw [h1]
    cases collides w.matrix p.rotateCW.currentGrid (w.active_piece_x - 1) w.active_piece_y with
    | false => rfl
    | true =>
      try simp only []
      rw [h2]
      cases collides w.matrix p.rotateCW.currentGrid (w.active_piece_x + 1) w.active_piece_y with
      | false => rfl
      | true => exact congrArg Except.ok e


/-- For an anchor whose two neighbouring columns are in the asserted range,
`rotateCCWNow` is a cascade over the three candidate offsets. -/
theorem rotateCCWNow_eq (w : Well) (p : Piece) (hp : w.active_piece = some p) (hr : w.InRange)
    (hlo : -3 ≤ w.active_piece_x - 1) (hhi : w.active_piece_x + 1 < (columns : Int)) :
    w.rotateCCWNow =
      if collides w.matrix p.rotateCCW.currentGrid w.active_piece_x w.active_piece_y = false then
        Well.calculateGhostOffset { w with active_piece := some p.rotateCCW }
      else if collides w.matrix p.rotateCCW.currentGrid (w.active_piece_x + 1)
          w.active_piece_y = false then
        Well.calculateGhostOffset
          { w with active_piece := some p.rotateCCW, active_piece_x := w.active_piece_x + 1 }
      else if collides w.matrix p.rotateCCW.currentGrid (w.active_piece_x - 1)
          w.active_piece_y = false then
        Well.calculateGhostOffset
          { w with active_piece := some p.rotateCCW, active_piece_x := w.active_piece_x - 1 }
      else .ok w := by
  obtain ⟨hx1, hx2, hy⟩ := hr
  have h0 := hasCollisionAt_ok { w with active_piece := some p.rotateCCW } p.rotateCCW
    w.active_piece_x w.active_piece_y rfl ⟨hx1, hx2⟩ hy
  have h1 := hasCollisionAt_ok { w with active_piece := some p.rotateCCW } p.rotateCCW
    (w.active_piece_x + 1) w.active_piece_y rfl ⟨by omega, hhi⟩ hy
  have h2 := hasCollisionAt_ok { w with active_piece := some p.rotateCCW } p.rotateCCW
    (w.active_piece_x - 1) w.active_piece_y rfl ⟨hlo, by omega⟩ hy
  have e : ({ w with active_piece := some p.rotateCCW.rotateCW } : Well) = w := by
    rw [Piece.rotateCW_rotateCCW]
    exact Well.eta_active_piece w p hp
  unfold Well.rotateCCWNow
  rw [hp]
  try simp only []
  rw [h0]
  cases collides w.matrix p.rotateCCW.currentGrid w.active_piece_x w.active_piece_y with
  | false => rfl
  | true =>
    try simp only []
    rw [h1]
    cases collides w.matrix p.rotateCCW.currentGrid (w.active_piece_x + 1) w.active_piece_y with
    | false => rfl
    | true =>
      try simp only []
      rw [h2]
      cases collides w.matrix p.rotateCCW.currentGrid (w.active_piece_x - 1) w.active_piece_y with
      | false => rfl
      | true => exact congrArg Except.ok e


/-- A piece with an occupied grid cell that fits at an anchor has that anchor
in the range `hasCollisionAt` asserts. -/
theorem anchor_of_fits (m : Matrix) (g : PieceGrid) (x : Int) (y : Nat) (r c : Fin 4)
    (hg : (g r c).isSome = true) (hf : collides m g x y = false) :
    -3 ≤ x ∧ x < (columns : Int) ∧ y < rows := by
  have hcol : (columns : Int) = 10 := rfl
  have hb : ¬ boardHasMinoHere m (y + r.val) (x + (c.val : Int)) = true := by
    intro hb
    have := (collides_iff m g x y).mpr ⟨r, c, hg, hb⟩
    rw [hf] at this
    cases this
  rw [boardHasMinoHere_iff] at hb
  have hc := c.isLt
  refine ⟨?_, ?_, ?_⟩
  · by_contra h
    exact hb (Or.inl (by omega))
  · by_contra h
    exact hb (Or.inr (Or.inl (by omega)))
  · by_contra h
    exact hb (Or.inr (Or.inr (Or.inl (by omega))))

/-- The anchor `columns - 1` is reached only by a piece whose minos all lie in
the first column of its grid. Such an I piece is spawned on the empty board
and moved right six times; it then stands in the last board column without
colliding. There both rotations call `hasCollisionAt` with the anchor
`columns`, outside the asserted range, and fail on the assertion
`offset_x < matrix[0].size()`. A piece with a mino right of its first grid
column never stands at this anchor. -/
theorem rotate_at_last_column_fails :
    Well.init.addPiece colPiece = .ok colWell ∧
    colWell.run (List.replicate 6 .right) = .ok edgeWell ∧
    edgeWell.active_piece = some colPiece ∧ edgeWell.InRange ∧
    edgeWell.hasCollisionAt edgeWell.active_piece_x edgeWell.active_piece_y = .ok false ∧
    colPiece.rotateCW.rotateCCW = colPiece ∧ colPiece.rotateCCW.rotateCW = colPiece ∧
    collides edgeWell.matrix colPiece.rotateCW.currentGrid 9 0 = true ∧
    collides edgeWell.matrix colPiece.rotateCW.currentGrid (9 - 1) 0 = true ∧
    collides edgeWell.matrix colPiece.rotateCW.currentGrid (9 + 1) 0 = true ∧
    collides edgeWell.matrix colPiece.rotateCCW.currentGrid 9 0 = true ∧
    collides edgeWell.matrix colPiece.rotateCCW.currentGrid (9 - 1) 0 = true ∧
    collides edgeWell.matrix colPiece.rotateCCW.currentGrid (9 + 1) 0 = true ∧
    edgeWell.rotateCWNow = .error .collisionAnchorX ∧
    edgeWell.rotateCCWNow = .error .collisionAnchorX :=
  ⟨rfl, rfl, rfl, ⟨by decide, by decide, by decide⟩, rfl,
    Piece.rotateCCW_rotateCW colPiece, Piece.rotateCW_rotateCCW colPiece,
    rfl, rfl, rfl, rfl, rfl, rfl, rfl, rfl⟩

/-- C15 (counterexample). The T piece rests on a settled mino at row 7,
column 4, with its anchor at column 3. Rotated counter-clockwise it collides
at column 3 and fits at the columns 2 and 4; `rotateCCWNow` returns with the
piece at column 4, not at column 2: it tries the offset `x + 1` first. -/
theorem rotateCCW_kick_counterexample :
    kickWell.active_piece = some tPiece ∧ kickWell.InRange ∧ kickWell.active_piece_x = 3 ∧
    collides kickWell.matrix tPiece.rotateCCW.currentGrid 3 kickWell.active_piece_y = true ∧
    collides kickWell.matrix tPiece.rotateCCW.currentGrid (3 - 1) kickWell.active_piece_y = false ∧
    collides kickWell.matrix tPiece.rotateCCW.currentGrid (3 + 1) kickWell.active_piece_y = false ∧
    ∃ w', kickWell.rotateCCWNow = .ok w' ∧ w'.active_piece_x = 3 + 1 ∧
      w'.active_piece_x ≠ 3 - 1 :=
  ⟨rfl, ⟨by decide, by decide, by decide⟩, rfl, rfl, rfl, rfl, kickWellCCW, rfl, rfl, by decide⟩

/-- C15 (amended). When the rotated piece collides at the unchanged offset
`x` but fits at both `x - 1` and `x + 1`, `rotateCWNow` returns with the piece
rotated clockwise at column offset `x - 1`, and `rotateCCWNow` returns with
the piece rotated counter-clockwise at column offset `x + 1`: each direction
tries the kick against its turn first. Row and board are unchanged and the
ghost offset is recomputed. -/
theorem rotate_kick_order (w : Well) (p : Piece) (hp : w.active_piece = some p)
    (hr : w.InRange) :
    (collides w.matrix p.rotateCW.currentGrid w.active_piece_x w.active_piece_y = true →
      collides w.matrix p.rotateCW.currentGrid (w.active_piece_x - 1) w.active_piece_y = false →
      collides w.matrix p.rotateCW.currentGrid (w.active_piece_x + 1) w.active_piece_y = false →
      ∃ g, w.rotateCWNow =
          .ok { w with active_piece := some p.rotateCW, active_piece_x := w.active_piece_x - 1,
                       ghost_piece_y := g } ∧
        Well.GhostInv
          { w with active_piece := some p.rotateCW, active_piece_x := w.active_piece_x - 1,
                   ghost_piece_y := g } p.rotateCW) ∧
    (collides w.matrix p.rotateCCW.currentGrid w.active_piece_x w.active_piece_y = true →
      collides w.matrix p.rotateCCW.currentGrid (w.active_piece_x - 1) w.active_piece_y = false →
      collides w.matrix p.rotateCCW.currentGrid (w.active_piece_x + 1) w.active_piece_y = false →
      ∃ g, w.rotateCCWNow =
          .ok { w with active_piece := some p.rotateCCW, active_piece_x := w.active_piece_x + 1,
                       ghost_piece_y := g } ∧
        Well.GhostInv
          { w with active_piece := some p.rotateCCW, active_piece_x := w.active_piece_x + 1,
                   ghost_piece_y := g } p.rotateCCW) := by
  constructor
  · intro h0 h1 h2
    obtain ⟨r, c, hg, _⟩ := (collides_iff _ _ _ _).mp h0
    have hlo := (anchor_of_fits _ _ _ _ r c hg h1).1
    have hhi := (anchor_of_fits _ _ _ _ r c hg h2).2.1
    have he := rotateCWNow_eq w p hp hr hlo hhi
    obtain ⟨g, e, hi⟩ := calculateGhostOffset_spec
      { w with active_piece := some p.rotateCW, active_piece_x := w.active_piece_x - 1 }
      p.rotateCW rfl
      (show (-3 : Int) ≤ w.active_piece_x - 1 ∧ w.active_piece_x - 1 < (columns : Int) ∧
        w.active_piece_y < rows from ⟨hlo, by omega, hr.2.2⟩)
    refine ⟨g, ?_, hi⟩
    rw [he, h0, h1]
    exact e
  · intro h0 h1 h2
    obtain ⟨r, c, hg, _⟩ := (collides_iff _ _ _ _).mp h0
    have hlo := (anchor_of_fits _ _ _ _ r c hg h1).1
    have hhi := (anchor_of_fits _ _ _ _ r c hg h2).2.1
    have he := rotateCCWNow_eq w p hp hr hlo hhi
    obtain ⟨g, e, hi⟩ := calculateGhostOffset_spec
      { w with active_piece := some p.rotateCCW, active_piece_x := w.active_piece_x + 1 }
      p.rotateCCW rfl
      (show (-3 : Int) ≤ w.active_piece_x + 1 ∧ w.active_piece_x + 1 < (columns : Int) ∧
        w.active_piece_y < rows from ⟨by omega, hhi, hr.2.2⟩)
    refine ⟨g, ?_, hi⟩
    rw [he, h0, h2]
    exact e

theorem rotate_kick_order_witness :
    (∃ g, kickWell.rotateCWNow = .ok { kickWellCW with ghost_piece_y := g }) ∧
    (∃ g, kickWell.rotateCCWNow = .ok { kickWellCCW with ghost_piece_y := g }) :=
  have h := rotate_kick_order kickWell tPiece rfl ⟨by decide, by decide, by decide⟩
  ⟨(h.1 rfl rfl rfl).imp fun _ hg => hg.1, (h.2 rfl rfl rfl).imp fun _ hg => hg.1⟩

/-! ## The merge and the line-clear check -/

theorem collectFilledRows_empty_lt (m : Matrix) :
    ∀ r ∈ collectFilledRows m ∅, r < rows := by
  intro r hr
  rw [mem_collectFilledRows] at hr
  rcases hr with hr | ⟨i, hi, _⟩
  · simp at hr
  · rw [← hi]; exact i.isLt

theorem mem_collectFilledRows_empty (m : Matrix) (r : Nat) :
    r ∈ collectFilledRows m ∅ ↔
      ∃ i : Fin rows, i.val = r ∧ ∀ j, (m i j).isSome = true := by
  rw [mem_collectFilledRows]
  constructor
  · rintro (h | ⟨i, hi, hf⟩)
    · simp at h
    · exact ⟨i, hi, (rowFilled_iff _).mp hf⟩
  · rintro ⟨i, hi, hf⟩
    exact Or.inr ⟨i, hi, (rowFilled_iff _).mpr hf⟩

/-- With no active piece and nothing pending, `checkLineclear` returns exactly
when at most four rows are filled. -/
theorem checkLineclear_returns_iff (w : Well) (hn : w.active_piece = none)
    (hpend : w.pending_cleared_rows = ∅) :
    (∃ w', w.checkLineclear = .ok w') ↔ (collectFilledRows w.matrix ∅).card ≤ 4 := by
  constructor
  · rintro ⟨w', h⟩
    unfold Well.checkLineclear at h
    split at h
    · cases h
    · dsimp only at h
      split at h
      · cases h
      · rename_i hc
        rw [← hpend]
        exact not_not.mp hc
  · intro hc
    have hc' : (collectFilledRows w.matrix w.pending_cleared_rows).card ≤ 4 := by
      rw [hpend]; exact hc
    have hrows : ∀ r ∈ collectFilledRows w.matrix w.pending_cleared_rows, r < rows := by
      rw [hpend]; exact collectFilledRows_empty_lt w.matrix
    exact ⟨_, checkLineclear_spec w hn hc' hrows⟩

theorem Well.eta_pending (w : Well) (s : Finset Nat) (h : s = w.pending_cleared_rows) :
    { w with pending_cleared_rows := s } = w := by
  subst h
  rfl

/-- C17. For every state with no active piece and an empty pending set, after
every `checkLineclear` that returns the pending set is exactly the set of rows
whose cells were all occupied, every cell of those rows is empty and every
other row is unchanged; if the set is non-empty, all keys are released, the
autorepeat timer is zero and the repeat rate and the keypress countdown equal
the normal rate; if it is empty the whole state, input state and timers
included, is unchanged. The call returns exactly when at most four rows are
filled. -/
theorem checkLineclear_pending (w : Well) (hn : w.active_piece = none)
    (hpend : w.pending_cleared_rows = ∅) :
    (∀ w', w.checkLineclear = .ok w' →
      (∀ r : Nat, r ∈ w'.pending_cleared_rows ↔
        ∃ i : Fin rows, i.val = r ∧ ∀ j : Fin columns, (w.matrix i j).isSome = true) ∧
      (∀ i : Fin rows, i.val ∈ w'.pending_cleared_rows → ∀ j, w'.matrix i j = none) ∧
      (∀ i : Fin rows, i.val ∉ w'.pending_cleared_rows → w'.matrix i = w.matrix i) ∧
      (w'.pending_cleared_rows ≠ ∅ →
        w'.keystates = KeyStates.allReleased ∧ w'.autorepeat_timer = 0 ∧
        w'.keypress_rate_now = w.keypress_normal_update_rate ∧
        w'.keypress_countdown = w.keypress_normal_update_rate) ∧
      (w'.pending_cleared_rows = ∅ → w' = w)) ∧
    ((∃ w', w.checkLineclear = .ok w') ↔ (collectFilledRows w.matrix ∅).card ≤ 4) := by
  refine ⟨?_, checkLineclear_returns_iff w hn hpend⟩
  intro w' h
  obtain ⟨hp', hm'⟩ := checkLineclear_matrix w w' h
  have hp2 : w'.pending_cleared_rows = collectFilledRows w.matrix ∅ := by
    rw [hp', hpend]
  have hc' : (collectFilledRows w.matrix w.pending_cleared_rows).card ≤ 4 := by
    rw [hpend]; exact (checkLineclear_returns_iff w hn hpend).mp ⟨w', h⟩
  have hrows : ∀ r ∈ collectFilledRows w.matrix w.pending_cleared_rows, r < rows := by
    rw [hpend]; exact collectFilledRows_empty_lt w.matrix
  have hspec := checkLineclear_spec w hn hc' hrows
  refine ⟨?_, ?_, ?_, ?_, ?_⟩
  · intro r
    rw [hp2]
    exact mem_collectFilledRows_empty w.matrix r
  · intro i hi j
    rw [hm' i, if_pos hi]
    rfl
  · intro i hi
    rw [hm' i, if_neg hi]
  · intro hne
    rw [hspec] at h
    injection h with h
    have hc0 : (collectFilledRows w.matrix w.pending_cleared_rows).card ≠ 0 := by
      rw [← hp', Finset.card_ne_zero, Finset.nonempty_iff_ne_empty]
      exact hne
    rw [if_pos hc0] at h
    rw [← h]
    exact ⟨rfl, rfl, rfl, rfl⟩
  · intro he
    rw [hspec] at h
    injection h with h
    have hc0 : ¬ (collectFilledRows w.matrix w.pending_cleared_rows).card ≠ 0 := by
      rw [← hp', he]
      simp
    rw [if_neg hc0] at h
    rw [← h]
    exact Well.eta_pending w _ (by rw [← hp', he, hpend])

theorem checkLineclear_pending_witness :
    ∃ w', fullRowWell.checkLineclear = .ok w' ∧ w'.pending_cleared_rows = {21} ∧
      w'.keystates = KeyStates.allReleased ∧ w'.autorepeat_timer = 0 ∧
      w'.keypress_rate_now = 150 ∧ w'.keypress_countdown = 150 :=
  ⟨_, rfl, rfl, ((checkLineclear_pending fullRowWell rfl rfl).1 _ rfl).2.2.2.1 (by decide)⟩

/-- C16. For every state with an active piece (anchor in the asserted column
range, nothing pending), after every `lockAndReleasePiece` that returns no
piece is active, and in every row that is not completely filled after the
merge each board cell holds the mino of the occupied piece cell that maps onto
it (row `active_piece_y + r`, column `active_piece_x + c`) and keeps its
previous content when none does, so piece cells that map outside the board
touch no board cell. The call returns exactly when the merge leaves at most
four filled rows, in particular whenever no row was filled before. -/
theorem lockAndReleasePiece_merge (w : Well) (p : Piece) (hp : w.active_piece = some p)
    (hx : -3 ≤ w.active_piece_x ∧ w.active_piece_x < (columns : Int))
    (hpend : w.pending_cleared_rows = ∅) :
    (∀ w', w.lockAndReleasePiece = .ok w' →
      w'.active_piece = none ∧
      ∀ i : Fin rows,
        ¬ (∀ j : Fin columns, (w.matrix i j).isSome = true ∨
            ∃ r c : Fin 4, (p.currentGrid r c).isSome = true ∧
              w.active_piece_y + r.val = i.val ∧
              w.active_piece_x + (c.val : Int) = (j.val : Int)) →
        ∀ j : Fin columns,
          (∀ r c : Fin 4, (p.currentGrid r c).isSome = true →
            w.active_piece_y + r.val = i.val → w.active_piece_x + (c.val : Int) = (j.val : Int) →
            w'.matrix i j = p.currentGrid r c) ∧
          ((∀ r c : Fin 4, (p.currentGrid r c).isSome = true →
              ¬ (w.active_piece_y + r.val = i.val ∧
                w.active_piece_x + (c.val : Int) = (j.val : Int))) →
            w'.matrix i j = w.matrix i j)) ∧
    ((∃ w', w.lockAndReleasePiece = .ok w') ↔
      (collectFilledRows
        (lockCells w.matrix p.currentGrid w.active_piece_x w.active_piece_y) ∅).card ≤ 4) ∧
    ((∀ i, rowFilled (w.matrix i) = false) → ∃ w', w.lockAndReleasePiece = .ok w') := by
  have hspec := lockAndReleasePiece_spec w p hp
  have hret := checkLineclear_returns_iff
    { w with
      matrix := lockCells w.matrix p.currentGrid w.active_piece_x w.active_piece_y
      active_piece := none } rfl hpend
  rw [← hspec] at hret
  refine ⟨?_, hret, ?_⟩
  · intro w' h
    rw [hspec] at h
    obtain ⟨hp', hm'⟩ := checkLineclear_matrix _ w' h
    refine ⟨(checkLineclear_active _ w' h).1, ?_⟩
    intro i hrow j
    have hi : i.val ∉ w'.pending_cleared_rows := by
      intro hi
      rw [hp'] at hi
      have hi2 : i.val ∈ collectFilledRows
          (lockCells w.matrix p.currentGrid w.active_piece_x w.active_piece_y) ∅ := by
        rw [← hpend]; exact hi
      obtain ⟨i', hi', hf⟩ := (mem_collectFilledRows_empty _ _).mp hi2
      have hii : i' = i := Fin.ext hi'
      subst hii
      apply hrow
      intro j
      exact (lockCells_isSome_iff w.matrix p.currentGrid w.active_piece_x w.active_piece_y hx
        i' j).mp (hf j)
    have hmi : w'.matrix i =
        lockCells w.matrix p.currentGrid w.active_piece_x w.active_piece_y i := by
      rw [hm' i, if_neg hi]
    constructor
    · intro r c hg hr hc
      rw [hmi]
      exact lockCells_apply_of_mem w.matrix p.currentGrid w.active_piece_x w.active_piece_y hx
        i j r c hg hr hc
    · intro hno
      rw [hmi]
      exact lockCells_apply_of_not_mem w.matrix p.currentGrid w.active_piece_x w.active_piece_y
        hx i j hno
  · intro hfull
    exact hret.mpr (collectFilledRows_lockCells w.matrix p.currentGrid w.active_piece_x
      w.active_piece_y hx hfull).1

theorem lockAndReleasePiece_merge_witness :
    ∃ w', Well.lockAndReleasePiece { tWell with active_piece_y := 20 } = .ok w' ∧
      w'.active_piece = none ∧
      w'.matrix ⟨20, by decide⟩ ⟨4, by decide⟩ = some ⟨.T⟩ ∧
      w'.matrix ⟨20, by decide⟩ ⟨3, by decide⟩ = none :=
  have h := lockAndReleasePiece_merge { tWell with active_piece_y := 20 } tPiece rfl
    ⟨by decide, by decide⟩ rfl
  have h1 := h.1 _ rfl
  have h2 := h1.2 ⟨20, by decide⟩
    (fun hall => by
      have h0 := hall ⟨0, by decide⟩
      revert h0
      decide)
    ⟨4, by decide⟩
  have h3 := h1.2 ⟨20, by decide⟩
    (fun hall => by
      have h0 := hall ⟨0, by decide⟩
      revert h0
      decide)
    ⟨3, by decide⟩
  ⟨_, rfl, h1.1, h2.1 0 1 rfl rfl rfl,
    h3.2 (by decide)⟩

/-! ## A piece in play never collides -/

/-- A piece placed at a position that `hasCollisionAt` found free, followed by
`calculateGhostOffset`, is in play. -/
theorem inPlay_of_placed (w w' : Well)
    (hc : w.hasCollisionAt w.active_piece_x w.active_piece_y = .ok false)
    (h : w.calculateGhostOffset = .ok w') :
    ∃ p, w.active_piece = some p ∧ w'.InPlay p := by
  obtain ⟨hx, hy, p, hp, hcp⟩ := hasCollisionAt_inv _ _ _ _ hc
  refine ⟨p, hp, calculateGhostOffset_ghostInv w w' p hp ⟨hx.1, hx.2, hy⟩ h, ?_⟩
  obtain ⟨g, e⟩ := calculateGhostOffset_frame w w' h
  rw [e]
  exact hcp.symm

theorem moveLeftNow_inPlay (w w' : Well) (p : Piece) (hi : w.InPlay p)
    (h : w.moveLeftNow = .ok w') : w'.InPlay p := by
  unfold Well.moveLeftNow at h
  split at h
  · injection h with h; rw [← h]; exact hi
  · split at h
    · cases h
    · injection h with h; rw [← h]; exact hi
    · rename_i hc
      obtain ⟨q, hq, hi'⟩ :=
        inPlay_of_placed { w with active_piece_x := w.active_piece_x - 1 } w' hc h
      have hqp : q = p := by
        have := hi.1.1
        rw [this] at hq
        injection hq with hq
        exact hq.symm
      rw [← hqp]
      exact hi'

theorem moveRightNow_inPlay (w w' : Well) (p : Piece) (hi : w.InPlay p)
    (h : w.moveRightNow = .ok w') : w'.InPlay p := by
  unfold Well.moveRightNow at h
  split at h
  · injection h with h; rw [← h]; exact hi
  · split at h
    · cases h
    · injection h with h; rw [← h]; exact hi
    · rename_i hc
      obtain ⟨q, hq, hi'⟩ :=
        inPlay_of_placed { w with active_piece_x := w.active_piece_x + 1 } w' hc h
      have hqp : q = p := by
        have := hi.1.1
        rw [this] at hq
        injection hq with hq
        exact hq.symm
      rw [← hqp]
      exact hi'

theorem moveDownNow_inPlay (w w' : Well) (p : Piece) (hi : w.InPlay p)
    (h : w.moveDownNow = .ok w') (ha : w'.active_piece.isSome = true) : w'.InPlay p := by
  refine ⟨moveDownNow_ghostInv w w' p hi.1 h ha, ?_⟩
  unfold Well.moveDownNow at h
  split at h
  · injection h with h; rw [← h]; exact hi.2
  · split at h
    · cases h
    · rename_i c hc
      obtain ⟨hx, hy, q, hq, hcq⟩ := hasCollisionAt_inv _ _ _ _ hc
      have hqp : q = p := by
        have := hi.1.1
        rw [this] at hq
        injection hq with hq
        exact hq.symm
      subst hqp
      cases c with
      | true =>
        simp only [not_true_eq_false, if_false, if_true] at h
        have := lockAndReleasePiece_active w w' h
        rw [this] at ha
        cases ha
      | false =>
        simp only [Bool.false_eq_true, not_false_eq_true, if_true] at h
        rw [if_neg (by simp)] at h
        injection h with h
        rw [← h]
        exact hcq.symm

theorem hardDrop_inPlay (w w' : Well) (p : Piece) (hi : w.InPlay p)
    (h : w.hardDrop = .ok w') (ha : w'.active_piece.isSome = true) : w'.InPlay p := by
  obtain ⟨⟨hp, hr, h1, h2, h3, h4⟩, hf⟩ := hi
  rw [hardDrop_of_piece w p hp] at h
  refine moveDownNow_inPlay { w with active_piece_y := w.ghost_piece_y } w' p ?_ h ha
  refine ⟨⟨hp, ⟨hr.1, hr.2.1, h2⟩, le_refl _, h2, ?_, h4⟩, ?_⟩
  · intro y hy1 hy2
    exact absurd hy2 (not_le.mpr hy1)
  · by_cases hlt : w.active_piece_y < w.ghost_piece_y
    · exact h3 w.ghost_piece_y hlt (le_refl _)
    · have heq : w.ghost_piece_y = w.active_piece_y := by omega
      show collides w.matrix p.currentGrid w.active_piece_x w.ghost_piece_y = false
      rw [heq]
      exact hf

theorem rotateCWNow_inPlay (w w' : Well) (p : Piece) (hi : w.InPlay p)
    (h : w.rotateCWNow = .ok w') : ∃ p', w'.InPlay p' := by
  have hp := hi.1.1
  unfold Well.rotateCWNow at h
  rw [hp] at h
  simp only at h
  split at h
  · cases h
  · rename_i hc
    obtain ⟨q, _, hq⟩ := inPlay_of_placed { w with active_piece := some p.rotateCW } w' hc h
    exact ⟨q, hq⟩
  · split at h
    · cases h
    · rename_i hc
      obtain ⟨q, _, hq⟩ := inPlay_of_placed
        { w with active_piece := some p.rotateCW, active_piece_x := w.active_piece_x - 1 } w'
        hc h
      exact ⟨q, hq⟩
    · split at h
      · cases h
      · rename_i hc
        obtain ⟨q, _, hq⟩ := inPlay_of_placed
          { w with active_piece := some p.rotateCW, active_piece_x := w.active_piece_x + 1 } w'
          hc h
        exact ⟨q, hq⟩
      · injection h with h
        rw [Piece.rotateCCW_rotateCW] at h
        have e : ({ w with active_piece := some p } : Well) = w := Well.eta_active_piece w p hp
        have h' : w = w' := by rw [← h]; exact e.symm
        rw [← h']
        exact ⟨p, hi⟩

theorem rotateCCWNow_inPlay (w w' : Well) (p : Piece) (hi : w.InPlay p)
    (h : w.rotateCCWNow = .ok w') : ∃ p', w'.InPlay p' := by
  have hp := hi.1.1
  unfold Well.rotateCCWNow at h
  rw [hp] at h
  simp only at h
  split at h
  · cases h
  · rename_i hc
    obtain ⟨q, _, hq⟩ := inPlay_of_placed { w with active_piece := some p.rotateCCW } w' hc h
    exact ⟨q, hq⟩
  · split at h
    · cases h
    · rename_i hc
      obtain ⟨q, _, hq⟩ := inPlay_of_placed
        { w with active_piece := some p.rotateCCW, active_piece_x := w.active_piece_x + 1 } w'
        hc h
      exact ⟨q, hq⟩
    · split at h
      · cases h
      · rename_i hc
        obtain ⟨q, _, hq⟩ := inPlay_of_placed
          { w with active_piece := some p.rotateCCW, active_piece_x := w.active_piece_x - 1 } w'
          hc h
        exact ⟨q, hq⟩
      · injection h with h
        rw [Piece.rotateCW_rotateCCW] at h
        have e : ({ w with active_piece := some p } : Well) = w := Well.eta_active_piece w p hp
        have h' : w = w' := by rw [← h]; exact e.symm
        rw [← h']
        exact ⟨p, hi⟩

theorem applyMove_inPlay (w w' : Well) (p : Piece) (m : Move) (hi : w.InPlay p)
    (h : w.applyMove m = .ok w') (ha : w'.active_piece.isSome = true) :
    ∃ p', w'.InPlay p' := by
  cases m with
  | left => exact ⟨p, moveLeftNow_inPlay w w' p hi h⟩
  | right => exact ⟨p, moveRightNow_inPlay w w' p hi h⟩
  | down => exact ⟨p, moveDownNow_inPlay w w' p hi h ha⟩
  | rotateCW => exact rotateCWNow_inPlay w w' p hi h
  | rotateCCW => exact rotateCCWNow_inPlay w w' p hi h
  | hardDrop => exact ⟨p, hardDrop_inPlay w w' p hi h ha⟩

/-- Without an active piece no movement command brings one back. -/
theorem applyMove_no_piece (w w' : Well) (m : Move) (hn : w.active_piece = none)
    (h : w.applyMove m = .ok w') : w'.active_piece = none := by
  cases m with
  | hardDrop =>
    simp only [Well.applyMove, Well.hardDrop, hn] at h
    cases h
  | left =>
    rw [applyMove_of_no_piece w _ hn (by decide)] at h
    injection h with h; rw [← h]; exact hn
  | right =>
    rw [applyMove_of_no_piece w _ hn (by decide)] at h
    injection h with h; rw [← h]; exact hn
  | down =>
    rw [applyMove_of_no_piece w _ hn (by decide)] at h
    injection h with h; rw [← h]; exact hn
  | rotateCW =>
    rw [applyMove_of_no_piece w _ hn (by decide)] at h
    injection h with h; rw [← h]; exact hn
  | rotateCCW =>
    rw [applyMove_of_no_piece w _ hn (by decide)] at h
    injection h with h; rw [← h]; exact hn

theorem run_no_piece (moves : List Move) :
    ∀ (w w' : Well), w.active_piece = none → w.run moves = .ok w' →
      w'.active_piece = none := by
  induction moves with
  | nil =>
    intro w w' hn h
    injection h with h
    rw [← h]; exact hn
  | cons m rest ih =>
    intro w w' hn h
    unfold Well.run at h
    split at h
    · cases h
    · rename_i w1 h1
      exact ih w1 w' (applyMove_no_piece w w1 m hn h1) h

theorem run_inPlay (moves : List Move) :
    ∀ (w w' : Well) (p : Piece), w.InPlay p → w.run moves = .ok w' →
      w'.active_piece.isSome = true → ∃ p', w'.InPlay p' := by
  induction moves with
  | nil =>
    intro w w' p hi h _
    injection h with h
    exact ⟨p, h ▸ hi⟩
  | cons m rest ih =>
    intro w w' p hi h ha
    unfold Well.run at h
    split at h
    · cases h
    · rename_i w1 h1
      cases h1a : w1.active_piece with
      | none =>
        rw [run_no_piece rest w1 w' h1a h] at ha
        cases ha
      | some q =>
        obtain ⟨p1, hi1⟩ := applyMove_inPlay w w1 p m hi h1 (by rw [h1a]; rfl)
        exact ih w1 w' p1 hi1 h ha

/-- An occupied piece cell of a piece that does not collide lies inside the
column range, above the floor and on an empty board cell. -/
theorem cell_free_of_not_collides (m : Matrix) (g : PieceGrid) (x : Int) (y : Nat)
    (hf : collides m g x y = false) (r c : Fin 4) (hg : (g r c).isSome = true) :
    0 ≤ x + (c.val : Int) ∧ x + (c.val : Int) < (columns : Int) ∧ y + r.val < rows ∧
      ∀ (i : Fin rows) (j : Fin columns), i.val = y + r.val → (j.val : Int) = x + (c.val : Int) →
        m i j = none := by
  have hb : ¬ boardHasMinoHere m (y + r.val) (x + (c.val : Int)) = true := by
    intro hb
    have := (collides_iff m g x y).mpr ⟨r, c, hg, hb⟩
    rw [hf] at this
    cases this
  rw [boardHasMinoHere_iff] at hb
  refine ⟨?_, ?_, ?_, ?_⟩
  · by_contra h
    exact hb (Or.inl (by omega))
  · by_contra h
    exact hb (Or.inr (Or.inl (by omega)))
  · by_contra h
    exact hb (Or.inr (Or.inr (Or.inl (by omega))))
  · intro i j hi hj
    cases hm : m i j with
    | none => rfl
    | some v =>
      exact absurd (Or.inr (Or.inr (Or.inr ⟨i, j, hi, hj, by rw [hm]; rfl⟩))) hb

/-- C19. In every state reached from a non-colliding spawn by any sequence of
`moveLeftNow`, `moveRightNow`, `moveDownNow`, `hardDrop`, `rotateCWNow` and
`rotateCCWNow`, an active piece does not collide at
`(active_piece_x, active_piece_y)`: the anchor is in range, `hasCollisionAt`
returns false there, and every occupied cell of the piece grid lies inside the
column range, above the floor and on an empty board cell. -/
theorem active_piece_never_collides (w0 s0 s : Well) (piece p : Piece) (moves : List Move)
    (hspawn : w0.addPiece piece = .ok s0)
    (hfree : s0.hasCollisionAt s0.active_piece_x s0.active_piece_y = .ok false)
    (hrun : s0.run moves = .ok s)
    (hactive : s.active_piece = some p) :
    s.InRange ∧ s.hasCollisionAt s.active_piece_x s.active_piece_y = .ok false ∧
    ∀ r c : Fin 4, (p.currentGrid r c).isSome = true →
      0 ≤ s.active_piece_x + (c.val : Int) ∧
      s.active_piece_x + (c.val : Int) < (columns : Int) ∧
      s.active_piece_y + r.val < rows ∧
      ∀ (i : Fin rows) (j : Fin columns), i.val = s.active_piece_y + r.val →
        (j.val : Int) = s.active_piece_x + (c.val : Int) → s.matrix i j = none := by
  have hi0 : s0.InPlay piece := by
    refine ⟨addPiece_ghostInv w0 s0 piece hspawn hfree, ?_⟩
    obtain ⟨_, _, q, hq, hcq⟩ := hasCollisionAt_inv _ _ _ _ hfree
    have hp0 := (addPiece_ghostInv w0 s0 piece hspawn hfree).1
    rw [hp0] at hq
    injection hq with hq
    rw [hq]
    exact hcq.symm
  obtain ⟨p', hi⟩ := run_inPlay moves s0 s piece hi0 hrun (by rw [hactive]; rfl)
  have hpp : p' = p := by
    have := hi.1.1
    rw [hactive] at this
    injection this with this
    exact this.symm
  subst hpp
  obtain ⟨⟨hp, hr, _⟩, hf⟩ := hi
  refine ⟨hr, ?_, ?_⟩
  · rw [hasCollisionAt_ok s p' _ _ hp ⟨hr.1, hr.2.1⟩ hr.2.2, hf]
  · intro r c hg
    exact cell_free_of_not_collides s.matrix p'.currentGrid s.active_piece_x s.active_piece_y
      hf r c hg

/-- Witness for C19: the T piece is spawned on the empty board, moved left,
rotated, moved right twice and stepped down. -/
theorem active_piece_never_collides_witness :
    ∃ s p, tWell.run [.left, .rotateCCW, .right, .right, .down] = .ok s ∧
      s.active_piece = some p ∧ s.InRange ∧
      s.hasCollisionAt s.active_piece_x s.active_piece_y = .ok false :=
  ⟨_, _, rfl, rfl,
    (active_piece_never_collides Well.init tWell _ tPiece _
      [.left, .rotateCCW, .right, .right, .down] rfl rfl rfl rfl).1,
    (active_piece_never_collides Well.init tWell _ tPiece _
      [.left, .rotateCCW, .right, .right, .down] rfl rfl rfl rfl).2.1⟩

/-! ## DOWN and UP in one frame -/

/-- C20 (the code at the failing input). The T piece is spawned on the empty
board and stepped down twenty times, so it rests on the floor; it is active,
the game is not over and no row is pending. In the next frame DOWN and UP are
both pressed. The DOWN step of `handleKeys` cannot move the piece and locks
it; no row is filled, so the key states stay as they are, UP is still held,
and `handleKeys` calls `hardDrop` without an active piece: `update` fails on
`assert(active_piece)`. -/
theorem update_down_up_hardDrop_fails :
    Well.init.addPiece tPiece = .ok tWell ∧
    tWell.run (List.replicate 20 .down) = .ok tWellRest ∧
    tWellRest.active_piece = some tPiece ∧ tWellRest.gameover = false ∧
    tWellRest.pending_cleared_rows = ∅ ∧
    (∃ w2,
      Well.handleDown
        { tWellRest.updateKeystate [⟨.DOWN, true⟩, ⟨.UP, true⟩] with
          keypress_countdown :=
            (tWellRest.updateKeystate [⟨.DOWN, true⟩, ⟨.UP, true⟩]).keypress_countdown - 16 }
        = .ok w2 ∧
      w2.active_piece = none ∧ w2.keystates.at .UP = true ∧
      w2.handleUp = .error .hardDropNoPiece) ∧
    tWellRest.update 16 [⟨.DOWN, true⟩, ⟨.UP, true⟩] = .error .hardDropNoPiece :=
  ⟨rfl, rfl, rfl, rfl, rfl, ⟨_, rfl, rfl, rfl, rfl⟩, rfl⟩

/-! ## Autorepeat with LEFT held -/

theorem sameInput_of_sameButPiece (w w' : Well) (h : w.SameButPiece w') : w.SameInput w' := by
  obtain ⟨q, x, g, e⟩ := h
  subst e
  exact ⟨rfl, rfl, rfl, rfl, rfl, rfl, rfl⟩

theorem moveDownNow_input (w w' : Well) (h : w.moveDownNow = .ok w') :
    w.SameInput w' ∨ w'.keystates = KeyStates.allReleased := by
  rcases moveDownNow_cases w w' h with h1 | h1 | ⟨m, P, h1⟩ | ⟨m, P, h1⟩
  · subst h1; exact Or.inl ⟨rfl, rfl, rfl, rfl, rfl, rfl, rfl⟩
  · subst h1; exact Or.inl ⟨rfl, rfl, rfl, rfl, rfl, rfl, rfl⟩
  · subst h1; exact Or.inl ⟨rfl, rfl, rfl, rfl, rfl, rfl, rfl⟩
  · subst h1; exact Or.inr rfl

theorem updateGravity_input (frame_duration : Duration) (w w' : Well)
    (h : w.updateGravity frame_duration = .ok w') :
    w.SameInput w' ∨ w'.keystates = KeyStates.allReleased := by
  rcases updateGravity_cases frame_duration w w' h with h1 | ⟨_, h1⟩ | ⟨_, h1⟩
  · subst h1; exact Or.inl ⟨rfl, rfl, rfl, rfl, rfl, rfl, rfl⟩
  · subst h1; exact Or.inl ⟨rfl, rfl, rfl, rfl, rfl, rfl, rfl⟩
  · exact moveDownNow_input
      { w with gravity_timer := w.gravity_timer + frame_duration - w.gravity_update_rate } w' h1

/-- The events leave LEFT alone held and no key is released: `updateKeystate`
changes the key states only. -/
theorem updateKeystate_left_only (w : Well) (events : List InputEvent)
    (hprev : w.keystates = KeyStates.allReleased ∨ w.keystates = KeyStates.leftOnly)
    (hks : (w.updateKeystate events).keystates = KeyStates.leftOnly) :
    w.updateKeystate events =
      { w with
        previous_keystates := w.keystates, keystates := KeyStates.leftOnly
        skip_gravity := false } := by
  unfold Well.updateKeystate at hks ⊢
  have hfold : events.foldl
      (fun ks event => if ks.count event.type then ks.set event.type event.down else ks)
      w.keystates = KeyStates.leftOnly := by
    dsimp only at hks
    split at hks <;> exact hks
  rw [hfold]
  rcases hprev with h | h <;> rw [h] <;> rfl

/-- Key handling when LEFT alone is held: one step to the left, then the
countdown restarts and the autorepeat timer advances. -/
theorem handleKeys_left_only (frame_duration : Duration) (w w' : Well)
    (hk : w.keystates = KeyStates.leftOnly) (h : w.handleKeys frame_duration = .ok w') :
    ∃ wm, w.moveLeftNow = .ok wm ∧ w' = wm.finishKeys frame_duration true true := by
  have h1 : w.handleHorizontal = w.moveLeftNow := by
    unfold Well.handleHorizontal
    rw [hk]
    rfl
  cases hm : w.moveLeftNow with
  | error e =>
    unfold Well.handleKeys at h
    rw [h1, hm] at h
    cases h
  | ok wm =>
    have hks : wm.keystates = KeyStates.leftOnly := by
      rw [(sameInput_of_sameButPiece w wm (moveLeftNow_sameButPiece w wm hm)).1, hk]
    have h2 : wm.handleDown = .ok wm := by
      unfold Well.handleDown
      rw [hks]
      rfl
    have h3 : wm.handleUp = .ok wm := by
      unfold Well.handleUp
      rw [hks]
      rfl
    have h4 : wm.handleRotate = .ok wm := by
      unfold Well.handleRotate
      rw [hks]
      rfl
    unfold Well.handleKeys at h
    rw [h1, hm] at h
    simp only [h2, h3, h4] at h
    rw [hk, hks] at h
    injection h with h
    exact ⟨wm, rfl, h.symm⟩

theorem finishKeys_move (frame_duration : Duration) (w : Well) :
    (w.finishKeys frame_duration true true).keypress_countdown = w.keypress_rate_now ∧
    (w.finishKeys frame_duration true true).autorepeat_timer =
      w.autorepeat_timer + (w.keypress_rate_now + frame_duration) ∧
    (w.finishKeys frame_duration true true).keypress_rate_now =
      (if w.autorepeat_timer + (w.keypress_rate_now + frame_duration) > w.autorepeat_delay then
        w.keypress_turbo_update_rate
      else w.keypress_rate_now) ∧
    (w.finishKeys frame_duration true true).keystates = w.keystates ∧
    (w.finishKeys frame_duration true true).autorepeat_delay = w.autorepeat_delay ∧
    (w.finishKeys frame_duration true true).keypress_normal_update_rate =
      w.keypress_normal_update_rate ∧
    (w.finishKeys frame_duration true true).keypress_turbo_update_rate =
      w.keypress_turbo_update_rate := by
  unfold Well.finishKeys
  dsimp only
  simp only [if_true]
  by_cases h : w.autorepeat_timer + (w.keypress_rate_now + frame_duration) > w.autorepeat_delay
  · rw [if_pos h]
    exact ⟨rfl, rfl, (if_pos h).symm, rfl, rfl, rfl, rfl⟩
  · rw [if_neg h]
    exact ⟨rfl, rfl, (if_neg h).symm, rfl, rfl, rfl, rfl⟩

theorem leftOnly_ne_allReleased : KeyStates.allReleased ≠ KeyStates.leftOnly := by
  intro h
  have := congrArg KeyStates.left h
  cases this

/-- What one frame with LEFT alone held does to the autorepeat state: when
the key handling runs (game not over, nothing pending, countdown expired) the
countdown restarts at the repeat rate, the autorepeat timer gains the repeat
rate and the frame duration, and the rate becomes turbo if the timer now
exceeds the delay; otherwise timer and rate are unchanged. -/
theorem leftHeldFrame_step (frame_duration : Duration) (w w' : Well)
    (events : List InputEvent) (hf : w.LeftHeldFrame frame_duration events w') :
    w'.autorepeat_delay = w.autorepeat_delay ∧
    w'.keypress_normal_update_rate = w.keypress_normal_update_rate ∧
    w'.keypress_turbo_update_rate = w.keypress_turbo_update_rate ∧
    ((w.gameover = false ∧ w.pending_cleared_rows = ∅ ∧
        w.keypress_countdown - frame_duration ≤ 0) →
      w'.keypress_countdown = w.keypress_rate_now ∧
      w'.autorepeat_timer = w.autorepeat_timer + (w.keypress_rate_now + frame_duration) ∧
      w'.keypress_rate_now =
        (if w.autorepeat_timer + (w.keypress_rate_now + frame_duration) > w.autorepeat_delay
          then w.keypress_turbo_update_rate else w.keypress_rate_now)) ∧
    (¬ (w.gameover = false ∧ w.pending_cleared_rows = ∅ ∧
        w.keypress_countdown - frame_duration ≤ 0) →
      w'.autorepeat_timer = w.autorepeat_timer ∧ w'.keypress_rate_now = w.keypress_rate_now) := by
  obtain ⟨hprev, hks, h, hk'⟩ := hf
  by_cases hgo : w.gameover = true
  · rw [update_of_gameover frame_duration w events hgo] at h
    injection h with h
    subst h
    refine ⟨rfl, rfl, rfl, ?_, fun _ => ⟨rfl, rfl⟩⟩
    rintro ⟨h1, _⟩
    rw [hgo] at h1
    cases h1
  have hgo' : w.gameover = false := by
    cases hg : w.gameover with
    | true => exact absurd hg hgo
    | false => rfl
  by_cases hpend : w.pending_cleared_rows = ∅
  · have hupd := updateKeystate_left_only w events hprev hks
    unfold Well.update at h
    rw [if_neg (by rw [hgo']; simp), if_neg (by rw [hpend]; simp), hupd] at h
    dsimp only at h
    by_cases hcd : w.keypress_countdown - frame_duration ≤ 0
    · rw [if_pos hcd] at h
      cases hkeys : Well.handleKeys frame_duration
          { w with
            previous_keystates := w.keystates, keystates := KeyStates.leftOnly
            skip_gravity := false
            keypress_countdown := w.keypress_countdown - frame_duration } with
      | error e =>
        rw [hkeys] at h
        cases h
      | ok w3 =>
        rw [hkeys] at h
        dsimp only at h
        obtain ⟨wm, hm, e3⟩ := handleKeys_left_only frame_duration
          { w with
            previous_keystates := w.keystates, keystates := KeyStates.leftOnly
            skip_gravity := false
            keypress_countdown := w.keypress_countdown - frame_duration } w3 rfl hkeys
        obtain ⟨_, m2, m3, _, m5, m6, m7⟩ := sameInput_of_sameButPiece _ wm
          (moveLeftNow_sameButPiece
            { w with
              previous_keystates := w.keystates, keystates := KeyStates.leftOnly
              skip_gravity := false
              keypress_countdown := w.keypress_countdown - frame_duration } wm hm)
        obtain ⟨f1, f2, f3, _, f5, f6, f7⟩ := finishKeys_move frame_duration wm
        rw [← e3] at f1 f2 f3 f5 f6 f7
        rcases updateGravity_input frame_duration w3 w' h with hs | hs
        · obtain ⟨_, g2, g3, g4, g5, g6, g7⟩ := hs
          try simp only at m2 m3 m5 m6 m7
          refine ⟨by rw [g5, f5, m5], by rw [g6, f6, m6], by rw [g7, f7, m7], ?_, ?_⟩
          · intro _
            refine ⟨by rw [g4, f1, m3], by rw [g2, f2, m2, m3], ?_⟩
            rw [g3, f3, m2, m3, m5, m7]
          · intro hn
            exact absurd ⟨hgo', hpend, hcd⟩ hn
        · rw [hs] at hk'
          exact absurd hk' leftOnly_ne_allReleased
    · rw [if_neg hcd] at h
      dsimp only at h
      rcases updateGravity_input frame_duration _ w' h with hs | hs
      · obtain ⟨_, g2, g3, _, g5, g6, g7⟩ := hs
        refine ⟨g5, g6, g7, ?_, fun _ => ⟨g2, g3⟩⟩
        intro hh
        exact absurd hh.2.2 hcd
      · rw [hs] at hk'
        exact absurd hk' leftOnly_ne_allReleased
  · unfold Well.update at h
    rw [if_neg (by rw [hgo']; simp), if_pos (by rwa [ne_eq, Finset.card_eq_zero])] at h
    split at h
    · cases h
    · split at h
      · cases h
      · rename_i w1 h1
        split at h
        · cases h
        · injection h with h
          subst h
          obtain ⟨t, m, P, e⟩ := updateLineclearAlpha_frame frame_duration w w1 h1
          subst e
          refine ⟨rfl, rfl, rfl, ?_, fun _ => ⟨rfl, rfl⟩⟩
          intro hh
          exact absurd hh.2.1 hpend

/-! ## The pending rows of reachable states -/

theorem hasCollisionAt_error (w : Well) (x : Int) (y : Nat) (e : Failure)
    (h : w.hasCollisionAt x y = .error e) : e ≠ .lineclearTooManyRows := by
  unfold Well.hasCollisionAt at h
  split at h
  · injection h with h; rw [← h]; decide
  · split at h
    · injection h with h; rw [← h]; decide
    · split at h
      · injection h with h; rw [← h]; decide
      · cases h

theorem ghostLoop_error (w : Well) (e : Failure) :
    ∀ (fuel ghost : Nat), w.ghostLoop fuel ghost = .error e → e ≠ .lineclearTooManyRows := by
  intro fuel
  induction fuel with
  | zero =>
    intro ghost h
    unfold Well.ghostLoop at h
    cases h
  | succ n ih =>
    intro ghost h
    unfold Well.ghostLoop at h
    split at h
    · split at h
      · rename_i e' hc
        injection h with h
        rw [← h]
        exact hasCollisionAt_error w _ _ e' hc
      · cases h
      · exact ih _ h
    · cases h

theorem calculateGhostOffset_error (w : Well) (e : Failure)
    (h : w.calculateGhostOffset = .error e) : e ≠ .lineclearTooManyRows := by
  unfold Well.calculateGhostOffset at h
  split at h
  · injection h with h; rw [← h]; decide
  · split at h
    · rename_i e' hc
      injection h with h
      rw [← h]
      exact ghostLoop_error w e' _ _ hc
    · cases h

theorem moveLeftNow_error (w : Well) (e : Failure) (h : w.moveLeftNow = .error e) :
    e ≠ .lineclearTooManyRows := by
  unfold Well.moveLeftNow at h
  split at h
  · cases h
  · split at h
    · rename_i e' hc
      injection h with h
      rw [← h]
      exact hasCollisionAt_error w _ _ e' hc
    · cases h
    · exact calculateGhostOffset_error _ e h

theorem moveRightNow_error (w : Well) (e : Failure) (h : w.moveRightNow = .error e) :
    e ≠ .lineclearTooManyRows := by
  unfold Well.moveRightNow at h
  split at h
  · cases h
  · split at h
    · rename_i e' hc
      injection h with h
      rw [← h]
      exact hasCollisionAt_error w _ _ e' hc
    · cases h
    · exact calculateGhostOffset_error _ e h

theorem rotateCWNow_error (w : Well) (e : Failure) (h : w.rotateCWNow = .error e) :
    e ≠ .lineclearTooManyRows := by
  unfold Well.rotateCWNow at h
  split at h
  · cases h
  · dsimp only at h
    split at h
    · rename_i e' hc
      injection h with h
      rw [← h]
      exact hasCollisionAt_error _ _ _ e' hc
    · exact calculateGhostOffset_error _ e h
    · split at h
      · rename_i e' hc
        injection h with h
        rw [← h]
        exact hasCollisionAt_error _ _ _ e' hc
      · exact calculateGhostOffset_error _ e h
      · split at h
        · rename_i e' hc
          injection h with h
          rw [← h]
          exact hasCollisionAt_error _ _ _ e' hc
        · exact calculateGhostOffset_error _ e h
        · cases h

theorem rotateCCWNow_error (w : Well) (e : Failure) (h : w.rotateCCWNow = .error e) :
    e ≠ .lineclearTooManyRows := by
  unfold Well.rotateCCWNow at h
  split at h
  · cases h
  · dsimp only at h
    split at h
    · rename_i e' hc
      injection h with h
      rw [← h]
      exact hasCollisionAt_error _ _ _ e' hc
    · exact calculateGhostOffset_error _ e h
    · split at h
      · rename_i e' hc
        injection h with h
        rw [← h]
        exact hasCollisionAt_error _ _ _ e' hc
      · exact calculateGhostOffset_error _ e h
      · split at h
        · rename_i e' hc
          injection h with h
          rw [← h]
          exact hasCollisionAt_error _ _ _ e' hc
        · exact calculateGhostOffset_error _ e h
        · cases h

theorem swapRows_row (m : Matrix) (a b k : Fin rows) : ∃ k', swapRows m a b k = m k' := by
  unfold swapRows
  by_cases h1 : k = a
  · exact ⟨b, by rw [if_pos h1]⟩
  · by_cases h2 : k = b
    · exact ⟨a, by rw [if_neg h1, if_pos h2]⟩
    · exact ⟨k, by rw [if_neg h1, if_neg h2]⟩

/-- The loop of `removeEmptyRows` only exchanges rows: every row of the result
is a row of the board it started from, and it fails on a row index only. -/
theorem removeEmptyRowsLoop_rows :
    ∀ (r : Nat) (m : Matrix) (pending : Finset Nat),
      (∀ m', removeEmptyRowsLoop r m pending = .ok m' → ∀ k, ∃ k', m' k = m k') ∧
      (∀ e, removeEmptyRowsLoop r m pending = .error e → e ≠ .lineclearTooManyRows) := by
  intro r
  induction r with
  | zero =>
    intro m pending
    rw [removeEmptyRowsLoop_zero]
    constructor
    · intro m' h k
      split at h
      · injection h with h; rw [← h]; exact ⟨k, rfl⟩
      · split at h
        · injection h with h; rw [← h]; exact ⟨k, rfl⟩
        · split at h
          · injection h with h; rw [← h]; exact swapRows_row m _ _ k
          · cases h
    · intro e h
      split at h
      · cases h
      · split at h
        · cases h
        · split at h
          · cases h
          · injection h with h; rw [← h]; decide
  | succ n ih =>
    intro m pending
    rw [removeEmptyRowsLoop_succ]
    constructor
    · intro m' h k
      split at h
      · exact (ih m pending).1 m' h k
      · split at h
        · injection h with h; rw [← h]; exact ⟨k, rfl⟩
        · split at h
          · obtain ⟨k1, h1⟩ := (ih _ _).1 m' h k
            obtain ⟨k2, h2⟩ := swapRows_row m _ _ k1
            exact ⟨k2, by rw [h1, h2]⟩
          · cases h
    · intro e h
      split at h
      · exact (ih m pending).2 e h
      · split at h
        · cases h
        · split at h
          · exact (ih _ _).2 e h
          · injection h with h; rw [← h]; decide

theorem tidy_of_frame (w w' : Well) (ht : w.Tidy) (hm : w'.matrix = w.matrix)
    (hp : w'.pending_cleared_rows = w.pending_cleared_rows)
    (hl : w'.lineclear_alpha = w.lineclear_alpha)
    (ha : w.active_piece = none → w'.active_piece = none) : w'.Tidy := by
  obtain ⟨t1, t2, t3⟩ := ht
  refine ⟨?_, ?_, ?_⟩
  · rw [hm]; exact t1
  · rw [hp]; exact t2
  · rw [hp, hl]
    intro hc
    exact ⟨ha (t3 hc).1, (t3 hc).2⟩

/-- A movement command that changes the piece only, and nothing when there is
no piece, keeps the invariant. -/
theorem tidy_of_move (w w' : Well) (ht : w.Tidy) (hs : w.SameButPiece w')
    (hn : w.active_piece = none → w' = w) : w'.Tidy := by
  obtain ⟨q, x, g, e⟩ := hs
  refine tidy_of_frame w w' ht (by rw [e]) (by rw [e]) (by rw [e]) ?_
  intro ha
  rw [hn ha]
  exact ha

theorem moveLeftNow_tidy (w w' : Well) (ht : w.Tidy) (h : w.moveLeftNow = .ok w') :
    w'.Tidy := by
  refine tidy_of_move w w' ht (moveLeftNow_sameButPiece w w' h) ?_
  intro ha
  have := applyMove_of_no_piece w .left ha (by decide)
  have e : w.moveLeftNow = .ok w := this
  rw [e] at h
  injection h with h
  exact h.symm

theorem moveRightNow_tidy (w w' : Well) (ht : w.Tidy) (h : w.moveRightNow = .ok w') :
    w'.Tidy := by
  refine tidy_of_move w w' ht (moveRightNow_sameButPiece w w' h) ?_
  intro ha
  have := applyMove_of_no_piece w .right ha (by decide)
  have e : w.moveRightNow = .ok w := this
  rw [e] at h
  injection h with h
  exact h.symm

theorem rotateCWNow_tidy (w w' : Well) (ht : w.Tidy) (h : w.rotateCWNow = .ok w') :
    w'.Tidy := by
  refine tidy_of_move w w' ht (rotateCWNow_sameButPiece w w' h) ?_
  intro ha
  have := applyMove_of_no_piece w .rotateCW ha (by decide)
  have e : w.rotateCWNow = .ok w := this
  rw [e] at h
  injection h with h
  exact h.symm

theorem rotateCCWNow_tidy (w w' : Well) (ht : w.Tidy) (h : w.rotateCCWNow = .ok w') :
    w'.Tidy := by
  refine tidy_of_move w w' ht (rotateCCWNow_sameButPiece w w' h) ?_
  intro ha
  have := applyMove_of_no_piece w .rotateCCW ha (by decide)
  have e : w.rotateCCWNow = .ok w := this
  rw [e] at h
  injection h with h
  exact h.symm

theorem rowFilled_emptyRow : rowFilled emptyRow = false := by decide

/-- Every state that `checkLineclear` returns has the invariant: the filled
rows are pending and cleared, they are at most four, and the fade timer has
been started when there are any. -/
theorem checkLineclear_tidy (w w' : Well) (h : w.checkLineclear = .ok w') : w'.Tidy := by
  obtain ⟨hp', hm'⟩ := checkLineclear_matrix w w' h
  have ha := (checkLineclear_active w w' h).1
  refine ⟨?_, ?_, ?_⟩
  · intro i
    rw [hm' i]
    by_cases hi : i.val ∈ w'.pending_cleared_rows
    · rw [if_pos hi]
      exact rowFilled_emptyRow
    · rw [if_neg hi]
      cases hf : rowFilled (w.matrix i) with
      | false => rfl
      | true =>
        exfalso
        apply hi
        rw [hp']
        exact (mem_collectFilledRows _ _ _).mpr (Or.inr ⟨i, rfl, hf⟩)
  · rw [hp']
    unfold Well.checkLineclear at h
    split at h
    · cases h
    · dsimp only at h
      split at h
      · cases h
      · rename_i hc
        exact not_not.mp hc
  · intro hc
    refine ⟨ha, ?_⟩
    unfold Well.checkLineclear at h
    split at h
    · cases h
    · dsimp only at h
      split at h
      · cases h
      · split at h
        · split at h
          · cases h
          · injection h with h
            rw [← h]
            rfl
        · rename_i hc0
          rw [hp'] at hc
          exact absurd hc hc0

/-- Locking a piece on a board with the invariant returns, and the state it
returns has the invariant. -/
theorem lockAndReleasePiece_tidy (w : Well) (p : Piece) (hp : w.active_piece = some p)
    (hx : -3 ≤ w.active_piece_x ∧ w.active_piece_x < (columns : Int)) (ht : w.Tidy) :
    ∃ w', w.lockAndReleasePiece = .ok w' ∧ w'.Tidy := by
  obtain ⟨t1, _, t3⟩ := ht
  have hpend : w.pending_cleared_rows = ∅ := by
    by_contra hne
    have hc : w.pending_cleared_rows.card ≠ 0 := by
      rw [Finset.card_ne_zero, Finset.nonempty_iff_ne_empty]
      exact hne
    rw [(t3 hc).1] at hp
    cases hp
  obtain ⟨hcard, hrows⟩ := collectFilledRows_lockCells w.matrix p.currentGrid
    w.active_piece_x w.active_piece_y hx t1
  have hspec := checkLineclear_spec
    { w with
      matrix := lockCells w.matrix p.currentGrid w.active_piece_x w.active_piece_y
      active_piece := none } rfl
    (show (collectFilledRows
        (lockCells w.matrix p.currentGrid w.active_piece_x w.active_piece_y)
        w.pending_cleared_rows).card ≤ 4 by rw [hpend]; exact hcard)
    (show ∀ r ∈ collectFilledRows
        (lockCells w.matrix p.currentGrid w.active_piece_x w.active_piece_y)
        w.pending_cleared_rows, r < rows by rw [hpend]; exact hrows)
  exact ⟨_, (lockAndReleasePiece_spec w p hp).trans hspec, checkLineclear_tidy _ _ hspec⟩

theorem safe_ok (w : Well) (ht : w.Tidy) : Well.Safe (.ok w) := ht

theorem tidy_of_safe (r : Except Failure Well) (w : Well) (hs : Well.Safe r) (h : r = .ok w) :
    w.Tidy := by
  subst h
  exact hs

theorem error_of_safe (r : Except Failure Well) (e : Failure) (hs : Well.Safe r)
    (h : r = .error e) : e ≠ .lineclearTooManyRows := by
  subst h
  exact hs

theorem safe_of (r : Except Failure Well)
    (h1 : ∀ e, r = .error e → e ≠ .lineclearTooManyRows)
    (h2 : ∀ w', r = .ok w' → w'.Tidy) : Well.Safe r := by
  cases r with
  | error e => exact h1 e rfl
  | ok w' => exact h2 w' rfl

theorem moveDownNow_safe (w : Well) (ht : w.Tidy) : Well.Safe w.moveDownNow := by
  apply safe_of
  · intro e h
    unfold Well.moveDownNow at h
    split at h
    · cases h
    · split at h
      · rename_i e' hc
        injection h with h
        rw [← h]
        exact hasCollisionAt_error w _ _ e' hc
      · rename_i c hc
        obtain ⟨hx, _, p, hp, _⟩ := hasCollisionAt_inv _ _ _ _ hc
        cases c with
        | true =>
          simp only [not_true_eq_false, if_false, if_true] at h
          obtain ⟨w', e', _⟩ := lockAndReleasePiece_tidy w p hp hx ht
          rw [e'] at h
          cases h
        | false =>
          simp only [Bool.false_eq_true, not_false_eq_true, if_true] at h
          rw [if_neg (by simp)] at h
          cases h
  · intro w' h
    unfold Well.moveDownNow at h
    split at h
    · injection h with h; rw [← h]; exact ht
    · split at h
      · cases h
      · rename_i c hc
        obtain ⟨hx, _, p, hp, _⟩ := hasCollisionAt_inv _ _ _ _ hc
        cases c with
        | true =>
          simp only [not_true_eq_false, if_false, if_true] at h
          obtain ⟨w1, e', t⟩ := lockAndReleasePiece_tidy w p hp hx ht
          rw [e'] at h
          injection h with h
          rw [← h]
          exact t
        | false =>
          simp only [Bool.false_eq_true, not_false_eq_true, if_true] at h
          rw [if_neg (by simp)] at h
          injection h with h
          rw [← h]
          exact tidy_of_frame w _ ht rfl rfl rfl (fun ha => ha)

theorem hardDrop_safe (w : Well) (ht : w.Tidy) : Well.Safe w.hardDrop := by
  unfold Well.hardDrop
  split
  · show Failure.hardDropNoPiece ≠ Failure.lineclearTooManyRows
    decide
  · exact moveDownNow_safe { w with active_piece_y := w.ghost_piece_y }
      (tidy_of_frame w _ ht rfl rfl rfl (fun ha => ha))

theorem handleHorizontal_safe (w : Well) (ht : w.Tidy) : Well.Safe w.handleHorizontal := by
  unfold Well.handleHorizontal
  split
  · split
    · exact safe_of _ (moveLeftNow_error w) (fun w' h => moveLeftNow_tidy w w' ht h)
    · exact safe_of _ (moveRightNow_error w) (fun w' h => moveRightNow_tidy w w' ht h)
  · exact ht

theorem handleDown_safe (w : Well) (ht : w.Tidy) : Well.Safe w.handleDown := by
  unfold Well.handleDown
  split
  · have hs := moveDownNow_safe w ht
    cases hm : w.moveDownNow with
    | error e => exact error_of_safe _ e hs hm
    | ok w1 =>
      exact tidy_of_frame w1 { w1 with skip_gravity := true } (tidy_of_safe _ w1 hs hm)
        rfl rfl rfl (fun ha => ha)
  · exact ht

theorem handleUp_safe (w : Well) (ht : w.Tidy) : Well.Safe w.handleUp := by
  unfold Well.handleUp
  split
  · have hs := hardDrop_safe w ht
    cases hm : w.hardDrop with
    | error e => exact error_of_safe _ e hs hm
    | ok w1 =>
      exact tidy_of_frame w1 { w1 with skip_gravity := true } (tidy_of_safe _ w1 hs hm)
        rfl rfl rfl (fun ha => ha)
  · exact ht

theorem handleRotate_safe (w : Well) (ht : w.Tidy) : Well.Safe w.handleRotate := by
  unfold Well.handleRotate
  split
  · have hs : Well.Safe (if w.keystates.at .A then w.rotateCCWNow else w.rotateCWNow) := by
      split
      · exact safe_of _ (rotateCCWNow_error w) (fun w' h => rotateCCWNow_tidy w w' ht h)
      · exact safe_of _ (rotateCWNow_error w) (fun w' h => rotateCWNow_tidy w w' ht h)
    cases hm : (if w.keystates.at .A then w.rotateCCWNow else w.rotateCWNow) with
    | error e => exact error_of_safe _ e hs hm
    | ok w1 =>
      exact tidy_of_frame w1 w1.resetAutorepeat (tidy_of_safe _ w1 hs hm)
        rfl rfl rfl (fun ha => ha)
  · exact ht

theorem finishKeys_tidy (frame_duration : Duration) (w : Well) (a b : Bool) (ht : w.Tidy) :
    (w.finishKeys frame_duration a b).Tidy := by
  obtain ⟨c, t, r, e⟩ := finishKeys_frame frame_duration w a b
  rw [e]
  exact tidy_of_frame w _ ht rfl rfl rfl (fun ha => ha)

theorem handleKeys_safe (frame_duration : Duration) (w : Well) (ht : w.Tidy) :
    Well.Safe (w.handleKeys frame_duration) := by
  unfold Well.handleKeys
  have s1 := handleHorizontal_safe w ht
  cases h1 : w.handleHorizontal with
  | error e => exact error_of_safe _ e s1 h1
  | ok w1 =>
    have t1 := tidy_of_safe _ w1 s1 h1
    have s2 := handleDown_safe w1 t1
    dsimp only
    cases h2 : w1.handleDown with
    | error e => exact error_of_safe _ e s2 h2
    | ok w2 =>
      have t2 := tidy_of_safe _ w2 s2 h2
      have s3 := handleUp_safe w2 t2
      dsimp only
      cases h3 : w2.handleUp with
      | error e => exact error_of_safe _ e s3 h3
      | ok w3 =>
        have t3 := tidy_of_safe _ w3 s3 h3
        have s4 := handleRotate_safe w3 t3
        dsimp only
        cases h4 : w3.handleRotate with
        | error e => exact error_of_safe _ e s4 h4
        | ok w4 =>
          exact finishKeys_tidy frame_duration w4 _ _ (tidy_of_safe _ w4 s4 h4)

theorem updateGravity_safe (frame_duration : Duration) (w : Well) (ht : w.Tidy) :
    Well.Safe (w.updateGravity frame_duration) := by
  unfold Well.updateGravity
  dsimp only
  split
  · split
    · exact moveDownNow_safe
        { w with gravity_timer := w.gravity_timer + frame_duration - w.gravity_update_rate }
        (tidy_of_frame w _ ht rfl rfl rfl (fun ha => ha))
    · exact tidy_of_frame w
        { w with gravity_timer := w.gravity_timer + frame_duration - w.gravity_update_rate }
        ht rfl rfl rfl (fun ha => ha)
  · exact tidy_of_frame w { w with gravity_timer := w.gravity_timer + frame_duration }
      ht rfl rfl rfl (fun ha => ha)

theorem removeEmptyRows_safe (w : Well) (hfull : ∀ i, rowFilled (w.matrix i) = false) :
    Well.Safe w.removeEmptyRows := by
  unfold Well.removeEmptyRows
  split
  · show Failure.removeNoPendingRows ≠ Failure.lineclearTooManyRows
    decide
  · obtain ⟨hrows, herr⟩ := removeEmptyRowsLoop_rows rows w.matrix w.pending_cleared_rows
    cases hl : removeEmptyRowsLoop rows w.matrix w.pending_cleared_rows with
    | error e => exact herr e hl
    | ok m =>
      refine ⟨?_, ?_, ?_⟩
      · intro i
        obtain ⟨k, hk⟩ := hrows m hl i
        show rowFilled (m i) = false
        rw [hk]
        exact hfull k
      · show (∅ : Finset Nat).card ≤ 4
        simp
      · intro hc
        exact absurd rfl hc

theorem transition_update_running (t : Transition) (elapsed : Duration)
    (h : (t.update elapsed).2 = false) : (t.update elapsed).1.running = t.running := by
  unfold Transition.update at h ⊢
  unfold Transition.running
  by_cases hr : t.is_running = true
  · rw [if_pos hr] at h ⊢
    by_cases hf : t.timer + elapsed ≥ t.duration
    · rw [if_pos hf] at h
      cases h
    · rw [if_neg hf]
  · rw [if_neg hr]

theorem updateLineclearAlpha_safe (frame_duration : Duration) (w : Well) (ht : w.Tidy) :
    Well.Safe (w.updateLineclearAlpha frame_duration) := by
  unfold Well.updateLineclearAlpha
  dsimp only
  split
  · exact removeEmptyRows_safe
      { w with lineclear_alpha := (w.lineclear_alpha.update frame_duration).1 } ht.1
  · rename_i hfire
    have hfire' : (w.lineclear_alpha.update frame_duration).2 = false := by
      cases hb : (w.lineclear_alpha.update frame_duration).2 with
      | false => rfl
      | true => exact absurd hb hfire
    refine ⟨ht.1, ht.2.1, ?_⟩
    intro hc
    refine ⟨(ht.2.2 hc).1, ?_⟩
    show (w.lineclear_alpha.update frame_duration).1.running = true
    rw [transition_update_running _ _ hfire']
    exact (ht.2.2 hc).2

theorem updateKeystate_tidy (w : Well) (events : List InputEvent) (ht : w.Tidy) :
    (w.updateKeystate events).Tidy := by
  obtain ⟨ks, sg, t, r, e⟩ := updateKeystate_frame w events
  rw [e]
  exact tidy_of_frame w _ ht rfl rfl rfl (fun ha => ha)

theorem update_safe (frame_duration : Duration) (w : Well) (events : List InputEvent)
    (ht : w.Tidy) : Well.Safe (w.update frame_duration events) := by
  unfold Well.update
  split
  · exact ht
  · split
    · split
      · show Failure.updateNotRunning ≠ Failure.lineclearTooManyRows
        decide
      · have hs := updateLineclearAlpha_safe frame_duration w ht
        cases hu : w.updateLineclearAlpha frame_duration with
        | error e => exact error_of_safe _ e hs hu
        | ok w1 =>
          dsimp only
          split
          · show Failure.updateActivePiece ≠ Failure.lineclearTooManyRows
            decide
          · exact tidy_of_safe _ w1 hs hu
    · dsimp only
      have t1 := updateKeystate_tidy w events ht
      have t2 : Well.Tidy
          { w.updateKeystate events with
            keypress_countdown := (w.updateKeystate events).keypress_countdown - frame_duration } :=
        tidy_of_frame _ _ t1 rfl rfl rfl (fun ha => ha)
      have hs : Well.Safe
          (if (w.updateKeystate events).keypress_countdown - frame_duration ≤ 0 then
            Well.handleKeys frame_duration
              { w.updateKeystate events with
                keypress_countdown :=
                  (w.updateKeystate events).keypress_countdown - frame_duration }
          else
            .ok { w.updateKeystate events with
                  keypress_countdown :=
                    (w.updateKeystate events).keypress_countdown - frame_duration }) := by
        split
        · exact handleKeys_safe frame_duration _ t2
        · exact t2
      cases hk : (if (w.updateKeystate events).keypress_countdown - frame_duration ≤ 0 then
            Well.handleKeys frame_duration
              { w.updateKeystate events with
                keypress_countdown :=
                  (w.updateKeystate events).keypress_countdown - frame_duration }
          else
            .ok { w.updateKeystate events with
                  keypress_countdown :=
                    (w.updateKeystate events).keypress_countdown - frame_duration }) with
      | error e => exact error_of_safe _ e hs hk
      | ok w3 => exact updateGravity_safe frame_duration w3 (tidy_of_safe _ w3 hs hk)

theorem addPiece_safe (w : Well) (piece : Piece) (hreq : w.requiresNewPiece = true)
    (ht : w.Tidy) : Well.Safe (w.addPiece piece) := by
  obtain ⟨g, hi, e⟩ := addPiece_eq w piece hreq
  have hrun := ((requiresNewPiece_iff w).mp hreq).2.2
  have hc0 : ¬ w.pending_cleared_rows.card ≠ 0 := by
    intro hc
    have := (ht.2.2 hc).2
    rw [hrun] at this
    cases this
  have t1 : Well.Tidy
      { w with
        active_piece := some piece, active_piece_x := 3, active_piece_y := 0
        ghost_piece_y := g } :=
    ⟨ht.1, ht.2.1, fun hc => absurd hc hc0⟩
  rw [e]
  split
  · obtain ⟨w3, e3, t3⟩ := lockAndReleasePiece_tidy
      { w with
        active_piece := some piece, active_piece_x := 3, active_piece_y := 0
        ghost_piece_y := g } piece rfl
      (show (-3 : Int) ≤ 3 ∧ (3 : Int) < (columns : Int) from ⟨by decide, by decide⟩) t1
    rw [e3]
    exact tidy_of_frame w3 { w3 with gameover := true } t3 rfl rfl rfl (fun ha => ha)
  · exact t1

theorem init_tidy : Well.init.Tidy :=
  ⟨fun _ => rowFilled_emptyRow, by decide, fun hc => absurd rfl hc⟩

/-- Every reachable state has the invariant of the line-clear sequencer. -/
theorem reachable_tidy (frame_duration : Duration) (w : Well)
    (hr : Well.Reachable frame_duration w) : w.Tidy := by
  induction hr with
  | init => exact init_tidy
  | addPiece w w' piece _ hreq h ih =>
    exact tidy_of_safe _ w' (addPiece_safe w piece hreq ih) h
  | update w w' events _ h ih =>
    exact tidy_of_safe _ w' (update_safe frame_duration w events ih) h

/-- C18. In every state reachable from the initial well by `addPiece` calls,
made only when `requiresNewPiece` holds, and `update` calls, the set of
pending rows has at most four elements and, when it is non-empty, no piece is
active; from such a state neither `update` nor a permitted `addPiece` fails on
the assertion `pending_cleared_rows.size() <= 4` of `checkLineclear`. -/
theorem pending_rows_at_most_four (frame_duration : Duration) (w : Well)
    (hr : Well.Reachable frame_duration w) :
    w.pending_cleared_rows.card ≤ 4 ∧
    (w.pending_cleared_rows ≠ ∅ → w.active_piece = none) ∧
    (∀ events, w.update frame_duration events ≠ .error .lineclearTooManyRows) ∧
    (∀ piece, w.requiresNewPiece = true →
      w.addPiece piece ≠ .error .lineclearTooManyRows) := by
  have ht := reachable_tidy frame_duration w hr
  refine ⟨ht.2.1, ?_, ?_, ?_⟩
  · intro hne
    have hc : w.pending_cleared_rows.card ≠ 0 := by
      rw [Finset.card_ne_zero, Finset.nonempty_iff_ne_empty]
      exact hne
    exact (ht.2.2 hc).1
  · intro events h
    exact error_of_safe _ _ (update_safe frame_duration w events ht) h rfl
  · intro piece hreq h
    exact error_of_safe _ _ (addPiece_safe w piece hreq ht) h rfl

/-- Witness for C18: the T piece is spawned in the initial well and one frame
with DOWN pressed is played. -/
theorem pending_rows_at_most_four_witness :
    Well.Reachable 16 tWellStepped ∧ tWellStepped.pending_cleared_rows.card ≤ 4 ∧
      tWellStepped.update 16 [⟨.UP, true⟩] ≠ .error .lineclearTooManyRows :=
  have hr : Well.Reachable 16 tWellStepped :=
    Well.Reachable.update tWell tWellStepped [⟨.DOWN, true⟩]
      (Well.Reachable.addPiece Well.init tWell tPiece Well.Reachable.init rfl rfl) rfl
  ⟨hr, (pending_rows_at_most_four 16 tWellStepped hr).1,
    (pending_rows_at_most_four 16 tWellStepped hr).2.2.1 [⟨.UP, true⟩]⟩

/-! ## The text dump and its parser -/

theorem lines_length (x : Char) (n : Nat) :
    ∀ ls : List (List Char), (∀ l ∈ ls, l.length = n) →
      (ls.flatMap (· ++ [x])).length = ls.length * (n + 1) := by
  intro ls
  induction ls with
  | nil => intro _; simp
  | cons l rest ih =>
    intro h
    rw [List.flatMap_cons, List.length_append, ih (fun l' hl' => h l' (List.mem_cons_of_mem _ hl')),
      List.length_append, h l (List.mem_cons_self _ _), List.length_cons, List.length_nil,
      List.length_cons, Nat.succ_mul]
    omega

theorem asciiLayer_length (f : Fin rows → Fin columns → Char) :
    (asciiLayer f).length = rows * (columns + 1) := by
  unfold asciiLayer
  rw [← List.flatMap_map (fun row => (List.finRange columns).map (f row)) (· ++ ['\n']),
    lines_length '\n' columns]
  · rw [List.length_map, List.length_finRange]
  · intro l hl
    obtain ⟨r, _, hr⟩ := List.mem_map.mp hl
    rw [← hr, List.length_map, List.length_finRange]

theorem zipWith_flatMap {α β : Type} (f : β → β → β) (g1 g2 : α → List β) :
    ∀ l : List α, (∀ a ∈ l, (g1 a).length = (g2 a).length) →
      List.zipWith f (l.flatMap g1) (l.flatMap g2) =
        l.flatMap (fun a => List.zipWith f (g1 a) (g2 a)) := by
  intro l
  induction l with
  | nil => intro _; rfl
  | cons a rest ih =>
    intro h
    rw [List.flatMap_cons, List.flatMap_cons, List.flatMap_cons,
      List.zipWith_append f _ _ _ _ (h a (List.mem_cons_self _ _)),
      ih (fun a' ha' => h a' (List.mem_cons_of_mem _ ha'))]

theorem zipWith_diag {α β : Type} (g : α → α → β) :
    ∀ l : List α, List.zipWith g l l = l.map (fun a => g a a) := by
  intro l
  induction l with
  | nil => rfl
  | cons a rest ih => rw [List.zipWith_cons_cons, ih, List.map_cons]

/-- The merge of `asAscii` works cell by cell. -/
theorem zipWith_asciiLayer (f : Char → Char → Char) (hf : f '\n' '\n' = '\n')
    (p b : Fin rows → Fin columns → Char) :
    List.zipWith f (asciiLayer p) (asciiLayer b) = asciiLayer (fun r c => f (p r c) (b r c)) := by
  unfold asciiLayer
  rw [zipWith_flatMap]
  · congr 1
    funext row
    rw [List.zipWith_append f _ _ _ _ (by rw [List.length_map, List.length_map]),
      List.zipWith_map, zipWith_diag]
    simp only [List.zipWith_cons_cons, List.zipWith_nil_right, hf]
  · intro a _
    simp only [List.length_append, List.length_map]

theorem boardLayerChar_parseCell (typeFromAscii : Char → Option PieceType)
    (minoAscii : Mino → Char) (m : Matrix) (row : Fin rows) (cell : Fin columns) (c : Char)
    (hv : validChar typeFromAscii minoAscii c)
    (hm : m row cell = parseCell typeFromAscii c) :
    boardLayerChar minoAscii m row cell = c := by
  unfold boardLayerChar
  rw [hm]
  unfold parseCell
  by_cases hc : c = '.'
  · rw [if_pos hc]
    exact hc.symm
  · rw [if_neg hc]
    rcases hv with hv | hv
    · exact absurd hv hc
    · cases ht : typeFromAscii c with
      | none => rw [ht] at hv; cases hv
      | some t =>
        rw [ht] at hv
        injection hv with hv

/-- One valid character: the step of the inner loop of `fromAscii` stores the
parsed cell and moves on. -/
theorem fromAsciiCells_cons (typeFromAscii : Char → Option PieceType)
    (minoAscii : Mino → Char) (text : List Char) (row : Fin rows) (cell : Fin columns)
    (rest : List (Fin columns)) (m : Matrix) (str_i : Nat) (ch : Char)
    (hget : text[str_i]? = some ch) (hv : validChar typeFromAscii minoAscii ch) :
    fromAsciiCells typeFromAscii text row (cell :: rest) m str_i =
      fromAsciiCells typeFromAscii text row rest
        (setCell m row.val cell.val (parseCell typeFromAscii ch)) (str_i + 1) := by
  rw [fromAsciiCells, hget]
  dsimp only
  unfold parseCell
  by_cases hc : ch = '.'
  · rw [if_pos hc, if_pos hc]
  · rw [if_neg hc, if_neg hc]
    rcases hv with hv | hv
    · exact absurd hv hc
    · cases ht : typeFromAscii ch with
      | none => rw [ht] at hv; cases hv
      | some t => rfl

/-- The inner loop of `fromAscii` on a run of valid characters: it returns,
the counter has passed the run, the cells of the row print the run again, and
no other cell has changed. -/
theorem fromAsciiCells_spec (typeFromAscii : Char → Option PieceType)
    (minoAscii : Mino → Char) (text : List Char) (row : Fin rows) :
    ∀ (cs : List (Fin columns)) (l pre post : List Char) (m : Matrix),
      cs.Nodup → l.length = cs.length →
      (∀ c ∈ l, validChar typeFromAscii minoAscii c) → text = pre ++ l ++ post →
      ∃ m', fromAsciiCells typeFromAscii text row cs m pre.length =
          .ok (m', pre.length + l.length) ∧
        cs.map (boardLayerChar minoAscii m' row) = l ∧
        (∀ (i : Fin rows) (j : Fin columns), ¬ (i = row ∧ j ∈ cs) → m' i j = m i j) := by
  intro cs
  induction cs with
  | nil =>
    intro l pre post m _ hl _ _
    have : l = [] := List.length_eq_zero.mp hl
    subst this
    exact ⟨m, rfl, rfl, fun _ _ _ => rfl⟩
  | cons cell rest ih =>
    intro l pre post m hnd hl hv ht
    cases l with
    | nil => cases hl
    | cons ch l' =>
      have hget : text[pre.length]? = some ch := by
        rw [ht, List.append_assoc, List.getElem?_append_right (le_refl _), Nat.sub_self,
          List.cons_append, List.getElem?_cons_zero]
      have hvc := hv ch (List.mem_cons_self _ _)
      obtain ⟨hcell, hnd'⟩ := List.nodup_cons.mp hnd
      obtain ⟨m', e, hmap, hsame⟩ := ih l' (pre ++ [ch]) post
        (setCell m row.val cell.val (parseCell typeFromAscii ch)) hnd'
        (by simpa using hl) (fun c hc => hv c (List.mem_cons_of_mem _ hc))
        (by rw [ht]; simp)
      refine ⟨m', ?_, ?_, ?_⟩
      · rw [fromAsciiCells_cons typeFromAscii minoAscii text row cell rest m pre.length ch
          hget hvc]
        have hlen : (pre ++ [ch]).length = pre.length + 1 := by simp
        rw [hlen] at e
        rw [e]
        simp only [List.length_cons]
        congr 2
        omega
      · rw [List.map_cons, hmap]
        congr 1
        apply boardLayerChar_parseCell typeFromAscii minoAscii m' row cell ch hvc
        rw [hsame row cell (fun h => hcell h.2), setCell_apply, if_pos ⟨rfl, rfl⟩]
      · intro i j hij
        rw [hsame i j (fun h => hij ⟨h.1, List.mem_cons_of_mem _ h.2⟩), setCell_apply, if_neg]
        intro h
        exact hij ⟨Fin.ext h.1, by rw [Fin.ext h.2]; exact List.mem_cons_self _ _⟩

/-- The outer loop of `fromAscii` on valid lines: it returns, the rows print
the lines again, and no other row has changed. -/
theorem fromAsciiRows_spec (typeFromAscii : Char → Option PieceType)
    (minoAscii : Mino → Char) (text : List Char) :
    ∀ (rs : List (Fin rows)) (ls : List (List Char)) (pre post : List Char) (m : Matrix),
      rs.Nodup → ls.length = rs.length →
      (∀ l ∈ ls, l.length = columns ∧ ∀ c ∈ l, validChar typeFromAscii minoAscii c) →
      text = pre ++ ls.flatMap (· ++ ['\n']) ++ post →
      ∃ m', fromAsciiRows typeFromAscii text rs m pre.length = .ok m' ∧
        rs.map (fun r => (List.finRange columns).map (boardLayerChar minoAscii m' r)) = ls ∧
        (∀ i : Fin rows, i ∉ rs → m' i = m i) := by
  intro rs
  induction rs with
  | nil =>
    intro ls pre post m _ hl _ _
    have : ls = [] := List.length_eq_zero.mp hl
    subst this
    exact ⟨m, rfl, rfl, fun _ _ => rfl⟩
  | cons row rest ih =>
    intro ls pre post m hnd hl hv ht
    cases ls with
    | nil => cases hl
    | cons l ls' =>
      obtain ⟨hrow, hnd'⟩ := List.nodup_cons.mp hnd
      obtain ⟨hlen, hvl⟩ := hv l (List.mem_cons_self _ _)
      obtain ⟨m1, e1, hmap1, hsame1⟩ := fromAsciiCells_spec typeFromAscii minoAscii text row
        (List.finRange columns) l pre (['\n'] ++ ls'.flatMap (· ++ ['\n']) ++ post) m
        (List.nodup_finRange columns) (by rw [hlen, List.length_finRange]) hvl
        (by rw [ht]; simp)
      obtain ⟨m', e, hmap, hsame⟩ := ih ls' (pre ++ l ++ ['\n']) post m1 hnd'
        (by simpa using hl) (fun l' hl' => hv l' (List.mem_cons_of_mem _ hl'))
        (by rw [ht]; simp)
      refine ⟨m', ?_, ?_, ?_⟩
      · rw [fromAsciiRows, e1]
        dsimp only
        have hlen2 : (pre ++ l ++ ['\n']).length = pre.length + l.length + 1 := by
          rw [List.length_append, List.length_append]
          rfl
        rw [hlen2] at e
        exact e
      · rw [List.map_cons, hmap]
        congr 1
        rw [← hmap1]
        apply List.map_congr_left
        intro j _
        unfold boardLayerChar
        rw [hsame row hrow]
      · intro i hi
        rw [hsame i (fun h => hi (List.mem_cons_of_mem _ h))]
        funext j
        exact hsame1 i j (fun h => hi (by rw [h.1]; exact List.mem_cons_self _ _))

theorem pieceLayerChar_of_no_piece (minoAscii : Mino → Char) (w : Well)
    (hn : w.active_piece = none) : w.pieceLayerChar minoAscii = fun _ _ => '.' := by
  funext row cell
  unfold Well.pieceLayerChar
  rw [hn]

/-- Without an active piece and with the anchor in range `asAscii` returns the
board layer. -/
theorem asAscii_of_no_piece (minoAscii : Mino → Char) (w : Well)
    (hn : w.active_piece = none) (hr : w.InRange) :
    w.asAscii minoAscii = .ok (asciiLayer (boardLayerChar minoAscii w.matrix)) := by
  obtain ⟨hx1, hx2, hy⟩ := hr
  unfold Well.asAscii
  rw [if_neg (not_not.mpr (by omega)), if_neg (not_not.mpr hx2), if_neg (not_not.mpr hy)]
  dsimp only
  rw [if_neg (by rw [asciiLayer_length, asciiLayer_length]; exact fun h => h rfl),
    zipWith_asciiLayer _ (by decide), pieceLayerChar_of_no_piece minoAscii w hn]
  rfl

/-- Every text that `asAscii` returns has `rows * (columns + 1)` characters. -/
theorem asAscii_length (minoAscii : Mino → Char) (w : Well) (out : List Char)
    (h : w.asAscii minoAscii = .ok out) : out.length = rows * (columns + 1) := by
  unfold Well.asAscii at h
  split at h
  · cases h
  · split at h
    · cases h
    · split at h
      · cases h
      · dsimp only at h
        split at h
        · cases h
        · injection h with h
          rw [← h, List.length_zipWith, asciiLayer_length, asciiLayer_length, Nat.min_self]

/-- C14. For every text of exactly 22 lines, each made of 10 characters that
are `.` or an identity character that a parsed mino prints again, and each
followed by a newline, `fromAscii` returns and `asAscii` on the resulting
well, which has no active piece and the anchor in the asserted range, returns
exactly the text; every text that `asAscii` returns has length
`rows * (columns + 1)`. -/
theorem fromAscii_asAscii (typeFromAscii : Char → Option PieceType)
    (minoAscii : Mino → Char) (w : Well) (lines : List (List Char))
    (hn : w.active_piece = none) (hr : w.InRange)
    (hlen : lines.length = rows)
    (hv : ∀ l ∈ lines, l.length = columns ∧ ∀ c ∈ l, validChar typeFromAscii minoAscii c) :
    (∃ w', w.fromAscii typeFromAscii (lines.flatMap (· ++ ['\n'])) = .ok w' ∧
      w'.asAscii minoAscii = .ok (lines.flatMap (· ++ ['\n']))) ∧
    (∀ (w2 : Well) (out : List Char), w2.asAscii minoAscii = .ok out →
      out.length = rows * (columns + 1)) := by
  refine ⟨?_, fun w2 out h => asAscii_length minoAscii w2 out h⟩
  have htlen : (lines.flatMap (· ++ ['\n'])).length = rows * (columns + 1) := by
    rw [lines_length '\n' columns lines (fun l hl => (hv l hl).1), hlen]
  obtain ⟨m', e, hmap, _⟩ := fromAsciiRows_spec typeFromAscii minoAscii
    (lines.flatMap (· ++ ['\n'])) (List.finRange rows) lines [] [] w.matrix
    (List.nodup_finRange rows) (by rw [hlen, List.length_finRange]) hv
    (by rw [List.nil_append, List.append_nil])
  refine ⟨{ w with matrix := m' }, ?_, ?_⟩
  · unfold Well.fromAscii
    rw [if_neg (not_not.mpr htlen)]
    have e' : fromAsciiRows typeFromAscii (lines.flatMap (· ++ ['\n'])) (List.finRange rows)
        w.matrix 0 = .ok m' := e
    rw [e']
  · rw [asAscii_of_no_piece minoAscii { w with matrix := m' } hn hr]
    congr 1
    show asciiLayer (boardLayerChar minoAscii m') = _
    unfold asciiLayer
    rw [← List.flatMap_map (fun row => (List.finRange columns).map (boardLayerChar minoAscii m' row))
      (· ++ ['\n']), hmap]

/-- Witness for C14: twenty empty lines, a line with a T and a line with minos
of three kinds, read into the initial well and printed again. -/
theorem fromAscii_asAscii_witness :
    ∃ w', Well.init.fromAscii letterType (sampleLines.flatMap (· ++ ['\n'])) = .ok w' ∧
      w'.asAscii typeLetter = .ok (sampleLines.flatMap (· ++ ['\n'])) :=
  (fromAscii_asAscii letterType typeLetter Well.init sampleLines rfl
    ⟨by decide, by decide, by decide⟩ rfl (by decide)).1

/-! ## Stepping down and rotating a piece in play -/

/-- A returning `checkLineclear` either clears rows and releases all keys, or
finds no filled row and leaves input state and game state alone. -/
theorem checkLineclear_live (w w' : Well) (h : w.checkLineclear = .ok w') :
    w'.keystates = KeyStates.allReleased ∨
    (w.SameInput w' ∧ w'.gameover = w.gameover ∧ w'.pending_cleared_rows = ∅) := by
  unfold Well.checkLineclear at h
  split at h
  · cases h
  · dsimp only at h
    split at h
    · cases h
    · split at h
      · split at h
        · cases h
        · injection h with h
          rw [← h]
          exact Or.inl rfl
      · rename_i hc
        injection h with h
        rw [← h]
        refine Or.inr ⟨⟨rfl, rfl, rfl, rfl, rfl, rfl, rfl⟩, rfl, ?_⟩
        exact Finset.card_eq_zero.mp (not_not.mp hc)

theorem moveDownNow_live (w w' : Well) (h : w.moveDownNow = .ok w') :
    w'.keystates = KeyStates.allReleased ∨
    (w.SameInput w' ∧ w'.gameover = w.gameover ∧
      (w.pending_cleared_rows = ∅ → w'.pending_cleared_rows = ∅)) := by
  unfold Well.moveDownNow at h
  split at h
  · injection h with h
    rw [← h]
    exact Or.inr ⟨⟨rfl, rfl, rfl, rfl, rfl, rfl, rfl⟩, rfl, fun hp => hp⟩
  · split at h
    · cases h
    · rename_i c _
      cases c with
      | true =>
        simp only [not_true_eq_false, if_false, if_true] at h
        unfold Well.lockAndReleasePiece at h
        split at h
        · cases h
        · rcases checkLineclear_live _ w' h with hl | ⟨hs, hg, hpe⟩
          · exact Or.inl hl
          · exact Or.inr ⟨hs, hg, fun _ => hpe⟩
      | false =>
        simp only [Bool.false_eq_true, not_false_eq_true, if_true] at h
        rw [if_neg (by simp)] at h
        injection h with h
        rw [← h]
        exact Or.inr ⟨⟨rfl, rfl, rfl, rfl, rfl, rfl, rfl⟩, rfl, fun hp => hp⟩

theorem updateGravity_live (frame_duration : Duration) (w w' : Well)
    (h : w.updateGravity frame_duration = .ok w') :
    w'.keystates = KeyStates.allReleased ∨
    (w.SameInput w' ∧ w'.gameover = w.gameover ∧
      (w.pending_cleared_rows = ∅ → w'.pending_cleared_rows = ∅)) := by
  rcases updateGravity_cases frame_duration w w' h with h1 | ⟨_, h1⟩ | ⟨_, h1⟩
  · subst h1
    exact Or.inr ⟨⟨rfl, rfl, rfl, rfl, rfl, rfl, rfl⟩, rfl, fun hp => hp⟩
  · subst h1
    exact Or.inr ⟨⟨rfl, rfl, rfl, rfl, rfl, rfl, rfl⟩, rfl, fun hp => hp⟩
  · exact moveDownNow_live
      { w with gravity_timer := w.gravity_timer + frame_duration - w.gravity_update_rate } w' h1

/-- One frame with LEFT alone held on a well in play (game not over, nothing
pending): the well stays in play, and when the countdown has not expired it
loses one frame duration. -/
theorem leftHeldFrame_live (frame_duration : Duration) (w w' : Well)
    (events : List InputEvent) (hf : w.LeftHeldFrame frame_duration events w')
    (hgo : w.gameover = false) (hpend : w.pending_cleared_rows = ∅) :
    w'.gameover = false ∧ w'.pending_cleared_rows = ∅ ∧
    (¬ w.keypress_countdown - frame_duration ≤ 0 →
      w'.keypress_countdown = w.keypress_countdown - frame_duration) := by
  obtain ⟨hprev, hks, h, hk'⟩ := hf
  have hupd := updateKeystate_left_only w events hprev hks
  unfold Well.update at h
  rw [if_neg (by rw [hgo]; simp), if_neg (by rw [hpend]; simp), hupd] at h
  dsimp only at h
  by_cases hcd : w.keypress_countdown - frame_duration ≤ 0
  · rw [if_pos hcd] at h
    cases hkeys : Well.handleKeys frame_duration
        { w with
          previous_keystates := w.keystates, keystates := KeyStates.leftOnly
          skip_gravity := false
          keypress_countdown := w.keypress_countdown - frame_duration } with
    | error e =>
      rw [hkeys] at h
      cases h
    | ok w3 =>
      rw [hkeys] at h
      dsimp only at h
      obtain ⟨wm, hm, e3⟩ := handleKeys_left_only frame_duration
        { w with
          previous_keystates := w.keystates, keystates := KeyStates.leftOnly
          skip_gravity := false
          keypress_countdown := w.keypress_countdown - frame_duration } w3 rfl hkeys
      obtain ⟨q, x, g, em⟩ := moveLeftNow_sameButPiece
        { w with
          previous_keystates := w.keystates, keystates := KeyStates.leftOnly
          skip_gravity := false
          keypress_countdown := w.keypress_countdown - frame_duration } wm hm
      obtain ⟨c, t, r, ef⟩ := finishKeys_frame frame_duration wm true true
      have hg3 : w3.gameover = false := by rw [e3, ef, em]; exact hgo
      have hp3 : w3.pending_cleared_rows = ∅ := by rw [e3, ef, em]; exact hpend
      rcases updateGravity_live frame_duration w3 w' h with hs | ⟨_, hg, hp⟩
      · rw [hs] at hk'
        exact absurd hk' leftOnly_ne_allReleased
      · exact ⟨by rw [hg, hg3], hp hp3, fun hn => absurd hcd hn⟩
  · rw [if_neg hcd] at h
    dsimp only at h
    rcases updateGravity_live frame_duration _ w' h with hs | ⟨hsame, hg, hp⟩
    · rw [hs] at hk'
      exact absurd hk' leftOnly_ne_allReleased
    · exact ⟨by rw [hg]; exact hgo, hp hpend, fun _ => hsame.2.2.2.1⟩

/-- The autorepeat invariant of frames with LEFT alone held, with the default
timings and a positive frame duration: the timing constants stay, the repeat
rate is the turbo rate exactly when the autorepeat timer exceeds the delay, and
a turbo rate stays. -/
theorem leftHeld_inv (frame_duration : Duration) (hfd : 0 < frame_duration) (w0 w : Well)
    (n : Nat) (hrun : Well.LeftHeld frame_duration w0 n w)
    (hdelay : w0.autorepeat_delay = 300) (hnormal : w0.keypress_normal_update_rate = 150)
    (hturbo : w0.keypress_turbo_update_rate = 40)
    (h0 : w0.keypress_rate_now = w0.keypress_turbo_update_rate ↔
      w0.autorepeat_timer > w0.autorepeat_delay) :
    w.autorepeat_delay = 300 ∧ w.keypress_normal_update_rate = 150 ∧
    w.keypress_turbo_update_rate = 40 ∧
    (w.keypress_rate_now = w.keypress_turbo_update_rate ↔
      w.autorepeat_timer > w.autorepeat_delay) ∧
    (w0.keypress_rate_now = w0.keypress_turbo_update_rate →
      w.keypress_rate_now = w.keypress_turbo_update_rate) := by
  induction hrun with
  | start => exact ⟨hdelay, hnormal, hturbo, h0, fun h => h⟩
  | frame n w1 w2 events _ hf ih =>
    obtain ⟨i1, i2, i3, i4, i5⟩ := ih
    obtain ⟨s1, s2, s3, s4, s5⟩ := leftHeldFrame_step frame_duration w1 w2 events hf
    have hstep : (w2.keypress_rate_now = w2.keypress_turbo_update_rate ↔
          w2.autorepeat_timer > w2.autorepeat_delay) ∧
        (w1.keypress_rate_now = w1.keypress_turbo_update_rate →
          w2.keypress_rate_now = w2.keypress_turbo_update_rate) := by
      by_cases hh : w1.gameover = false ∧ w1.pending_cleared_rows = ∅ ∧
          w1.keypress_countdown - frame_duration ≤ 0
      · obtain ⟨_, t2, t3⟩ := s4 hh
        by_cases hgt : w1.autorepeat_timer + (w1.keypress_rate_now + frame_duration) >
            w1.autorepeat_delay
        · rw [if_pos hgt] at t3
          rw [t3, t2, s1, s3]
          exact ⟨⟨fun _ => hgt, fun _ => rfl⟩, fun _ => rfl⟩
        · rw [if_neg hgt] at t3
          have hno : ¬ w1.keypress_rate_now = w1.keypress_turbo_update_rate := by
            intro hr
            have ht := i4.mp hr
            apply hgt
            rw [hr, i3]
            rw [i1] at ht ⊢
            have h40 : (0 : Int) < 40 + frame_duration := by
              have : (0 : Int) < frame_duration := hfd
              omega
            have ht' : (300 : Int) < w1.autorepeat_timer := ht
            show (300 : Int) < w1.autorepeat_timer + (40 + frame_duration)
            omega
          rw [t3, t2, s1, s3]
          exact ⟨⟨fun h => absurd h hno, fun h => absurd h hgt⟩, fun h => absurd h hno⟩
      · obtain ⟨t2, t3⟩ := s5 hh
        rw [t2, t3, s1, s3]
        exact ⟨i4, fun h => h⟩
    exact ⟨by rw [s1, i1], by rw [s2, i2], by rw [s3, i3], hstep.1, fun h => hstep.2 (i5 h)⟩

/-- The escalation of the autorepeat over `n` frames with LEFT alone held, on
a well in play that starts from the reset input state with the default timings
and a countdown of at most the normal rate: the well stays in play and is in
one of three stages. Before the first move command the timer is 0; after the
first it is `150 + frame_duration`, which is not above the delay only when the
frame lasts at most 150 ms; after that the rate is turbo. The countdown bounds
say how long a stage can last. -/
theorem leftHeld_stage (frame_duration : Duration) (hfd : 0 < frame_duration) (w0 w : Well)
    (n : Nat) (hrun : Well.LeftHeld frame_duration w0 n w)
    (hdelay : w0.autorepeat_delay = 300) (hnormal : w0.keypress_normal_update_rate = 150)
    (hturbo : w0.keypress_turbo_update_rate = 40)
    (htimer : w0.autorepeat_timer = 0)
    (hrate : w0.keypress_rate_now = w0.keypress_normal_update_rate)
    (hgo : w0.gameover = false) (hpend : w0.pending_cleared_rows = ∅)
    (hcd : w0.keypress_countdown ≤ 150) :
    w.gameover = false ∧ w.pending_cleared_rows = ∅ ∧
    w.autorepeat_delay = 300 ∧ w.keypress_turbo_update_rate = 40 ∧
    ((w.autorepeat_timer = 0 ∧ w.keypress_rate_now = 150 ∧
        w.keypress_countdown + (n : Int) * frame_duration ≤ 150 ∧
        (n = 0 ∨ 0 < w.keypress_countdown)) ∨
      (w.autorepeat_timer = 150 + frame_duration ∧ w.keypress_rate_now = 150 ∧
        frame_duration ≤ 150 ∧ 0 < w.keypress_countdown ∧
        w.keypress_countdown + (n : Int) * frame_duration ≤ 300 + frame_duration) ∨
      (w.keypress_rate_now = 40 ∧ w.autorepeat_timer > 300)) := by
  induction hrun with
  | start =>
    refine ⟨hgo, hpend, hdelay, hturbo, Or.inl ⟨htimer, by rw [hrate, hnormal], ?_, Or.inl rfl⟩⟩
    have : w0.keypress_countdown ≤ (150 : Int) := hcd
    show w0.keypress_countdown + ((0 : Nat) : Int) * frame_duration ≤ (150 : Int)
    simp only [Nat.cast_zero, zero_mul, add_zero]
    exact this
  | frame n w1 w2 events _ hf ih =>
    obtain ⟨g1, p1, d1, u1, hst⟩ := ih
    obtain ⟨s1, _, s3, s4, s5⟩ := leftHeldFrame_step frame_duration w1 w2 events hf
    obtain ⟨l1, l2, l3⟩ := leftHeldFrame_live frame_duration w1 w2 events hf g1 p1
    refine ⟨l1, l2, by rw [s1, d1], by rw [s3, u1], ?_⟩
    have hmul : ((n + 1 : Nat) : Int) * frame_duration =
        (n : Int) * frame_duration + frame_duration := by
      push_cast
      ring
    have hfd' : (0 : Int) < frame_duration := hfd
    have hnn : (0 : Int) ≤ (n : Int) * frame_duration :=
      Int.mul_nonneg (Int.ofNat_nonneg n) (le_of_lt hfd')
    by_cases hc : w1.keypress_countdown - frame_duration ≤ 0
    · obtain ⟨t1, t2, t3⟩ := s4 ⟨g1, p1, hc⟩
      have hc' : w1.keypress_countdown - frame_duration ≤ (0 : Int) := hc
      rcases hst with ⟨a1, a2, a3, a4⟩ | ⟨a1, a2, a3, _, _⟩ | ⟨a1, a2⟩
      · rw [a1, a2, d1, u1] at t3
        rw [a1, a2] at t2
        rw [a2] at t1
        by_cases hgt : (0 : Duration) + (150 + frame_duration) > 300
        · rw [if_pos hgt] at t3
          refine Or.inr (Or.inr ⟨t3, ?_⟩)
          rw [t2]
          exact hgt
        · rw [if_neg hgt] at t3
          have hgt' : ¬ (0 : Int) + (150 + frame_duration) > 300 := hgt
          have a3' : w1.keypress_countdown + (n : Int) * frame_duration ≤ (150 : Int) := a3
          have hn150 : (n : Int) * frame_duration ≤ 150 := by
            rcases a4 with h | h
            · rw [h]
              simp
            · have h' : (0 : Int) < w1.keypress_countdown := h
              linarith
          refine Or.inr (Or.inl ⟨?_, t3, ?_, ?_, ?_⟩)
          · rw [t2]
            show (0 : Int) + (150 + frame_duration) = 150 + frame_duration
            linarith
          · show frame_duration ≤ (150 : Int)
            linarith
          · rw [t1]
            show (0 : Int) < 150
            decide
          · rw [t1, hmul]
            show (150 : Int) + ((n : Int) * frame_duration + frame_duration) ≤
              300 + frame_duration
            linarith
      · rw [a1, a2, d1, u1] at t3
        rw [a1, a2] at t2
        have hgt : (150 + frame_duration : Duration) + (150 + frame_duration) > 300 := by
          show (300 : Int) < (150 + frame_duration) + (150 + frame_duration)
          linarith
        rw [if_pos hgt] at t3
        refine Or.inr (Or.inr ⟨t3, ?_⟩)
        rw [t2]
        exact hgt
      · rw [a1, d1, u1] at t3
        rw [a1] at t2
        have a2' : (300 : Int) < w1.autorepeat_timer := a2
        have hgt : w1.autorepeat_timer + (40 + frame_duration) > 300 := by
          show (300 : Int) < w1.autorepeat_timer + (40 + frame_duration)
          linarith
        rw [if_pos hgt] at t3
        refine Or.inr (Or.inr ⟨t3, ?_⟩)
        rw [t2]
        exact hgt
    · obtain ⟨t2, t3⟩ := s5 (fun hh => hc hh.2.2)
      have t1 := l3 hc
      have hc' : ¬ w1.keypress_countdown - frame_duration ≤ (0 : Int) := hc
      rcases hst with ⟨a1, a2, a3, _⟩ | ⟨a1, a2, a3, _, a5⟩ | ⟨a1, a2⟩
      · refine Or.inl ⟨by rw [t2, a1], by rw [t3, a2], ?_, Or.inr ?_⟩
        · rw [t1, hmul]
          have a3' : w1.keypress_countdown + (n : Int) * frame_duration ≤ (150 : Int) := a3
          show w1.keypress_countdown - frame_duration +
            ((n : Int) * frame_duration + frame_duration) ≤ (150 : Int)
          linarith
        · rw [t1]
          show (0 : Int) < w1.keypress_countdown - frame_duration
          linarith
      · refine Or.inr (Or.inl ⟨by rw [t2, a1], by rw [t3, a2], a3, ?_, ?_⟩)
        · rw [t1]
          show (0 : Int) < w1.keypress_countdown - frame_duration
          linarith
        · rw [t1, hmul]
          have a5' : w1.keypress_countdown + (n : Int) * frame_duration ≤
            (300 : Int) + frame_duration := a5
          show w1.keypress_countdown - frame_duration +
            ((n : Int) * frame_duration + frame_duration) ≤ (300 : Int) + frame_duration
          linarith
      · exact Or.inr (Or.inr ⟨by rw [t3, a1], by rw [t2]; exact a2⟩)

/-- C11. Starting from the reset input state (autorepeat timer zero, repeat
rate normal) with the default timings and a positive frame duration, after `n`
frames in which LEFT alone is held and no key is released:
the repeat rate is the turbo rate exactly when the accumulated autorepeat
timer exceeds the autorepeat delay; every further frame that handles the keys
(a move command: game not over, nothing pending, countdown expired) adds the
repeat rate and the frame duration to the timer and restarts the countdown at
the repeat rate, every other frame of a well in play leaves timer and rate
alone and takes one frame duration off the countdown; on a well in play whose
countdown starts at most at the normal rate the timer is 0 before the first
move command and `150 + frame_duration` after it, the second move command at
the latest makes the rate turbo, and the rate is turbo once LEFT has been held
for 450 ms (delay plus normal rate); once turbo, the rate stays turbo in every
later such frame and every later move command restarts the countdown at the
turbo rate. -/
theorem autorepeat_turbo (frame_duration : Duration) (hfd : 0 < frame_duration)
    (w0 w : Well) (n : Nat)
    (hdelay : w0.autorepeat_delay = 300) (hnormal : w0.keypress_normal_update_rate = 150)
    (hturbo : w0.keypress_turbo_update_rate = 40)
    (htimer : w0.autorepeat_timer = 0)
    (hrate : w0.keypress_rate_now = w0.keypress_normal_update_rate)
    (hrun : Well.LeftHeld frame_duration w0 n w) :
    (w.keypress_rate_now = w.keypress_turbo_update_rate ↔
      w.autorepeat_timer > w.autorepeat_delay) ∧
    w.keypress_turbo_update_rate = 40 ∧ w.autorepeat_delay = 300 ∧
    (∀ (w2 : Well) (events : List InputEvent), Well.LeftHeldFrame frame_duration w events w2 →
      ((w.gameover = false ∧ w.pending_cleared_rows = ∅ ∧
          w.keypress_countdown - frame_duration ≤ 0) →
        w2.autorepeat_timer = w.autorepeat_timer + (w.keypress_rate_now + frame_duration) ∧
        w2.keypress_countdown = w.keypress_rate_now ∧
        (w2.keypress_rate_now = 40 ↔ w2.autorepeat_timer > 300)) ∧
      ((w.gameover = false ∧ w.pending_cleared_rows = ∅ ∧
          ¬ w.keypress_countdown - frame_duration ≤ 0) →
        w2.autorepeat_timer = w.autorepeat_timer ∧
        w2.keypress_rate_now = w.keypress_rate_now ∧
        w2.keypress_countdown = w.keypress_countdown - frame_duration)) ∧
    (w0.gameover = false → w0.pending_cleared_rows = ∅ → w0.keypress_countdown ≤ 150 →
      ((w.autorepeat_timer = 0 ∧ w.keypress_rate_now = 150) ∨
        (w.autorepeat_timer = 150 + frame_duration ∧ w.keypress_rate_now = 150 ∧
          frame_duration ≤ 150) ∨
        (w.keypress_rate_now = 40 ∧ w.autorepeat_timer > 300)) ∧
      ((n : Int) * frame_duration ≥ 450 →
        w.keypress_rate_now = 40 ∧ w.autorepeat_timer > 300)) ∧
    (w.keypress_rate_now = w.keypress_turbo_update_rate →
      ∀ (m : Nat) (w1 w2 : Well) (events : List InputEvent),
        Well.LeftHeld frame_duration w m w1 → Well.LeftHeldFrame frame_duration w1 events w2 →
        w1.keypress_rate_now = w1.keypress_turbo_update_rate ∧
        w2.keypress_rate_now = w2.keypress_turbo_update_rate ∧
        (w1.gameover = false → w1.pending_cleared_rows = ∅ →
          w1.keypress_countdown - frame_duration ≤ 0 →
          w2.keypress_countdown = w2.keypress_turbo_update_rate)) := by
  have h0 : w0.keypress_rate_now = w0.keypress_turbo_update_rate ↔
      w0.autorepeat_timer > w0.autorepeat_delay := by
    rw [hrate, hnormal, hturbo, htimer, hdelay]
    constructor
    · intro h; cases h
    · intro h; exact absurd h (by decide)
  obtain ⟨i1, i2, i3, i4, _⟩ :=
    leftHeld_inv frame_duration hfd w0 w n hrun hdelay hnormal hturbo h0
  refine ⟨i4, i3, i1, ?_, ?_, ?_⟩
  · intro w2 events hf
    obtain ⟨k1, _, k3, k4, _⟩ := leftHeld_inv frame_duration hfd w0 w2 (n + 1)
      (Well.LeftHeld.frame w0 n w w2 events hrun hf) hdelay hnormal hturbo h0
    obtain ⟨_, _, _, s4, s5⟩ := leftHeldFrame_step frame_duration w w2 events hf
    constructor
    · intro hh
      obtain ⟨t1, t2, _⟩ := s4 hh
      refine ⟨t2, t1, ?_⟩
      rw [k1, k3] at k4
      exact k4
    · intro hh
      obtain ⟨t2, t3⟩ := s5 (fun h => hh.2.2 h.2.2)
      exact ⟨t2, t3, (leftHeldFrame_live frame_duration w w2 events hf hh.1 hh.2.1).2.2 hh.2.2⟩
  · intro hgo hpend hcd
    obtain ⟨_, _, _, _, hst⟩ := leftHeld_stage frame_duration hfd w0 w n hrun hdelay hnormal
      hturbo htimer hrate hgo hpend hcd
    have hfd' : (0 : Int) < frame_duration := hfd
    constructor
    · rcases hst with ⟨a1, a2, _, _⟩ | ⟨a1, a2, a3, _, _⟩ | h
      · exact Or.inl ⟨a1, a2⟩
      · exact Or.inr (Or.inl ⟨a1, a2, a3⟩)
      · exact Or.inr (Or.inr h)
    · intro hn
      rcases hst with ⟨_, _, a3, a4⟩ | ⟨_, _, a3, a4, a5⟩ | h
      · exfalso
        rcases a4 with h | h
        · rw [h] at hn
          simp at hn
        · linarith
      · exfalso
        linarith
      · exact h
  · intro hturbo_now m w1 w2 events hrun1 hf
    obtain ⟨j1, j2, j3, j4, j5⟩ := leftHeld_inv frame_duration hfd w w1 m hrun1 i1 i2 i3 i4
    obtain ⟨k1, k2, k3, k4, k5⟩ := leftHeld_inv frame_duration hfd w w2 (m + 1)
      (Well.LeftHeld.frame w m w1 w2 events hrun1 hf) i1 i2 i3 i4
    refine ⟨j5 hturbo_now, k5 hturbo_now, ?_⟩
    intro hgo hpend hcd
    obtain ⟨s1, s2, s3, s4, _⟩ := leftHeldFrame_step frame_duration w1 w2 events hf
    rw [(s4 ⟨hgo, hpend, hcd⟩).1, j5 hturbo_now, s3]

/-- Witness for C11: the T piece is spawned on the empty board, LEFT is
pressed in the first frame and held, frames of 150 ms. The first frame is a
move command and brings the timer to 300; the second brings it to 600 and the
rate to turbo; the third restarts the countdown at 40, and LEFT has then been
held for 450 ms. -/
theorem autorepeat_turbo_witness :
    Well.LeftHeld 150 tWell 2 tWellLeft2 ∧
      tWellLeft1.autorepeat_timer = tWell.autorepeat_timer + (tWell.keypress_rate_now + 150) ∧
      tWellLeft2.autorepeat_timer = 600 ∧ tWellLeft2.keypress_rate_now = 40 ∧
      Well.LeftHeldFrame 150 tWellLeft2 [] tWellLeft3 ∧
      tWellLeft3.keypress_rate_now = 40 ∧ tWellLeft3.keypress_countdown = 40 ∧
      (tWellLeft3.keypress_rate_now = 40 ∧ tWellLeft3.autorepeat_timer > 300) :=
  have hf1 : Well.LeftHeldFrame 150 tWell [⟨.LEFT, true⟩] tWellLeft1 :=
    ⟨Or.inl rfl, rfl, rfl, rfl⟩
  have hrun : Well.LeftHeld 150 tWell 2 tWellLeft2 :=
    Well.LeftHeld.frame tWell 1 tWellLeft1 tWellLeft2 []
      (Well.LeftHeld.frame tWell 0 tWell tWellLeft1 [⟨.LEFT, true⟩]
        (Well.LeftHeld.start tWell) hf1)
      ⟨Or.inr rfl, rfl, rfl, rfl⟩
  have hf : Well.LeftHeldFrame 150 tWellLeft2 [] tWellLeft3 := ⟨Or.inr rfl, rfl, rfl, rfl⟩
  have h0 := autorepeat_turbo 150 (by decide) tWell tWell 0 rfl rfl rfl rfl rfl
    (Well.LeftHeld.start tWell)
  have h2 := autorepeat_turbo 150 (by decide) tWell tWellLeft2 2 rfl rfl rfl rfl rfl hrun
  have h3 := autorepeat_turbo 150 (by decide) tWell tWellLeft3 3 rfl rfl rfl rfl rfl
    (Well.LeftHeld.frame tWell 2 tWellLeft2 tWellLeft3 [] hrun hf)
  have h := h2.2.2.2.2.2 rfl 0 tWellLeft2 tWellLeft3 [] (Well.LeftHeld.start tWellLeft2) hf
  ⟨hrun, ((h0.2.2.2.1 tWellLeft1 [⟨.LEFT, true⟩] hf1).1 ⟨rfl, rfl, by decide⟩).1, rfl, rfl, hf,
    h.2.1, h.2.2 rfl rfl (by decide), (h3.2.2.2.2.1 rfl rfl (by decide)).2 (by decide)⟩

end OpenBlok
